import Mathlib

/-! Connected-component extraction on a thresholded raster.

A shallow embedding of `ConnectedComponent.cpp` and `PGMimageProcessor.cpp`.

Modelling conventions.

* A C++ `int` is an `Int`; an `unsigned char` sample is a `Nat`.  Every value computed by
  the labelling scan lies between `-1` and `width * height`, so nothing wraps there as long as
  `width * height` itself is an `int`, which the code needs anyway to size `labels`.  The one
  conversion that does wrap, `static_cast<size_t>(minValidSize)`, is written with an explicit
  `% 2 ^ 64`.  Where a statement depends on a value being a C++ `int` (the sentinels of the
  bounding box, the minimum size), it says so with a bound by `INT_MAX`.
* `std::vector<T>` is a `List T`.  `operator[]` is unchecked in C++; here a read or a write
  outside the vector makes the whole computation return `none`, and so does the construction
  of a vector with a negative count.  Every theorem of the form
  `extractComponents ... = some ...` therefore also says that no index left its vector.
* The `while (!queue.empty())` loop is run with a fuel of `binaryImage.size() + 1` iterations;
  running out of fuel also yields `none`.
* `std::shared_ptr<ConnectedComponent>` is the component value itself.
-/

namespace PGM

/-! ## ConnectedComponent -/

/-- The value `std::numeric_limits<int>::max()`. -/
def INT_MAX : Int := 2147483647

/-- The value `std::numeric_limits<int>::min()`. -/
def INT_MIN : Int := -2147483648

/-- The fields of the class `ConnectedComponent`, in declaration order. -/
structure ConnectedComponent where
  id : Int
  numPixels : Int
  pixels : List (Int × Int)
  x_min : Int
  y_min : Int
  x_max : Int
  y_max : Int
deriving DecidableEq, Repr

namespace ConnectedComponent

/-- The constructor `ConnectedComponent(int Id)`: no pixels, bounding box at the sentinels. -/
def ofId (Id : Int) : ConnectedComponent :=
  { id := Id, numPixels := 0, pixels := [],
    x_min := INT_MAX, y_min := INT_MAX, x_max := INT_MIN, y_max := INT_MIN }

/-- The method `updateBounding(x, y)`. -/
def updateBounding (c : ConnectedComponent) (x y : Int) : ConnectedComponent :=
  { c with
    x_min := min c.x_min x
    y_min := min c.y_min y
    x_max := max c.x_max x
    y_max := max c.y_max y }

/-- The constructor `ConnectedComponent(int id, std::vector<std::pair<int,int>> pixels)`:
the members are initialised in declaration order (`numPixels` from the argument, before it is
moved into `pixels`), then `updateBounding` runs over the stored pixels. -/
def ofPixels (id : Int) (pixels : List (Int × Int)) : ConnectedComponent :=
  pixels.foldl (fun c pixel => c.updateBounding pixel.1 pixel.2)
    { id := id, numPixels := (pixels.length : Int), pixels := pixels,
      x_min := INT_MAX, y_min := INT_MAX, x_max := INT_MIN, y_max := INT_MIN }

/-- The method `addPixel(x, y)`. -/
def addPixel (c : ConnectedComponent) (x y : Int) : ConnectedComponent :=
  updateBounding { c with pixels := c.pixels ++ [(x, y)], numPixels := c.numPixels + 1 } x y

/-- The method `getSize()`: the length of the pixel vector. -/
def getSize (c : ConnectedComponent) : Int := (c.pixels.length : Int)

/-- The method `getID()`. -/
def getID (c : ConnectedComponent) : Int := c.id

/-- The method `getBoundingBox()`: the tuple `(x_min, y_min, x_max, y_max)`. -/
def getBoundingBox (c : ConnectedComponent) : Int × Int × Int × Int :=
  (c.x_min, c.y_min, c.x_max, c.y_max)

/-- The method `getPixels()`. -/
def getPixels (c : ConnectedComponent) : List (Int × Int) := c.pixels

/-- The constructor `ConnectedComponent() = default` in a default-initialisation such as
`ConnectedComponent c;`: the vector is empty, and none of the six `int` members is
initialised, so each keeps whatever value its storage holds; those values are the
arguments. -/
def defaultInit (id numPixels x_min y_min x_max y_max : Int) : ConnectedComponent :=
  { id := id, numPixels := numPixels, pixels := [],
    x_min := x_min, y_min := y_min, x_max := x_max, y_max := y_max }

/-- The copy constructor: every member is copied. -/
def copyConstruct (component : ConnectedComponent) : ConnectedComponent :=
  { id := component.id, numPixels := component.numPixels, pixels := component.pixels,
    x_min := component.x_min, y_min := component.y_min,
    x_max := component.x_max, y_max := component.y_max }

/-- The state in which the move constructor and the move assignment leave their argument:
all `int` members 0 and the vector cleared. -/
def movedFrom : ConnectedComponent :=
  { id := 0, numPixels := 0, pixels := [], x_min := 0, y_min := 0, x_max := 0, y_max := 0 }

/-- The move constructor: the new object, and the object `component` as it is left. -/
def moveConstruct (component : ConnectedComponent) : ConnectedComponent × ConnectedComponent :=
  ({ id := component.id, numPixels := component.numPixels, pixels := component.pixels,
     x_min := component.x_min, y_min := component.y_min,
     x_max := component.x_max, y_max := component.y_max },
   movedFrom)

/-- The copy assignment `this = component` on two distinct objects (on one and the same
object the guard `this != &component` skips the body and nothing changes). -/
def copyAssign (_this component : ConnectedComponent) : ConnectedComponent :=
  { id := component.id, numPixels := component.numPixels, pixels := component.pixels,
    x_min := component.x_min, y_min := component.y_min,
    x_max := component.x_max, y_max := component.y_max }

/-- The move assignment `this = std::move(component)` on two distinct objects: the object
assigned to, and the object `component` as it is left (on one and the same object the guard
`this != &component` skips the body and nothing changes). -/
def moveAssign (_this component : ConnectedComponent) :
    ConnectedComponent × ConnectedComponent :=
  ({ id := component.id, numPixels := component.numPixels, pixels := component.pixels,
     x_min := component.x_min, y_min := component.y_min,
     x_max := component.x_max, y_max := component.y_max },
   movedFrom)

/-- The method `printData()`: the id and the size it prints, which is the stored counter
`numPixels`. -/
def printData (c : ConnectedComponent) : Int × Int := (c.id, c.numPixels)

/-- The calls `addPixel(x, y)` for each `(x, y)` of `ps`, in order. -/
def addPixels (c : ConnectedComponent) (ps : List (Int × Int)) : ConnectedComponent :=
  ps.foldl (fun c pixel => c.addPixel pixel.1 pixel.2) c

/-- The components that `ConnectedComponent(id)` or `ConnectedComponent(id, pixels)` followed
by any sequence of `addPixel`, copy and move operations can produce, the objects left behind
by a move included. -/
inductive Produced : ConnectedComponent → Prop
  | ofId (Id : Int) : Produced (ofId Id)
  | ofPixels (id : Int) (pixels : List (Int × Int)) : Produced (ofPixels id pixels)
  | addPixel (c : ConnectedComponent) (x y : Int) : Produced c → Produced (c.addPixel x y)
  | copyConstruct (c : ConnectedComponent) : Produced c → Produced (copyConstruct c)
  | copyAssign (d c : ConnectedComponent) : Produced c → Produced (copyAssign d c)
  | moveConstructNew (c : ConnectedComponent) : Produced c → Produced (moveConstruct c).1
  | moveConstructOld (c : ConnectedComponent) : Produced c → Produced (moveConstruct c).2
  | moveAssignNew (d c : ConnectedComponent) : Produced c → Produced (moveAssign d c).1
  | moveAssignOld (d c : ConnectedComponent) : Produced c → Produced (moveAssign d c).2

end ConnectedComponent

/-! ## Unchecked vector access -/

/-- The read `v[i]` with an `int` index: `none` when `i` is outside the vector. -/
def vecGet {α : Type} (v : List α) (i : Int) : Option α :=
  if 0 ≤ i then v[i.toNat]? else none

/-- The write `v[i] = a` with an `int` index: `none` when `i` is outside the vector. -/
def vecSet {α : Type} (v : List α) (i : Int) (a : α) : Option (List α) :=
  if 0 ≤ i ∧ i.toNat < v.length then some (v.set i.toNat a) else none

/-- The construction `std::vector<T> v(n, a)` with an `int` count `n`: a negative count
converts to a size beyond `max_size()` and the constructor throws, which is `none` here. -/
def vecAlloc {α : Type} (n : Int) (a : α) : Option (List α) :=
  if 0 ≤ n then some (List.replicate n.toNat a) else none

/-! ## PGMimageProcessor -/

/-- The fields of the class `PGMimageProcessor`. -/
structure PGMimageProcessor where
  width : Int
  height : Int
  maxVal : Int
  imageData : List Nat
  components : List ConnectedComponent
  fileName : String
deriving DecidableEq, Repr

/-- The local variables of the breadth-first search inside `extractComponents`. -/
structure BfsState where
  binaryImage : List Nat
  labels : List Int
  queue : List (Int × Int)
  pixels : List (Int × Int)
deriving DecidableEq, Repr

/-- The variables of `extractComponents` that live across the raster scan. -/
structure ScanState where
  binaryImage : List Nat
  labels : List Int
  componentID : Int
  components : List ConnectedComponent
deriving DecidableEq, Repr

/-- The first loop of `extractComponents`: a sample becomes 255 when it is at least the
threshold and 0 otherwise. -/
def binarize (imageData : List Nat) (threshold : Nat) : List Nat :=
  imageData.map (fun v => if v ≥ threshold then 255 else 0)

/-- The vector `neighbours` built for the cell `(currX, currY)`: north, east, south, west. -/
def neighbours (currX currY : Int) : List (Int × Int) :=
  [(currX, currY - 1), (currX + 1, currY), (currX, currY + 1), (currX - 1, currY)]

/-- One iteration of the loop over `neighbours`: the bounds test, then the test of the
working image and of the label, then the push and the three marks. -/
def visitNeighbour (width height componentID : Int) (s : BfsState) (n : Int × Int) :
    Option BfsState :=
  let nx := n.1
  let ny := n.2
  if (nx ≥ 0 ∧ nx < width) ∧ (ny ≥ 0 ∧ ny < height) then
    let neighbourIndex := ny * width + nx
    (vecGet s.binaryImage neighbourIndex).bind fun b =>
      if b = 255 then
        (vecGet s.labels neighbourIndex).bind fun l =>
          if l = -1 then
            (vecSet s.labels neighbourIndex componentID).bind fun labels =>
              (vecSet s.binaryImage neighbourIndex 0).bind fun binaryImage =>
                some { binaryImage := binaryImage, labels := labels,
                       queue := s.queue ++ [n], pixels := s.pixels ++ [n] }
          else some s
      else some s
  else some s

/-- The loop `while (!queue.empty())`: pop the front cell and visit its four neighbours. -/
def bfs (width height componentID : Int) : Nat → BfsState → Option BfsState
  | 0, _ => none
  | fuel + 1, s =>
    match s.queue with
    | [] => some s
    | current :: rest =>
      ((neighbours current.1 current.2).foldlM (visitNeighbour width height componentID)
          { s with queue := rest }).bind
        (bfs width height componentID fuel)

/-- The body of the double loop of `extractComponents` at the cell `(x, y)`. -/
def scanCell (width height minValidSize : Int) (s : ScanState) (x y : Int) :
    Option ScanState :=
  let index := y * width + x
  (vecGet s.binaryImage index).bind fun b =>
    if b = 255 then
      (vecGet s.labels index).bind fun l =>
        if l = -1 then
          (vecSet s.labels index s.componentID).bind fun labels =>
            (vecSet s.binaryImage index 0).bind fun binaryImage =>
              (bfs width height s.componentID (binaryImage.length + 1)
                  { binaryImage := binaryImage, labels := labels,
                    queue := [(x, y)], pixels := [(x, y)] }).bind fun r =>
                if r.pixels.length ≥ (minValidSize % 18446744073709551616).toNat then
                  some { binaryImage := r.binaryImage, labels := r.labels,
                         componentID := s.componentID + 1,
                         components := s.components ++
                           [ConnectedComponent.ofPixels s.componentID r.pixels] }
                else
                  some { binaryImage := r.binaryImage, labels := r.labels,
                         componentID := s.componentID,
                         components := s.components }
        else some s
    else some s

/-- The inner loop `for (int x = 0; x < width; ++x)` on row `y`. -/
def scanRow (width height minValidSize : Int) (s : ScanState) (y : Int) : Option ScanState :=
  (List.range width.toNat).foldlM
    (fun st (x : Nat) => scanCell width height minValidSize st (x : Int) y) s

/-- The outer loop `for (int y = 0; y < height; ++y)`. -/
def scanRows (width height minValidSize : Int) (s : ScanState) : Option ScanState :=
  (List.range height.toNat).foldlM
    (fun st (y : Nat) => scanRow width height minValidSize st (y : Int)) s

/-! ## The writers and the file-name test -/

/-- The call `s.substr(pos)` of `std::string`: the characters from `pos` on, and `none` for
the exception `std::out_of_range` thrown when `pos` is beyond the length. -/
def substr (s : List Char) (pos : Nat) : Option (List Char) :=
  if pos > s.length then none else some (s.drop pos)

/-- The conversion `static_cast<int>(n)` of a `size_t` value: reduction modulo 2^32 into the
range of `int`. -/
def castInt (n : Int) : Int := (n + 2147483648) % 4294967296 - 2147483648

/-- The value of an `int` expression whose exact value is `n`: `n` reduced modulo 2^32 into
the range of `int`, as the arithmetic of the machine wraps it. -/
def wrapInt (n : Int) : Int := (n + 2147483648) % 4294967296 - 2147483648

/-- The three consecutive stores `v[i] = r; v[i + 1] = g; v[i + 2] = b` (the buffers hold at
most `INT_MAX` samples, so on a store that succeeds the sums stay in the range of `int`). -/
def store3 (v : List Nat) (i : Int) (r g b : Nat) : Option (List Nat) :=
  (vecSet v i r).bind fun v => (vecSet v (i + 1) g).bind fun v => vecSet v (i + 2) b

/-- The body of the loop of the colour writer that copies the sample of the cell `(x, y)` to
the three channels; `index` and `index * 3` are `int` values. -/
def copyGray (width : Int) (imageData outputImageData : List Nat) (x y : Int) :
    Option (List Nat) :=
  let index := wrapInt (wrapInt (y * width) + x)
  (vecGet imageData index).bind fun grayValue =>
    store3 outputImageData (wrapInt (index * 3)) grayValue grayValue grayValue

/-- The body of the pixel loop of the colour writer: the bounds test, then the three stores of
255, made only when `drawBoundingBoxes` is false; `index` and `index * 3` are `int` values. -/
def markPixelColour (width height : Int) (drawBoundingBoxes : Bool)
    (outputImageData : List Nat) (pixel : Int × Int) : Option (List Nat) :=
  let x := pixel.1
  let y := pixel.2
  if (x ≥ 0 ∧ x < width) ∧ (y ≥ 0 ∧ y < height) then
    let index := wrapInt (wrapInt (y * width) + x)
    if !drawBoundingBoxes then store3 outputImageData (wrapInt (index * 3)) 255 255 255
    else some outputImageData
  else some outputImageData

/-- The clamping of a stored bounding box to the raster, followed by the two swaps: the
result is `(x_min, y_min, x_max, y_max)`. -/
def clampBox (width height : Int) (boundingBox : Int × Int × Int × Int) :
    Int × Int × Int × Int :=
  let x_min := max 0 (min boundingBox.1 (width - 1))
  let y_min := max 0 (min boundingBox.2.1 (height - 1))
  let x_max := max 0 (min boundingBox.2.2.1 (width - 1))
  let y_max := max 0 (min boundingBox.2.2.2 (height - 1))
  (if x_min > x_max then x_max else x_min, if y_min > y_max then y_max else y_min,
    if x_min > x_max then x_min else x_max, if y_min > y_max then y_min else y_max)

/-- The guarded stores of one border cell: red at `index`, when `index` is not negative and
below `static_cast<int>(outputImageData.size() - 2)`. -/
def paintRed (outputImageData : List Nat) (index : Int) : Option (List Nat) :=
  if index ≥ 0 ∧
      index < castInt (((outputImageData.length : Int) - 2) % 18446744073709551616) then
    store3 outputImageData index 255 0 0
  else some outputImageData

/-- The drawing of the box of one component: the loop over `x` from `x_min` to `x_max` for the
top and bottom lines, then the loop over `y` strictly between `y_min` and `y_max` for the left
and right lines; the four indices `(y * width + x) * 3` are `int` values. -/
def drawBox (width height : Int) (outputImageData : List Nat) (c : ConnectedComponent) :
    Option (List Nat) :=
  let box := clampBox width height c.getBoundingBox
  let x_min := box.1
  let y_min := box.2.1
  let x_max := box.2.2.1
  let y_max := box.2.2.2
  ((List.range (x_max + 1 - x_min).toNat).foldlM
      (fun out (k : Nat) =>
        (paintRed out
            (wrapInt (wrapInt (wrapInt (y_min * width) + (x_min + (k : Int))) * 3))).bind
          fun out =>
            paintRed out (wrapInt (wrapInt (wrapInt (y_max * width) + (x_min + (k : Int))) * 3)))
      outputImageData).bind fun out =>
    (List.range (y_max - (y_min + 1)).toNat).foldlM
      (fun out (k : Nat) =>
        (paintRed out
            (wrapInt (wrapInt (wrapInt ((y_min + 1 + (k : Int)) * width) + x_min) * 3))).bind
          fun out =>
            paintRed out
              (wrapInt (wrapInt (wrapInt ((y_min + 1 + (k : Int)) * width) + x_max) * 3)))
      out

namespace PGMimageProcessor

/-- The method `extractComponents(threshold, minValidSize)`: the processor it leaves and the
count it returns. -/
def extractComponents (p : PGMimageProcessor) (threshold : Nat) (minValidSize : Int) :
    Option (PGMimageProcessor × Int) :=
  (vecAlloc (p.width * p.height) (-1 : Int)).bind fun labels =>
    (scanRows p.width p.height minValidSize
        { binaryImage := binarize p.imageData threshold,
          labels := labels,
          componentID := 0,
          components := [] }).map fun s =>
      ({ p with components := s.components }, (s.components.length : Int))

/-- The method `filterComponentsBySize(minSize, maxSize)`: the processor it leaves and the
count it returns. -/
def filterComponentsBySize (p : PGMimageProcessor) (minSize maxSize : Int) :
    PGMimageProcessor × Int :=
  let filtered := p.components.foldl
    (fun (filtered : List ConnectedComponent) c =>
      let components_size := c.getSize
      if components_size ≥ minSize ∧ components_size ≤ maxSize then filtered ++ [c]
      else filtered) []
  ({ p with components := filtered }, (filtered.length : Int))

/-- The default constructor `PGMimageProcessor()`: zero dimensions, no samples, no
components, empty file name. -/
def defaultConstructed : PGMimageProcessor :=
  { width := 0, height := 0, maxVal := 0, imageData := [], components := [], fileName := "" }

/-- The method `getComponentCount()`. -/
def getComponentCount (p : PGMimageProcessor) : Int := (p.components.length : Int)

/-- The method `getLargestSize()`: the loop starts from `maxSize = 0` and takes every larger
size it meets. -/
def getLargestSize (p : PGMimageProcessor) : Int :=
  p.components.foldl
    (fun (maxSize : Int) c => if c.getSize > maxSize then c.getSize else maxSize) 0

/-- The method `getSmallestSize()`: 0 on an empty list, otherwise the loop starts from the
size of `components[0]` and takes every smaller size it meets, over the whole list. -/
def getSmallestSize (p : PGMimageProcessor) : Int :=
  match p.components with
  | [] => 0
  | c0 :: _ =>
    p.components.foldl
      (fun (minSize : Int) c => if c.getSize < minSize then c.getSize else minSize) c0.getSize

/-- The method `getWidth()`. -/
def getWidth (p : PGMimageProcessor) : Int := p.width

/-- The method `getHeight()`. -/
def getHeight (p : PGMimageProcessor) : Int := p.height

/-- The method `isPPMFile(fileName)`: the position `fileName.size() - 4` is computed in
`size_t`, so modulo 2^64, and `substr` throws when it is beyond the length. -/
def isPPMFile (fileName : List Char) : Option Bool :=
  (substr fileName (((fileName.length : Int) - 4) % 18446744073709551616).toNat).map
    fun t => decide (t = ['.', 'p', 'p', 'm'])

/-- The sample buffer built by the colour writer `writeComponents<T, drawBoundingBoxes>`:
`width * height * 3` zeros, the count being an `int` value, the copy of the samples when
`drawBoundingBoxes`, the pixel loop, then the boxes when `drawBoundingBoxes`. -/
def writeComponentsColour (p : PGMimageProcessor) (drawBoundingBoxes : Bool) :
    Option (List Nat) :=
  (vecAlloc (wrapInt (wrapInt (p.width * p.height) * 3)) (0 : Nat)).bind
    fun outputImageData =>
    (if drawBoundingBoxes then
        (List.range p.height.toNat).foldlM
          (fun out (y : Nat) =>
            (List.range p.width.toNat).foldlM
              (fun out (x : Nat) => copyGray p.width p.imageData out (x : Int) (y : Int)) out)
          outputImageData
      else some outputImageData).bind fun out =>
      (p.components.foldlM
          (fun out (c : ConnectedComponent) =>
            c.getPixels.foldlM (markPixelColour p.width p.height drawBoundingBoxes) out)
          out).bind fun out =>
        if drawBoundingBoxes then p.components.foldlM (drawBox p.width p.height) out
        else some out

end PGMimageProcessor

/-! ## Vocabulary of the properties -/

/-- The index `y * width + x` of the cell `(x, y)` in a row-major vector. -/
def pixelIndex (width : Int) (q : Int × Int) : Int := q.2 * width + q.1

/-- The cell `(x, y)` lies on the raster: `0 <= x < width` and `0 <= y < height`. -/
def InBounds (width height : Int) (q : Int × Int) : Prop :=
  (0 ≤ q.1 ∧ q.1 < width) ∧ (0 ≤ q.2 ∧ q.2 < height)

/-- A well-formed raster: positive dimensions and one sample per cell. -/
def WellFormed (p : PGMimageProcessor) : Prop :=
  0 < p.width ∧ 0 < p.height ∧ (p.imageData.length : Int) = p.width * p.height

/-- A foreground cell: on the raster, with a sample at least the threshold. -/
def Foreground (p : PGMimageProcessor) (threshold : Nat) (q : Int × Int) : Prop :=
  InBounds p.width p.height q ∧
    ∃ v, vecGet p.imageData (pixelIndex p.width q) = some v ∧ v ≥ threshold

/-- The cell `q` can still start or join a region: the working image holds 255 there and the
label is still -1. -/
def Avail (width : Int) (binaryImage : List Nat) (labels : List Int) (q : Int × Int) : Prop :=
  vecGet binaryImage (pixelIndex width q) = some 255 ∧
    vecGet labels (pixelIndex width q) = some (-1)

/-- The part of the breadth-first loop invariant that does not mention the queue; `U0` are
the cells that were available when the search started. -/
structure BfsCore (w h : Int) (U0 : Int × Int → Prop) (s : BfsState) : Prop where
  len_bin : (w * h).toNat ≤ s.binaryImage.length
  len_lab : s.labels.length = (w * h).toNat
  nodup : s.pixels.Nodup
  mem : ∀ q ∈ s.pixels, InBounds w h q ∧ U0 q
  avail : ∀ q, InBounds w h q → (Avail w s.binaryImage s.labels q ↔ U0 q ∧ q ∉ s.pixels)
  parent : ∀ i q, 0 < i → s.pixels[i]? = some q →
    ∃ j r, j < i ∧ s.pixels[j]? = some r ∧ q ∈ neighbours r.1 r.2

/-- Every available neighbour of a cell of `done` has been collected in `ps`. -/
def ClosedOn (w h : Int) (U0 : Int × Int → Prop) (done ps : List (Int × Int)) : Prop :=
  ∀ r ∈ done, ∀ q ∈ neighbours r.1 r.2, InBounds w h q → U0 q → q ∈ ps

/-- What the scan guarantees about the pixel list of one finished region. -/
structure RegionOK (w : Int) (FG : Int × Int → Prop) (ps : List (Int × Int)) : Prop where
  nonempty : ps ≠ []
  nodup : ps.Nodup
  fg : ∀ q ∈ ps, FG q
  closed : ∀ r ∈ ps, ∀ q ∈ neighbours r.1 r.2, FG q → q ∈ ps
  parent : ∀ i q, 0 < i → ps[i]? = some q →
    ∃ j r, j < i ∧ ps[j]? = some r ∧ q ∈ neighbours r.1 r.2
  seed_min : ∀ sd, ps.head? = some sd → ∀ q ∈ ps, pixelIndex w sd ≤ pixelIndex w q

/-- The invariant of the raster scan once every cell of index below `k` has been passed. -/
structure ScanInv (w h : Int) (FG : Int × Int → Prop) (m : Int) (k : Int)
    (s : ScanState) : Prop where
  len_bin : (w * h).toNat ≤ s.binaryImage.length
  len_lab : s.labels.length = (w * h).toNat
  avail_fg : ∀ q, InBounds w h q → Avail w s.binaryImage s.labels q → FG q
  closed : ∀ r q, FG r → ¬ Avail w s.binaryImage s.labels r → q ∈ neighbours r.1 r.2 →
    FG q → ¬ Avail w s.binaryImage s.labels q
  scanned : ∀ q, FG q → pixelIndex w q < k → ¬ Avail w s.binaryImage s.labels q
  regions : ∀ c ∈ s.components,
    c = ConnectedComponent.ofPixels c.id c.pixels ∧ RegionOK w FG c.pixels ∧
      (∀ q ∈ c.pixels, ¬ Avail w s.binaryImage s.labels q) ∧
      ∃ sd, c.pixels.head? = some sd ∧ pixelIndex w sd < k
  disjoint : (s.components.flatMap fun c => c.pixels).Nodup
  seeds : s.components.Pairwise fun a b =>
    ∀ sa sb, a.pixels.head? = some sa → b.pixels.head? = some sb →
      pixelIndex w sa < pixelIndex w sb
  ids : s.components.map (fun c => c.id) = (List.range s.components.length).map Int.ofNat
  cid : s.componentID = (s.components.length : Int)
  cover : (m % 18446744073709551616).toNat ≤ 1 → ∀ q, FG q →
    ¬ Avail w s.binaryImage s.labels q → ∃ c ∈ s.components, q ∈ c.pixels

/-- One step north, east, south or west from `a` to `b`, landing on a cell of `S`. -/
def Step4 (S : Int × Int → Prop) (a b : Int × Int) : Prop :=
  b ∈ neighbours a.1 a.2 ∧ S b

/-- The cell `b` is reached from `a` by a path of 4-neighbour steps through cells of `S`. -/
def Reach4 (S : Int × Int → Prop) (a b : Int × Int) : Prop :=
  Relation.ReflTransGen (Step4 S) a b

/-- A path of `n` steps north, east, south or west from `a` to `b`, each step landing on a
cell of `S`. -/
inductive PathLen (S : Int × Int → Prop) (a : Int × Int) : Int × Int → Nat → Prop
  | refl : PathLen S a a 0
  | tail {b c : Int × Int} {n : Nat} : PathLen S a b n → Step4 S b c → PathLen S a c (n + 1)

/-- The shortest path from `a` to `b` through cells of `S` has `d` steps. -/
def ShortestPath (S : Int × Int → Prop) (a b : Int × Int) (d : Nat) : Prop :=
  PathLen S a b d ∧ ∀ n, PathLen S a b n → d ≤ n

/-- Every pixel of `ps` after the first has a 4-neighbour in `ps` at a position not above
`D`. -/
def ParentBefore (D : Nat) (ps : List (Int × Int)) : Prop :=
  ∀ (i : Nat) (q : Int × Int), 0 < i → ps[i]? = some q →
    ∃ (j : Nat) (r : Int × Int), j ≤ D ∧ ps[j]? = some r ∧ q ∈ neighbours r.1 r.2

/-- The order in which a first-in first-out search lists the pixels: whenever a pixel at
position `i2` is a 4-neighbour of the pixel at position `j2`, every pixel at a position `i`
with `0 < i <= i2` is a 4-neighbour of a pixel at some position `j <= j2`. -/
def BfsOrdered (ps : List (Int × Int)) : Prop :=
  ∀ (i i2 j2 : Nat) (q q2 r2 : Int × Int), 0 < i → i ≤ i2 → ps[i]? = some q →
    ps[i2]? = some q2 → ps[j2]? = some r2 → q2 ∈ neighbours r2.1 r2.2 →
    ∃ (j : Nat) (r : Int × Int), j ≤ j2 ∧ ps[j]? = some r ∧ q ∈ neighbours r.1 r.2

/-- The row-major index of the first pixel of a region (0 for a region without pixels). -/
def seedIndex (width : Int) (c : ConnectedComponent) : Int :=
  match c.pixels.head? with
  | some sd => pixelIndex width sd
  | none => 0

/-- Two label vectors mark the same cells as not yet labelled (label -1). -/
def LabelsAgree (l1 l2 : List Int) : Prop :=
  l1.map (fun v => decide (v = -1)) = l2.map (fun v => decide (v = -1))

/-- Two states of the breadth-first search that differ at most in the label values written
so far. -/
structure BfsSim (s1 s2 : BfsState) : Prop where
  bin : s1.binaryImage = s2.binaryImage
  lab : LabelsAgree s1.labels s2.labels
  queue : s1.queue = s2.queue
  pixels : s1.pixels = s2.pixels

/-- A scan state of the run with minimum size `m` against the state of the run with minimum
size 0 at the same cell: same working image, same unlabelled cells, and the pixel lists kept
so far are those of the other run that have at least `m` pixels. -/
structure ScanSim (m : Int) (s1 s2 : ScanState) : Prop where
  bin : s1.binaryImage = s2.binaryImage
  lab : LabelsAgree s1.labels s2.labels
  cid1 : 0 ≤ s1.componentID
  cid2 : 0 ≤ s2.componentID
  comps : s1.components.map ConnectedComponent.getPixels =
    (s2.components.filter fun c => decide (m ≤ c.getSize)).map ConnectedComponent.getPixels

instance (p : PGMimageProcessor) : Decidable (WellFormed p) := by
  unfold WellFormed
  infer_instance

/-- A 4 x 1 raster: a lone foreground cell, a background cell, then a run of two. -/
def rasterA : PGMimageProcessor :=
  { width := 4, height := 1, maxVal := 255, imageData := [1, 0, 1, 1],
    components := [], fileName := "" }

/-- A 3 x 3 raster with an L-shaped region of three cells and a lone cell in the corner. -/
def rasterB : PGMimageProcessor :=
  { width := 3, height := 3, maxVal := 255,
    imageData := [9, 9, 0,
                  0, 9, 0,
                  0, 0, 7],
    components := [], fileName := "" }

/-- The regions of `rasterB` at threshold 1: the L-shaped region, then the corner cell. -/
def rasterBRegions : List ConnectedComponent :=
  [ConnectedComponent.ofPixels 0 [(0, 0), (1, 0), (1, 1)],
   ConnectedComponent.ofPixels 1 [(2, 2)]]

/-- The 5 x 5 raster that is 0 everywhere but for the value `v` on the 2 x 2 block with
corners `(1,1)` and `(2,2)`. -/
def blockRaster (v : Nat) : PGMimageProcessor :=
  { width := 5, height := 5, maxVal := 255,
    imageData := [0, 0, 0, 0, 0,
                  0, v, v, 0, 0,
                  0, v, v, 0, 0,
                  0, 0, 0, 0, 0,
                  0, 0, 0, 0, 0],
    components := [], fileName := "" }

/-- A 2 x 2 raster whose two foreground cells touch only at a corner. -/
def diagonalRaster : PGMimageProcessor :=
  { width := 2, height := 2, maxVal := 255, imageData := [5, 0, 0, 5],
    components := [], fileName := "" }

/-- A 2 x 2 raster of background samples. -/
def darkRaster : PGMimageProcessor :=
  { width := 2, height := 2, maxVal := 255, imageData := [3, 0, 2, 1],
    components := [], fileName := "" }

/-- A 3 x 2 raster with arbitrary samples. -/
def fullRaster : PGMimageProcessor :=
  { width := 3, height := 2, maxVal := 255, imageData := [0, 255, 7, 0, 0, 128],
    components := [], fileName := "" }

/-- Three regions of sizes 2, 1 and 3, as a list a processor can hold. -/
def sampleRegions : List ConnectedComponent :=
  [ConnectedComponent.ofPixels 0 [(0, 0), (1, 0)],
   ConnectedComponent.ofPixels 1 [(3, 0)],
   ConnectedComponent.ofPixels 2 [(0, 2), (1, 2), (2, 2)]]

/-- The colour of the cell `q` in a buffer of three samples per cell. -/
def colourAt (width : Int) (out : List Nat) (q : Int × Int) : Option (Nat × Nat × Nat) :=
  (vecGet out (pixelIndex width q * 3)).bind fun r =>
    (vecGet out (pixelIndex width q * 3 + 1)).bind fun g =>
      (vecGet out (pixelIndex width q * 3 + 2)).map fun b => (r, g, b)

/-- The cell `q` lies on the border that `drawBox` draws for the component `c`: on the top or
bottom line, or on the left or right line strictly between them. -/
def OnBorder (width height : Int) (c : ConnectedComponent) (q : Int × Int) : Prop :=
  ((q.2 = (clampBox width height c.getBoundingBox).2.1 ∨
        q.2 = (clampBox width height c.getBoundingBox).2.2.2) ∧
      (clampBox width height c.getBoundingBox).1 ≤ q.1 ∧
      q.1 ≤ (clampBox width height c.getBoundingBox).2.2.1) ∨
    ((q.1 = (clampBox width height c.getBoundingBox).1 ∨
        q.1 = (clampBox width height c.getBoundingBox).2.2.1) ∧
      (clampBox width height c.getBoundingBox).2.1 < q.2 ∧
      q.2 < (clampBox width height c.getBoundingBox).2.2.2)

instance (width height : Int) (c : ConnectedComponent) (q : Int × Int) :
    Decidable (OnBorder width height c q) := by
  unfold OnBorder
  infer_instance

/-- A 3 x 3 raster whose nine samples are 100. -/
def solidRaster : PGMimageProcessor :=
  { width := 3, height := 3, maxVal := 255,
    imageData := [100, 100, 100,
                  100, 100, 100,
                  100, 100, 100],
    components := [], fileName := "" }

/-- The processor `solidRaster` after `extractComponents(100, 1)`: one region of nine cells,
in breadth-first order from the corner. -/
def solidLabelled : PGMimageProcessor :=
  { solidRaster with
    components :=
      [ConnectedComponent.ofPixels 0
        [(0, 0), (1, 0), (0, 1), (2, 0), (1, 1), (0, 2), (2, 1), (1, 2), (2, 2)]] }

/-! ## Index arithmetic -/

theorem pixelIndex_nonneg {w h : Int} {q : Int × Int} (hq : InBounds w h q) :
    0 ≤ pixelIndex w q := by
  obtain ⟨⟨hx0, hxw⟩, hy0, _⟩ := hq
  have hw : 0 ≤ w := by omega
  have : 0 ≤ q.2 * w := Int.mul_nonneg hy0 hw
  unfold pixelIndex
  omega

theorem pixelIndex_lt {w h : Int} {q : Int × Int} (hq : InBounds w h q) :
    pixelIndex w q < w * h := by
  obtain ⟨⟨hx0, hxw⟩, hy0, hyh⟩ := hq
  have hw : 0 ≤ w := by omega
  have h1 : (q.2 + 1) * w ≤ h * w := Int.mul_le_mul_of_nonneg_right (by omega) hw
  have h2 : (q.2 + 1) * w = q.2 * w + w := by ring
  have h3 : h * w = w * h := by ring
  unfold pixelIndex
  omega

theorem pixelIndex_inj {w h : Int} {q r : Int × Int} (hq : InBounds w h q)
    (hr : InBounds w h r) (he : pixelIndex w q = pixelIndex w r) : q = r := by
  obtain ⟨⟨qx0, qxw⟩, qy0, qyh⟩ := hq
  obtain ⟨⟨rx0, rxw⟩, ry0, ryh⟩ := hr
  unfold pixelIndex at he
  have hw : w ≠ 0 := by omega
  have e1 : (q.1 + q.2 * w) % w = (r.1 + r.2 * w) % w := by
    rw [show q.1 + q.2 * w = q.2 * w + q.1 by ring, he]; congr 1; ring
  rw [Int.add_mul_emod_self, Int.add_mul_emod_self, Int.emod_eq_of_lt qx0 qxw,
    Int.emod_eq_of_lt rx0 rxw] at e1
  have e2 : q.2 * w = r.2 * w := by omega
  have e3 : q.2 = r.2 := Int.eq_of_mul_eq_mul_right hw e2
  exact Prod.ext e1 e3

theorem pixelIndex_toNat_lt {w h : Int} {q : Int × Int} (hq : InBounds w h q) :
    (pixelIndex w q).toNat < (w * h).toNat := by
  have h0 := pixelIndex_nonneg hq
  have h1 := pixelIndex_lt hq
  omega

/-! ## Vector access -/

theorem vecGet_eq {α : Type} {v : List α} {i : Int} (h0 : 0 ≤ i) :
    vecGet v i = v[i.toNat]? := by
  simp [vecGet, h0]

theorem vecSet_eq {α : Type} {v : List α} {i : Int} {a : α} (h0 : 0 ≤ i)
    (h1 : i.toNat < v.length) : vecSet v i a = some (v.set i.toNat a) := by
  simp [vecSet, h0, h1]

theorem vecGet_isSome {α : Type} {v : List α} {i : Int} (h0 : 0 ≤ i)
    (h1 : i.toNat < v.length) : ∃ a, vecGet v i = some a := by
  rw [vecGet_eq h0]
  exact ⟨v[i.toNat], List.getElem?_eq_getElem h1⟩

theorem vecGet_set_same {α : Type} {v : List α} {i : Int} {a : α} (h0 : 0 ≤ i)
    (h1 : i.toNat < v.length) : vecGet (v.set i.toNat a) i = some a := by
  rw [vecGet_eq h0, List.getElem?_set]
  simp [h1]

theorem vecGet_set_other {α : Type} {v : List α} {i j : Int} {a : α} (hi : 0 ≤ i)
    (hj : 0 ≤ j) (hne : i ≠ j) : vecGet (v.set i.toNat a) j = vecGet v j := by
  rw [vecGet_eq hj, vecGet_eq hj, List.getElem?_set]
  have : i.toNat ≠ j.toNat := by omega
  simp [this]

/-! ## One neighbour -/

theorem avail_mark {w h : Int} {bin : List Nat} {labels : List Int} {p q : Int × Int}
    {cid : Int} (hp : InBounds w h p) (hq : InBounds w h q) :
    Avail w (bin.set (pixelIndex w p).toNat 0) (labels.set (pixelIndex w p).toNat cid) q ↔
      Avail w bin labels q ∧ q ≠ p := by
  have hp0 := pixelIndex_nonneg hp
  have hq0 := pixelIndex_nonneg hq
  by_cases hqp : q = p
  · subst hqp
    constructor
    · rintro ⟨h1, _⟩
      rw [vecGet_eq hq0, List.getElem?_set] at h1
      simp at h1
    · rintro ⟨_, h2⟩
      exact absurd rfl h2
  · have hne : pixelIndex w p ≠ pixelIndex w q := fun e => hqp (pixelIndex_inj hq hp e.symm)
    unfold Avail
    rw [vecGet_set_other hp0 hq0 hne, vecGet_set_other hp0 hq0 hne]
    simp [hqp]

theorem visitNeighbour_out {w h cid : Int} {s : BfsState} {n : Int × Int}
    (hn : ¬ InBounds w h n) : visitNeighbour w h cid s n = some s := by
  have hc : ¬ ((n.1 ≥ 0 ∧ n.1 < w) ∧ (n.2 ≥ 0 ∧ n.2 < h)) := hn
  simp only [visitNeighbour, if_neg hc]

theorem visitNeighbour_skip {w h cid : Int} {s : BfsState} {n : Int × Int}
    (hn : InBounds w h n) (lb : (w * h).toNat ≤ s.binaryImage.length)
    (ll : s.labels.length = (w * h).toNat)
    (ha : ¬ Avail w s.binaryImage s.labels n) : visitNeighbour w h cid s n = some s := by
  have hc : (n.1 ≥ 0 ∧ n.1 < w) ∧ (n.2 ≥ 0 ∧ n.2 < h) := hn
  have h0 := pixelIndex_nonneg hn
  have h1 := pixelIndex_toNat_lt hn
  obtain ⟨b, hb⟩ := vecGet_isSome (v := s.binaryImage) h0 (by omega)
  obtain ⟨l, hl⟩ := vecGet_isSome (v := s.labels) h0 (by omega)
  unfold pixelIndex at hb hl
  simp only [visitNeighbour, if_pos hc, hb, hl, Option.some_bind]
  by_cases hb255 : b = 255
  · by_cases hl1 : l = -1
    · exfalso
      apply ha
      unfold Avail pixelIndex
      rw [hb, hl, hb255, hl1]
      exact ⟨rfl, rfl⟩
    · simp [hb255, hl1]
  · simp [hb255]

theorem visitNeighbour_mark {w h cid : Int} {s : BfsState} {n : Int × Int}
    (hn : InBounds w h n) (lb : (w * h).toNat ≤ s.binaryImage.length)
    (ll : s.labels.length = (w * h).toNat)
    (ha : Avail w s.binaryImage s.labels n) :
    visitNeighbour w h cid s n =
      some { binaryImage := s.binaryImage.set (pixelIndex w n).toNat 0,
             labels := s.labels.set (pixelIndex w n).toNat cid,
             queue := s.queue ++ [n], pixels := s.pixels ++ [n] } := by
  have hc : (n.1 ≥ 0 ∧ n.1 < w) ∧ (n.2 ≥ 0 ∧ n.2 < h) := hn
  have h0 := pixelIndex_nonneg hn
  have h1 := pixelIndex_toNat_lt hn
  obtain ⟨hb, hl⟩ := ha
  have s1 := vecSet_eq (v := s.labels) (a := cid) h0 (by omega)
  have s2 := vecSet_eq (v := s.binaryImage) (a := 0) h0 (by omega)
  unfold pixelIndex at hb hl s1 s2
  simp only [visitNeighbour, if_pos hc, hb, hl, s1, s2, Option.some_bind, if_true]
  rfl

theorem visitNeighbour_core {w h : Int} (cid : Int) {U0 : Int × Int → Prop} {s : BfsState}
    {n : Int × Int} (hc : BfsCore w h U0 s)
    (hpar : ∃ (j : Nat) (r : Int × Int), s.pixels[j]? = some r ∧ n ∈ neighbours r.1 r.2) :
    ∃ s', visitNeighbour w h cid s n = some s' ∧ BfsCore w h U0 s' ∧
      (∃ ext, s'.pixels = s.pixels ++ ext ∧ s'.queue = s.queue ++ ext) ∧
      (InBounds w h n → U0 n → n ∈ s'.pixels) := by
  by_cases hin : InBounds w h n
  · by_cases ha : Avail w s.binaryImage s.labels n
    · obtain ⟨hU, hnot⟩ := (hc.avail n hin).1 ha
      refine ⟨_, visitNeighbour_mark hin hc.len_bin hc.len_lab ha, ?_, ⟨[n], rfl, rfl⟩, ?_⟩
      · constructor
        · show (w * h).toNat ≤ (s.binaryImage.set (pixelIndex w n).toNat 0).length
          rw [List.length_set]
          exact hc.len_bin
        · simp [hc.len_lab]
        · show (s.pixels ++ [n]).Nodup
          rw [List.nodup_append]
          refine ⟨hc.nodup, List.nodup_singleton n, ?_⟩
          intro a ha1 ha2
          rw [List.mem_singleton] at ha2
          exact hnot (ha2 ▸ ha1)
        · intro q hq
          have hq2 : q ∈ s.pixels ++ [n] := hq
          rw [List.mem_append, List.mem_singleton] at hq2
          rcases hq2 with hq2 | hq2
          · exact hc.mem q hq2
          · exact hq2 ▸ ⟨hin, hU⟩
        · intro q hq
          show Avail w (s.binaryImage.set (pixelIndex w n).toNat 0)
              (s.labels.set (pixelIndex w n).toNat cid) q ↔ U0 q ∧ q ∉ s.pixels ++ [n]
          rw [avail_mark hin hq, hc.avail q hq, List.mem_append, List.mem_singleton]
          tauto
        · intro i q hi hq
          have hq2 : (s.pixels ++ [n])[i]? = some q := hq
          show ∃ j r, j < i ∧ (s.pixels ++ [n])[j]? = some r ∧ q ∈ neighbours r.1 r.2
          by_cases hlt : i < s.pixels.length
          · rw [List.getElem?_append_left hlt] at hq2
            obtain ⟨j, r, hj, hr, hadj⟩ := hc.parent i q hi hq2
            exact ⟨j, r, hj, by rw [List.getElem?_append_left (by omega)]; exact hr, hadj⟩
          · rw [List.getElem?_append_right (by omega)] at hq2
            have hqn : q = n := by
              rcases hk : i - s.pixels.length with _ | k
              · rw [hk] at hq2; simpa using hq2.symm
              · rw [hk] at hq2; simp at hq2
            obtain ⟨j, r, hr, hadj⟩ := hpar
            have hjlt : j < s.pixels.length := (List.getElem?_eq_some.1 hr).1
            exact ⟨j, r, by omega, by rw [List.getElem?_append_left hjlt]; exact hr,
              hqn ▸ hadj⟩
      · intro _ _
        show n ∈ s.pixels ++ [n]
        simp
    · refine ⟨s, visitNeighbour_skip hin hc.len_bin hc.len_lab ha, hc, ⟨[], by simp, by simp⟩, ?_⟩
      intro _ hU
      by_contra hnot
      exact ha ((hc.avail n hin).2 ⟨hU, hnot⟩)
  · exact ⟨s, visitNeighbour_out hin, hc, ⟨[], by simp, by simp⟩, fun h1 => absurd h1 hin⟩

theorem visitAll_core {w h : Int} (cid : Int) {U0 : Int × Int → Prop} (ns : List (Int × Int)) :
    ∀ s : BfsState, BfsCore w h U0 s →
      (∀ n ∈ ns, ∃ (j : Nat) (r : Int × Int), s.pixels[j]? = some r ∧ n ∈ neighbours r.1 r.2) →
      ∃ s', ns.foldlM (visitNeighbour w h cid) s = some s' ∧ BfsCore w h U0 s' ∧
        (∃ ext, s'.pixels = s.pixels ++ ext ∧ s'.queue = s.queue ++ ext) ∧
        ∀ n ∈ ns, InBounds w h n → U0 n → n ∈ s'.pixels := by
  induction ns with
  | nil =>
    intro s hc _
    exact ⟨s, rfl, hc, ⟨[], by simp, by simp⟩, fun n hn => absurd hn (List.not_mem_nil n)⟩
  | cons n ns ih =>
    intro s hc hpar
    obtain ⟨s1, hv, hc1, ⟨e1, hp1, hq1⟩, hn1⟩ :=
      visitNeighbour_core cid hc (hpar n (List.mem_cons_self n ns))
    have hpar1 : ∀ n' ∈ ns, ∃ (j : Nat) (r : Int × Int), s1.pixels[j]? = some r ∧ n' ∈ neighbours r.1 r.2 := by
      intro n' hn'
      obtain ⟨j, r, hr, hadj⟩ := hpar n' (List.mem_cons_of_mem n hn')
      have hjlt : j < s.pixels.length := (List.getElem?_eq_some.1 hr).1
      exact ⟨j, r, by rw [hp1, List.getElem?_append_left hjlt]; exact hr, hadj⟩
    obtain ⟨s2, hf, hc2, ⟨e2, hp2, hq2⟩, hn2⟩ := ih s1 hc1 hpar1
    refine ⟨s2, ?_, hc2, ⟨e1 ++ e2, ?_, ?_⟩, ?_⟩
    · rw [List.foldlM_cons, hv]
      exact hf
    · rw [hp2, hp1, List.append_assoc]
    · rw [hq2, hq1, List.append_assoc]
    · intro n' hn' hin hU
      rcases List.mem_cons.1 hn' with h1 | h1
      · rw [hp2]
        exact List.mem_append_left _ (h1 ▸ hn1 (h1 ▸ hin) (h1 ▸ hU))
      · exact hn2 n' h1 hin hU

/-! ## The breadth-first loop -/

theorem pixels_length_le {w h : Int} {ps : List (Int × Int)} (hnd : ps.Nodup)
    (hin : ∀ q ∈ ps, InBounds w h q) : ps.length ≤ (w * h).toNat := by
  have h1 : (ps.map fun q => (pixelIndex w q).toNat).Nodup := by
    apply List.Nodup.map_on _ hnd
    intro x hx y hy he
    have hx0 := pixelIndex_nonneg (hin x hx)
    have hy0 := pixelIndex_nonneg (hin y hy)
    exact pixelIndex_inj (hin x hx) (hin y hy) (by omega)
  have h2 : (ps.map fun q => (pixelIndex w q).toNat) ⊆ List.range (w * h).toNat := by
    intro a ha
    rw [List.mem_map] at ha
    obtain ⟨q, hq, rfl⟩ := ha
    exact List.mem_range.2 (pixelIndex_toNat_lt (hin q hq))
  have h3 := (List.subperm_of_subset h1 h2).length_le
  simpa using h3

theorem bfs_core {w h : Int} (cid : Int) {U0 : Int × Int → Prop} :
    ∀ (fuel : Nat) (done : List (Int × Int)) (s : BfsState),
      BfsCore w h U0 s → s.pixels = done ++ s.queue → ClosedOn w h U0 done s.pixels →
      (w * h).toNat < fuel + done.length →
      ∃ s', bfs w h cid fuel s = some s' ∧ s'.queue = [] ∧ BfsCore w h U0 s' ∧
        ClosedOn w h U0 s'.pixels s'.pixels ∧ ∃ ext, s'.pixels = s.pixels ++ ext := by
  intro fuel
  induction fuel with
  | zero =>
    intro done s hc hsplit _ hfuel
    exfalso
    have h1 := pixels_length_le hc.nodup (fun q hq => (hc.mem q hq).1)
    have h2 : done.length ≤ s.pixels.length := by
      rw [hsplit, List.length_append]; omega
    omega
  | succ fuel ih =>
    intro done s hc hsplit hclosed hfuel
    rcases hq : s.queue with _ | ⟨cur, rest⟩
    · refine ⟨s, by simp [bfs, hq], hq, hc, ?_, ⟨[], by simp⟩⟩
      have hd : s.pixels = done := by rw [hsplit, hq, List.append_nil]
      rw [hd] at hclosed ⊢
      exact hclosed
    · rw [hq] at hsplit
      have hc1 : BfsCore w h U0 { s with queue := rest } :=
        ⟨hc.len_bin, hc.len_lab, hc.nodup, hc.mem, hc.avail, hc.parent⟩
      have hcur : s.pixels[done.length]? = some cur := by
        rw [hsplit, List.getElem?_append_right (Nat.le_refl _)]
        simp
      have hpar : ∀ n ∈ neighbours cur.1 cur.2, ∃ (j : Nat) (r : Int × Int),
          ({ s with queue := rest } : BfsState).pixels[j]? = some r ∧
            n ∈ neighbours r.1 r.2 :=
        fun n hn => ⟨done.length, cur, hcur, hn⟩
      obtain ⟨s2, hf, hc2, ⟨ext, hp2, hq2⟩, hn2⟩ :=
        visitAll_core cid (neighbours cur.1 cur.2) _ hc1 hpar
      have hp2' : s2.pixels = s.pixels ++ ext := hp2
      have hq2' : s2.queue = rest ++ ext := hq2
      have hsplit2 : s2.pixels = (done ++ [cur]) ++ s2.queue := by
        rw [hp2', hq2', hsplit]; simp
      have hclosed2 : ClosedOn w h U0 (done ++ [cur]) s2.pixels := by
        intro r hr q hqn hin hU
        rw [List.mem_append, List.mem_singleton] at hr
        rcases hr with hr | hr
        · rw [hp2']
          exact List.mem_append_left _ (hclosed r hr q hqn hin hU)
        · exact hn2 q (hr ▸ hqn) hin hU
      obtain ⟨s3, hb, hq3, hc3, hcl3, ⟨ext3, hp3⟩⟩ :=
        ih (done ++ [cur]) s2 hc2 hsplit2 hclosed2 (by rw [List.length_append]; simp; omega)
      refine ⟨s3, ?_, hq3, hc3, hcl3, ⟨ext ++ ext3, ?_⟩⟩
      · simp only [bfs, hq]
        rw [hf]
        exact hb
      · rw [hp3, hp2', List.append_assoc]

/-! ## Regions built by the constructor -/

theorem neighbours_symm {q r : Int × Int} (hq : q ∈ neighbours r.1 r.2) :
    r ∈ neighbours q.1 q.2 := by
  obtain ⟨qx, qy⟩ := q
  obtain ⟨rx, ry⟩ := r
  simp only [neighbours, List.mem_cons, Prod.mk.injEq, List.mem_singleton, List.mem_nil_iff,
    or_false] at hq ⊢
  omega

theorem foldl_updateBounding_fields (ps : List (Int × Int)) :
    ∀ c : ConnectedComponent,
      (ps.foldl (fun c pixel => c.updateBounding pixel.1 pixel.2) c).id = c.id ∧
      (ps.foldl (fun c pixel => c.updateBounding pixel.1 pixel.2) c).pixels = c.pixels ∧
      (ps.foldl (fun c pixel => c.updateBounding pixel.1 pixel.2) c).numPixels =
        c.numPixels := by
  induction ps with
  | nil => intro c; exact ⟨rfl, rfl, rfl⟩
  | cons a ps ih =>
    intro c
    rw [List.foldl_cons]
    exact ih (c.updateBounding a.1 a.2)

theorem ofPixels_id (id : Int) (ps : List (Int × Int)) :
    (ConnectedComponent.ofPixels id ps).id = id :=
  (foldl_updateBounding_fields ps _).1

theorem ofPixels_pixels (id : Int) (ps : List (Int × Int)) :
    (ConnectedComponent.ofPixels id ps).pixels = ps :=
  (foldl_updateBounding_fields ps _).2.1

theorem ofPixels_numPixels (id : Int) (ps : List (Int × Int)) :
    (ConnectedComponent.ofPixels id ps).numPixels = (ps.length : Int) :=
  (foldl_updateBounding_fields ps _).2.2

/-! ## One cell of the scan -/

theorem scanCell_skip {w h m : Int} {s : ScanState} {x y : Int}
    (hxy : InBounds w h (x, y)) (lb : (w * h).toNat ≤ s.binaryImage.length)
    (ll : s.labels.length = (w * h).toNat)
    (ha : ¬ Avail w s.binaryImage s.labels (x, y)) : scanCell w h m s x y = some s := by
  have h0 := pixelIndex_nonneg hxy
  have h1 := pixelIndex_toNat_lt hxy
  obtain ⟨b, hb⟩ := vecGet_isSome (v := s.binaryImage) h0 (by omega)
  obtain ⟨l, hl⟩ := vecGet_isSome (v := s.labels) h0 (by omega)
  unfold pixelIndex at hb hl
  simp only [scanCell, hb, hl, Option.some_bind]
  by_cases hb255 : b = 255
  · by_cases hl1 : l = -1
    · exfalso
      apply ha
      unfold Avail pixelIndex
      rw [hb, hl, hb255, hl1]
      exact ⟨rfl, rfl⟩
    · simp [hb255, hl1]
  · simp [hb255]

theorem scanCell_start {w h m : Int} {s : ScanState} {x y : Int}
    (hxy : InBounds w h (x, y)) (lb : (w * h).toNat ≤ s.binaryImage.length)
    (ll : s.labels.length = (w * h).toNat)
    (ha : Avail w s.binaryImage s.labels (x, y)) :
    scanCell w h m s x y =
      (bfs w h s.componentID (s.binaryImage.length + 1)
          { binaryImage := s.binaryImage.set (pixelIndex w (x, y)).toNat 0,
            labels := s.labels.set (pixelIndex w (x, y)).toNat s.componentID,
            queue := [(x, y)], pixels := [(x, y)] }).bind fun r =>
        if r.pixels.length ≥ (m % 18446744073709551616).toNat then
          some { binaryImage := r.binaryImage, labels := r.labels,
                 componentID := s.componentID + 1,
                 components := s.components ++
                   [ConnectedComponent.ofPixels s.componentID r.pixels] }
        else
          some { binaryImage := r.binaryImage, labels := r.labels,
                 componentID := s.componentID,
                 components := s.components } := by
  have h0 := pixelIndex_nonneg hxy
  have h1 := pixelIndex_toNat_lt hxy
  obtain ⟨hb, hl⟩ := ha
  have s1 := vecSet_eq (v := s.labels) (a := s.componentID) h0 (by omega)
  have s2 := vecSet_eq (v := s.binaryImage) (a := 0) h0 (by omega)
  unfold pixelIndex at hb hl s1 s2
  simp only [scanCell, hb, hl, s1, s2, Option.some_bind, if_true, List.length_set]
  rfl

theorem scanInv_after_region {w h m k : Int} {FG : Int × Int → Prop} {s : ScanState}
    {bin : List Nat} {labels : List Int} {P : List (Int × Int)} {x y : Int}
    (hFG : ∀ q, FG q → InBounds w h q) (hs : ScanInv w h FG m k s)
    (hxy : InBounds w h (x, y)) (hk : pixelIndex w (x, y) = k)
    (lb : (w * h).toNat ≤ bin.length) (ll : labels.length = (w * h).toNat)
    (hP : RegionOK w FG P) (hhead : P.head? = some (x, y))
    (hPU : ∀ q ∈ P, Avail w s.binaryImage s.labels q)
    (hav : ∀ q, InBounds w h q →
      (Avail w bin labels q ↔ Avail w s.binaryImage s.labels q ∧ q ∉ P)) :
    ScanInv w h FG m (k + 1)
        { binaryImage := bin, labels := labels, componentID := s.componentID + 1,
          components := s.components ++ [ConnectedComponent.ofPixels s.componentID P] } ∧
      (P.length < (m % 18446744073709551616).toNat →
        ScanInv w h FG m (k + 1)
          { binaryImage := bin, labels := labels, componentID := s.componentID,
            components := s.components }) := by
  have hxyP : (x, y) ∈ P := List.mem_of_mem_head? hhead
  have mono : ∀ q, FG q → ¬ Avail w s.binaryImage s.labels q → ¬ Avail w bin labels q :=
    fun q hq hn ha => hn ((hav q (hFG q hq)).1 ha).1
  have f_avail_fg : ∀ q, InBounds w h q → Avail w bin labels q → FG q :=
    fun q hq ha => hs.avail_fg q hq ((hav q hq).1 ha).1
  have f_closed : ∀ r q, FG r → ¬ Avail w bin labels r → q ∈ neighbours r.1 r.2 →
      FG q → ¬ Avail w bin labels q := by
    intro r q hr hnr hqn hq haq
    obtain ⟨haq1, hqP⟩ := (hav q (hFG q hq)).1 haq
    by_cases har : Avail w s.binaryImage s.labels r
    · have hrP : r ∈ P := by
        by_contra hrP
        exact hnr ((hav r (hFG r hr)).2 ⟨har, hrP⟩)
      exact hqP (hP.closed r hrP q hqn hq)
    · exact hs.closed r q hr har hqn hq haq1
  have f_scanned : ∀ q, FG q → pixelIndex w q < k + 1 → ¬ Avail w bin labels q := by
    intro q hq hlt haq
    obtain ⟨haq1, hqP⟩ := (hav q (hFG q hq)).1 haq
    by_cases hlt2 : pixelIndex w q < k
    · exact hs.scanned q hq hlt2 haq1
    · have he : pixelIndex w q = pixelIndex w (x, y) := by omega
      have hqe := pixelIndex_inj (hFG q hq) hxy he
      exact hqP (hqe ▸ hxyP)
  have f_old : ∀ c ∈ s.components,
      c = ConnectedComponent.ofPixels c.id c.pixels ∧ RegionOK w FG c.pixels ∧
        (∀ q ∈ c.pixels, ¬ Avail w bin labels q) ∧
        ∃ sd, c.pixels.head? = some sd ∧ pixelIndex w sd < k + 1 := by
    intro c hc
    obtain ⟨h1, h2, h3, sd, h4, h5⟩ := hs.regions c hc
    exact ⟨h1, h2, fun q hq => mono q (h2.fg q hq) (h3 q hq), sd, h4, by omega⟩
  constructor
  · refine ⟨lb, ll, f_avail_fg, f_closed, f_scanned, ?_, ?_, ?_, ?_, ?_, ?_⟩
    · intro c hc
      dsimp only at hc ⊢
      rcases List.mem_append.1 hc with hc | hc
      · exact f_old c hc
      · rw [List.mem_singleton] at hc
        subst hc
        refine ⟨?_, ?_, ?_, ?_⟩
        · rw [ofPixels_id, ofPixels_pixels]
        · rw [ofPixels_pixels]; exact hP
        · rw [ofPixels_pixels]
          intro q hq haq
          exact ((hav q (hFG q (hP.fg q hq))).1 haq).2 hq
        · exact ⟨(x, y), by rw [ofPixels_pixels]; exact hhead, by omega⟩
    · dsimp only
      rw [List.flatMap_append, List.nodup_append]
      refine ⟨hs.disjoint, ?_, ?_⟩
      · simp [ofPixels_pixels, hP.nodup]
      · intro a ha1 ha2
        rw [List.mem_flatMap] at ha1 ha2
        obtain ⟨c, hc, hac⟩ := ha1
        obtain ⟨c2, hc2, hac2⟩ := ha2
        rw [List.mem_singleton] at hc2
        subst hc2
        rw [ofPixels_pixels] at hac2
        exact (hs.regions c hc).2.2.1 a hac (hPU a hac2)
    · dsimp only
      rw [List.pairwise_append]
      refine ⟨hs.seeds, List.pairwise_singleton _ _, ?_⟩
      intro a ha b hb sa sb hsa hsb
      rw [List.mem_singleton] at hb
      subst hb
      rw [ofPixels_pixels, hhead] at hsb
      obtain ⟨_, _, _, sd, h4, h5⟩ := hs.regions a ha
      rw [h4] at hsa
      injection hsa with e1
      injection hsb with e2
      rw [← e1, ← e2]
      omega
    · dsimp only
      rw [List.map_append, hs.ids, List.length_append, List.length_singleton, List.range_succ,
        List.map_append]
      simp [ofPixels_id, hs.cid]
    · dsimp only
      rw [hs.cid, List.length_append]
      simp
    · intro hm q hq hnq
      dsimp only at hnq ⊢
      by_cases hqs : Avail w s.binaryImage s.labels q
      · have hqP : q ∈ P := by
          by_contra hqP
          exact hnq ((hav q (hFG q hq)).2 ⟨hqs, hqP⟩)
        exact ⟨ConnectedComponent.ofPixels s.componentID P, by simp,
          by rw [ofPixels_pixels]; exact hqP⟩
      · obtain ⟨c, hc, hqc⟩ := hs.cover hm q hq hqs
        exact ⟨c, List.mem_append_left _ hc, hqc⟩
  · intro hlt
    refine ⟨lb, ll, f_avail_fg, f_closed, f_scanned, f_old, hs.disjoint, hs.seeds, hs.ids,
      hs.cid, ?_⟩
    intro hm
    exfalso
    have hpos : 0 < P.length := List.length_pos.2 hP.nonempty
    omega

theorem scanCell_inv {w h m k : Int} {FG : Int × Int → Prop} {s : ScanState} {x y : Int}
    (hFG : ∀ q, FG q → InBounds w h q) (hs : ScanInv w h FG m k s)
    (hxy : InBounds w h (x, y)) (hk : pixelIndex w (x, y) = k) :
    ∃ s', scanCell w h m s x y = some s' ∧ ScanInv w h FG m (k + 1) s' := by
  by_cases ha : Avail w s.binaryImage s.labels (x, y)
  · have hc0 : BfsCore w h (fun q => InBounds w h q ∧ Avail w s.binaryImage s.labels q)
        { binaryImage := s.binaryImage.set (pixelIndex w (x, y)).toNat 0,
          labels := s.labels.set (pixelIndex w (x, y)).toNat s.componentID,
          queue := [(x, y)], pixels := [(x, y)] } := by
      refine ⟨?_, by simp [hs.len_lab], List.nodup_singleton _, ?_, ?_, ?_⟩
      · show (w * h).toNat ≤ (s.binaryImage.set (pixelIndex w (x, y)).toNat 0).length
        rw [List.length_set]
        exact hs.len_bin
      · intro q hq
        rw [List.mem_singleton] at hq
        subst hq
        exact ⟨hxy, hxy, ha⟩
      · intro q hq
        show Avail w (s.binaryImage.set (pixelIndex w (x, y)).toNat 0)
            (s.labels.set (pixelIndex w (x, y)).toNat s.componentID) q ↔
          (InBounds w h q ∧ Avail w s.binaryImage s.labels q) ∧ q ∉ [(x, y)]
        rw [avail_mark hxy hq, List.mem_singleton]
        exact ⟨fun ⟨a, b⟩ => ⟨⟨hq, a⟩, b⟩, fun ⟨⟨_, a⟩, b⟩ => ⟨a, b⟩⟩
      · intro i q hi hq
        exfalso
        have hq2 : [(x, y)][i]? = some q := hq
        have hlt : i < 1 := (List.getElem?_eq_some.1 hq2).1
        omega
    obtain ⟨r, hb, _, hcr, hcl, ext, hpx⟩ :=
      bfs_core s.componentID (s.binaryImage.length + 1) [] _ hc0 rfl
        (by intro r hr; cases hr) (by have := hs.len_bin; simp; omega)
    have hpx2 : r.pixels = (x, y) :: ext := hpx
    have hhead : r.pixels.head? = some (x, y) := by rw [hpx2]; rfl
    have hPU : ∀ q ∈ r.pixels, Avail w s.binaryImage s.labels q :=
      fun q hq => (hcr.mem q hq).2.2
    have hPfg : ∀ q ∈ r.pixels, FG q :=
      fun q hq => hs.avail_fg q (hcr.mem q hq).1 (hPU q hq)
    have hP : RegionOK w FG r.pixels := by
      refine ⟨by rw [hpx2]; simp, hcr.nodup, hPfg, ?_, hcr.parent, ?_⟩
      · intro r2 hr2 q hqn hq
        by_cases haq : Avail w s.binaryImage s.labels q
        · exact hcl r2 hr2 q hqn (hFG q hq) ⟨hFG q hq, haq⟩
        · exact absurd (hPU r2 hr2)
            (hs.closed q r2 hq haq (neighbours_symm hqn) (hPfg r2 hr2))
      · intro sd hsd q hq
        rw [hhead] at hsd
        injection hsd with e
        rw [← e, hk]
        by_contra hlt
        exact hs.scanned q (hPfg q hq) (by omega) (hPU q hq)
    have hav : ∀ q, InBounds w h q →
        (Avail w r.binaryImage r.labels q ↔
          Avail w s.binaryImage s.labels q ∧ q ∉ r.pixels) := by
      intro q hq
      rw [hcr.avail q hq]
      exact ⟨fun ⟨⟨_, a⟩, b⟩ => ⟨a, b⟩, fun ⟨a, b⟩ => ⟨⟨hq, a⟩, b⟩⟩
    obtain ⟨keep, drop⟩ :=
      scanInv_after_region hFG hs hxy hk hcr.len_bin hcr.len_lab hP hhead hPU hav
    rw [scanCell_start hxy hs.len_bin hs.len_lab ha, hb, Option.some_bind]
    by_cases hsz : r.pixels.length ≥ (m % 18446744073709551616).toNat
    · rw [if_pos hsz]
      exact ⟨_, rfl, keep⟩
    · rw [if_neg hsz]
      exact ⟨_, rfl, drop (by omega)⟩
  · refine ⟨s, scanCell_skip hxy hs.len_bin hs.len_lab ha, ?_⟩
    refine ⟨hs.len_bin, hs.len_lab, hs.avail_fg, hs.closed, ?_, ?_, hs.disjoint, hs.seeds,
      hs.ids, hs.cid, hs.cover⟩
    · intro q hq hlt
      by_cases hlt2 : pixelIndex w q < k
      · exact hs.scanned q hq hlt2
      · have he : pixelIndex w q = pixelIndex w (x, y) := by omega
        rw [pixelIndex_inj (hFG q hq) hxy he]
        exact ha
    · intro c hc
      obtain ⟨h1, h2, h3, sd, h4, h5⟩ := hs.regions c hc
      exact ⟨h1, h2, h3, sd, h4, by omega⟩

/-! ## The two loops of the scan -/

theorem scanRow_prefix_inv {w h m : Int} {FG : Int × Int → Prop}
    (hFG : ∀ q, FG q → InBounds w h q) {y : Int} (hy : 0 ≤ y ∧ y < h) :
    ∀ (n : Nat), (n : Int) ≤ w → ∀ s, ScanInv w h FG m (y * w) s →
      ∃ s', (List.range n).foldlM
          (fun st (x : Nat) => scanCell w h m st (x : Int) y) s = some s' ∧
        ScanInv w h FG m (y * w + n) s' := by
  intro n
  induction n with
  | zero =>
    intro _ s hs
    exact ⟨s, rfl, by simpa using hs⟩
  | succ n ih =>
    intro hn s hs
    obtain ⟨s1, hf, hs1⟩ := ih (by omega) s hs
    have hin : InBounds w h ((n : Int), y) := ⟨⟨by omega, by omega⟩, hy⟩
    obtain ⟨s2, hc, hs2⟩ := scanCell_inv hFG hs1 hin rfl
    refine ⟨s2, ?_, ?_⟩
    · rw [List.range_succ, List.foldlM_append, hf]
      simp [hc]
    · have e : y * w + ((n + 1 : Nat) : Int) = y * w + (n : Int) + 1 := by push_cast; ring
      rw [e]
      exact hs2

theorem scanRow_inv {w h m : Int} {FG : Int × Int → Prop}
    (hFG : ∀ q, FG q → InBounds w h q) (hw : 0 < w) {y : Int} (hy : 0 ≤ y ∧ y < h)
    {s : ScanState} (hs : ScanInv w h FG m (y * w) s) :
    ∃ s', scanRow w h m s y = some s' ∧ ScanInv w h FG m ((y + 1) * w) s' := by
  obtain ⟨s1, hf, hs1⟩ := scanRow_prefix_inv hFG hy w.toNat (by omega) s hs
  refine ⟨s1, hf, ?_⟩
  have e : (y + 1) * w = y * w + (w.toNat : Int) := by
    rw [Int.toNat_of_nonneg (by omega)]; ring
  rw [e]
  exact hs1

theorem scanRows_prefix_inv {w h m : Int} {FG : Int × Int → Prop}
    (hFG : ∀ q, FG q → InBounds w h q) (hw : 0 < w) :
    ∀ (n : Nat), (n : Int) ≤ h → ∀ s, ScanInv w h FG m 0 s →
      ∃ s', (List.range n).foldlM
          (fun st (y : Nat) => scanRow w h m st (y : Int)) s = some s' ∧
        ScanInv w h FG m ((n : Int) * w) s' := by
  intro n
  induction n with
  | zero =>
    intro _ s hs
    exact ⟨s, rfl, by simpa using hs⟩
  | succ n ih =>
    intro hn s hs
    obtain ⟨s1, hf, hs1⟩ := ih (by omega) s hs
    obtain ⟨s2, hc, hs2⟩ := scanRow_inv hFG hw (y := (n : Int)) ⟨by omega, by omega⟩ hs1
    refine ⟨s2, ?_, ?_⟩
    · rw [List.range_succ, List.foldlM_append, hf]
      simp [hc]
    · have e : ((n + 1 : Nat) : Int) * w = ((n : Int) + 1) * w := by push_cast; ring
      rw [e]
      exact hs2

theorem scanRows_inv {w h m : Int} {FG : Int × Int → Prop}
    (hFG : ∀ q, FG q → InBounds w h q) (hw : 0 < w) (hh : 0 < h)
    {s : ScanState} (hs : ScanInv w h FG m 0 s) :
    ∃ s', scanRows w h m s = some s' ∧ ScanInv w h FG m (h * w) s' := by
  obtain ⟨s1, hf, hs1⟩ := scanRows_prefix_inv hFG hw h.toNat (by omega) s hs
  refine ⟨s1, hf, ?_⟩
  rw [Int.toNat_of_nonneg (by omega)] at hs1
  exact hs1

/-! ## The whole extraction -/

theorem vecGet_binarize {img : List Nat} {t : Nat} {i : Int} :
    vecGet (binarize img t) i = some 255 ↔ ∃ v, vecGet img i = some v ∧ v ≥ t := by
  unfold vecGet binarize
  by_cases h0 : 0 ≤ i
  · simp only [if_pos h0, List.getElem?_map]
    cases hv : img[i.toNat]? with
    | none => simp
    | some v =>
      by_cases hvt : v ≥ t
      · simp [hvt]
      · simp [hvt]
  · simp [h0]

theorem init_avail {p : PGMimageProcessor} {t : Nat} {q : Int × Int}
    (hq : InBounds p.width p.height q) :
    Avail p.width (binarize p.imageData t)
        (List.replicate (p.width * p.height).toNat (-1)) q ↔ Foreground p t q := by
  have h0 := pixelIndex_nonneg hq
  have h1 := pixelIndex_toNat_lt hq
  have hl : vecGet (List.replicate (p.width * p.height).toNat (-1 : Int))
      (pixelIndex p.width q) = some (-1) := by
    rw [vecGet_eq h0, List.getElem?_replicate, if_pos h1]
  unfold Avail Foreground
  rw [vecGet_binarize]
  exact ⟨fun ⟨a, _⟩ => ⟨hq, a⟩, fun ⟨_, a⟩ => ⟨a, hl⟩⟩

theorem init_inv (p : PGMimageProcessor) (t : Nat) (m : Int)
    (hlen : (p.width * p.height).toNat ≤ p.imageData.length) :
    ScanInv p.width p.height (Foreground p t) m 0
      { binaryImage := binarize p.imageData t,
        labels := List.replicate (p.width * p.height).toNat (-1),
        componentID := 0, components := [] } := by
  refine ⟨?_, ?_, ?_, ?_, ?_, ?_, ?_, ?_, ?_, ?_, ?_⟩
  · show (p.width * p.height).toNat ≤ (binarize p.imageData t).length
    unfold binarize
    rw [List.length_map]
    exact hlen
  · exact List.length_replicate _ _
  · intro q hq ha
    exact (init_avail hq).1 ha
  · intro r q hr hnr _ _
    exact absurd ((init_avail hr.1).2 hr) hnr
  · intro q hq hlt
    have h0 := pixelIndex_nonneg hq.1
    omega
  · intro c hc
    cases hc
  · exact List.nodup_nil
  · exact List.Pairwise.nil
  · rfl
  · rfl
  · intro _ q hq hnq
    exact absurd ((init_avail hq.1).2 hq) hnq

theorem extract_spec_of_le (p : PGMimageProcessor) (t : Nat) (m : Int)
    (hw : 0 < p.width) (hh : 0 < p.height)
    (hlen : (p.width * p.height).toNat ≤ p.imageData.length) :
    ∃ s : ScanState,
      ScanInv p.width p.height (Foreground p t) m (p.height * p.width) s ∧
      p.extractComponents t m =
        some ({ p with components := s.components }, (s.components.length : Int)) := by
  obtain ⟨s, hs, hinv⟩ :=
    scanRows_inv (m := m) (fun q hq => hq.1) hw hh (init_inv p t m hlen)
  refine ⟨s, hinv, ?_⟩
  have hprod : 0 ≤ p.width * p.height := Int.mul_nonneg (by omega) (by omega)
  unfold PGMimageProcessor.extractComponents vecAlloc
  rw [if_pos hprod, Option.some_bind, hs]
  rfl

theorem extract_spec (p : PGMimageProcessor) (t : Nat) (m : Int) (hwf : WellFormed p) :
    ∃ s : ScanState,
      ScanInv p.width p.height (Foreground p t) m (p.height * p.width) s ∧
      p.extractComponents t m =
        some ({ p with components := s.components }, (s.components.length : Int)) := by
  obtain ⟨hw, hh, hlen⟩ := hwf
  exact extract_spec_of_le p t m hw hh (by omega)

theorem extract_total (p : PGMimageProcessor) (t : Nat) (m : Int) (hwf : WellFormed p) :
    ∃ p' n, p.extractComponents t m = some (p', n) := by
  obtain ⟨s, _, he⟩ := extract_spec p t m hwf
  exact ⟨_, _, he⟩

/-! ## Processor states that are not well-formed -/

theorem foldlM_inv {α σ : Type} (I : σ → Prop) (f : σ → α → Option σ)
    (hstep : ∀ a s s', I s → f s a = some s' → I s') :
    ∀ (l : List α) (s s' : σ), I s → l.foldlM f s = some s' → I s' := by
  intro l
  induction l with
  | nil =>
    intro s s' hI h
    have e : s = s' := by simpa using h
    exact e ▸ hI
  | cons a l ih =>
    intro s s' hI h
    rw [List.foldlM_cons] at h
    obtain ⟨t, ht, hrest⟩ := Option.bind_eq_some.1 h
    exact ih t s' (hstep a s t hI ht) hrest

theorem foldlM_mem_step {α σ : Type} (I : σ → Prop) (f : σ → α → Option σ)
    (hstep : ∀ a s s', I s → f s a = some s' → I s')
    {l : List α} {a : α} (ha : a ∈ l) {s s' : σ} (hI : I s)
    (h : l.foldlM f s = some s') : ∃ t t', I t ∧ f t a = some t' := by
  obtain ⟨l1, l2, hl⟩ := List.append_of_mem ha
  rw [hl, List.foldlM_append] at h
  obtain ⟨t, ht, hrest⟩ := Option.bind_eq_some.1 h
  rw [List.foldlM_cons] at hrest
  obtain ⟨t', ht', _⟩ := Option.bind_eq_some.1 hrest
  exact ⟨t, t', foldlM_inv I f hstep l1 s t hI ht, ht'⟩

theorem vecSet_length {α : Type} {v v' : List α} {i : Int} {a : α}
    (h : vecSet v i a = some v') : v'.length = v.length := by
  unfold vecSet at h
  split at h
  · injection h with e
    rw [← e, List.length_set]
  · cases h

theorem visitNeighbour_len {w h c : Int} (n : Int × Int) (s s' : BfsState)
    (hv : visitNeighbour w h c s n = some s') :
    s'.binaryImage.length = s.binaryImage.length := by
  unfold visitNeighbour at hv
  dsimp only at hv
  by_cases hc : (n.1 ≥ 0 ∧ n.1 < w) ∧ (n.2 ≥ 0 ∧ n.2 < h)
  · rw [if_pos hc] at hv
    obtain ⟨b, _, hv⟩ := Option.bind_eq_some.1 hv
    by_cases hb255 : b = 255
    · rw [if_pos hb255] at hv
      obtain ⟨l1, _, hv⟩ := Option.bind_eq_some.1 hv
      by_cases hl : l1 = -1
      · rw [if_pos hl] at hv
        obtain ⟨lab1, _, hv⟩ := Option.bind_eq_some.1 hv
        obtain ⟨bin1, hbin1, hv⟩ := Option.bind_eq_some.1 hv
        injection hv with e
        rw [← e]
        exact vecSet_length hbin1
      · rw [if_neg hl] at hv
        injection hv with e
        rw [e]
    · rw [if_neg hb255] at hv
      injection hv with e
      rw [e]
  · rw [if_neg hc] at hv
    injection hv with e
    rw [e]

theorem bfs_len {w h c : Int} :
    ∀ (fuel : Nat) (s r : BfsState), bfs w h c fuel s = some r →
      r.binaryImage.length = s.binaryImage.length := by
  intro fuel
  induction fuel with
  | zero =>
    intro s r hb0
    simp [bfs] at hb0
  | succ fuel ih =>
    intro s r hb0
    rcases hq : s.queue with _ | ⟨cur, rest⟩
    · simp only [bfs, hq] at hb0
      injection hb0 with e
      rw [e]
    · simp only [bfs, hq] at hb0
      obtain ⟨t, ht, hrest⟩ := Option.bind_eq_some.1 hb0
      have h1 := foldlM_inv (fun u : BfsState => u.binaryImage.length = s.binaryImage.length)
        (visitNeighbour w h c)
        (fun a u u' hu hv => (visitNeighbour_len a u u' hv).trans hu)
        (neighbours cur.1 cur.2) { s with queue := rest } t rfl ht
      rw [ih t r hrest]
      exact h1

theorem scanCell_len {w h m : Int} (x y : Int) (s s' : ScanState)
    (hv : scanCell w h m s x y = some s') :
    s'.binaryImage.length = s.binaryImage.length := by
  unfold scanCell at hv
  dsimp only at hv
  obtain ⟨b, _, hv⟩ := Option.bind_eq_some.1 hv
  by_cases hb255 : b = 255
  · rw [if_pos hb255] at hv
    obtain ⟨l1, _, hv⟩ := Option.bind_eq_some.1 hv
    by_cases hl : l1 = -1
    · rw [if_pos hl] at hv
      obtain ⟨lab1, _, hv⟩ := Option.bind_eq_some.1 hv
      obtain ⟨bin1, hbin1, hv⟩ := Option.bind_eq_some.1 hv
      obtain ⟨r, hr, hv⟩ := Option.bind_eq_some.1 hv
      have hlen : r.binaryImage.length = s.binaryImage.length := by
        rw [bfs_len _ _ r hr]
        exact vecSet_length hbin1
      split at hv
      · injection hv with e
        rw [← e]
        exact hlen
      · injection hv with e
        rw [← e]
        exact hlen
    · rw [if_neg hl] at hv
      injection hv with e
      rw [e]
  · rw [if_neg hb255] at hv
    injection hv with e
    rw [e]

theorem scanRow_len {w h m : Int} (y : Int) (s s' : ScanState)
    (hv : scanRow w h m s y = some s') :
    s'.binaryImage.length = s.binaryImage.length := by
  unfold scanRow at hv
  exact foldlM_inv (fun u : ScanState => u.binaryImage.length = s.binaryImage.length) _
    (fun a u u' hu hc => (scanCell_len _ _ u u' hc).trans hu) _ s s' rfl hv

theorem scanRows_short {w h m : Int} (hw : 0 < w) (hh : 0 < h) (s : ScanState)
    (hlen : s.binaryImage.length < (w * h).toNat) : scanRows w h m s = none := by
  by_contra hne
  obtain ⟨r, hr⟩ := Option.ne_none_iff_exists'.1 hne
  obtain ⟨W, hW⟩ : ∃ W : Nat, w = (W : Int) := ⟨w.toNat, by omega⟩
  obtain ⟨H, hH⟩ : ∃ H : Nat, h = (H : Int) := ⟨h.toNat, by omega⟩
  have hWpos : 0 < W := by omega
  have hprod : (w * h).toNat = W * H := by
    rw [hW, hH, ← Int.natCast_mul, Int.toNat_natCast]
  rw [hprod] at hlen
  have hy0 : s.binaryImage.length / W < H :=
    Nat.div_lt_of_lt_mul hlen
  have hx0 : s.binaryImage.length % W < W := Nat.mod_lt _ hWpos
  unfold scanRows at hr
  obtain ⟨t, t', ht, hrow⟩ := foldlM_mem_step
    (fun u : ScanState => u.binaryImage.length = s.binaryImage.length) _
    (fun a u u' hu hc => (scanRow_len _ u u' hc).trans hu)
    (List.mem_range.2 (show s.binaryImage.length / W < h.toNat by omega)) rfl hr
  unfold scanRow at hrow
  obtain ⟨u, u', hu, hcell⟩ := foldlM_mem_step
    (fun v : ScanState => v.binaryImage.length = s.binaryImage.length) _
    (fun a v v' hv hc => (scanCell_len _ _ v v' hc).trans hv)
    (List.mem_range.2 (show s.binaryImage.length % W < w.toNat by omega)) ht hrow
  have hidx : ((s.binaryImage.length / W : Nat) : Int) * w + ((s.binaryImage.length % W : Nat) : Int) =
      (s.binaryImage.length : Int) := by
    rw [hW, ← Int.natCast_mul, ← Int.natCast_add, Nat.mul_comm, Nat.div_add_mod]
  unfold scanCell at hcell
  dsimp only at hcell
  obtain ⟨b, hb, _⟩ := Option.bind_eq_some.1 hcell
  rw [hidx] at hb
  unfold vecGet at hb
  rw [if_pos (by omega), Int.toNat_natCast] at hb
  have hlt := (List.getElem?_eq_some.1 hb).1
  omega

theorem foldlM_fixed {α σ : Type} (f : σ → α → Option σ)
    (hstep : ∀ a s, f s a = some s) : ∀ (l : List α) (s : σ), l.foldlM f s = some s := by
  intro l
  induction l with
  | nil => intro s; rfl
  | cons a l ih =>
    intro s
    rw [List.foldlM_cons, hstep a s]
    exact ih s

theorem scanRows_degenerate {w h m : Int} (hd : w ≤ 0 ∨ h ≤ 0) (s : ScanState) :
    scanRows w h m s = some s := by
  unfold scanRows
  rcases hd with hw | hh
  · apply foldlM_fixed
    intro y st
    unfold scanRow
    have e : w.toNat = 0 := by omega
    rw [e]
    rfl
  · have e : h.toNat = 0 := by omega
    rw [e]
    rfl

theorem extract_partial (p : PGMimageProcessor) (t : Nat) (m : Int)
    (p' : PGMimageProcessor) (n : Int) (he : p.extractComponents t m = some (p', n)) :
    p'.components = [] ∨
      ∃ s : ScanState, ScanInv p.width p.height (Foreground p t) m (p.height * p.width) s ∧
        p'.components = s.components := by
  by_cases hd : p.width ≤ 0 ∨ p.height ≤ 0
  · left
    unfold PGMimageProcessor.extractComponents vecAlloc at he
    split at he
    · rw [Option.some_bind, scanRows_degenerate hd] at he
      injection he with e
      have e1 := congrArg (fun r => r.1.components) e
      exact e1.symm
    · cases he
  · have hw : 0 < p.width := by omega
    have hh : 0 < p.height := by omega
    by_cases hlen : (p.width * p.height).toNat ≤ p.imageData.length
    · right
      obtain ⟨s, hinv, hs⟩ := extract_spec_of_le p t m hw hh hlen
      rw [hs] at he
      injection he with e
      have e1 := congrArg (fun r => r.1.components) e
      exact ⟨s, hinv, e1.symm⟩
    · exfalso
      have hprod : 0 ≤ p.width * p.height := Int.mul_nonneg (by omega) (by omega)
      unfold PGMimageProcessor.extractComponents vecAlloc at he
      rw [if_pos hprod, Option.some_bind, scanRows_short hw hh] at he
      · cases he
      · show (binarize p.imageData t).length < (p.width * p.height).toNat
        unfold binarize
        rw [List.length_map]
        omega

/-! ## Paths inside a region -/

theorem region_reach_inside {w : Int} {FG : Int × Int → Prop} {ps : List (Int × Int)}
    (hP : RegionOK w FG ps) {sd : Int × Int} (hsd : ps.head? = some sd) :
    ∀ (i : Nat) (q : Int × Int), ps[i]? = some q → Reach4 (fun r => r ∈ ps) sd q := by
  intro i
  induction i using Nat.strong_induction_on with
  | _ i ih =>
    intro q hq
    rcases Nat.eq_zero_or_pos i with h0 | hpos
    · subst h0
      have e : ps[0]? = ps.head? := (List.head?_eq_getElem? ps).symm
      rw [e, hsd] at hq
      injection hq with e2
      rw [e2]
      exact Relation.ReflTransGen.refl
    · obtain ⟨j, r, hj, hr, hadj⟩ := hP.parent i q hpos hq
      exact Relation.ReflTransGen.tail (ih j hj r hr) ⟨hadj, List.getElem?_mem hq⟩

theorem region_reach_closed {w : Int} {FG : Int × Int → Prop} {ps : List (Int × Int)}
    (hP : RegionOK w FG ps) {sd q : Int × Int} (hsd : sd ∈ ps)
    (hr : Reach4 FG sd q) : q ∈ ps := by
  induction hr with
  | refl => exact hsd
  | tail _ hstep ih => exact hP.closed _ ih _ hstep.1 hstep.2

theorem region_has_neighbour {w : Int} {FG : Int × Int → Prop} {ps : List (Int × Int)}
    (hP : RegionOK w FG ps) (hlen : 1 < ps.length) {q : Int × Int} (hq : q ∈ ps) :
    ∃ r ∈ neighbours q.1 q.2, r ∈ ps := by
  obtain ⟨i, hi⟩ := List.getElem?_of_mem hq
  rcases Nat.eq_zero_or_pos i with h0 | hpos
  · subst h0
    have h1 : ps[1]? = some ps[1] := List.getElem?_eq_getElem hlen
    obtain ⟨j, r, hj, hr, hadj⟩ := hP.parent 1 ps[1] (by omega) h1
    have hj0 : j = 0 := by omega
    subst hj0
    rw [hi] at hr
    injection hr with e
    rw [← e] at hadj
    exact ⟨ps[1], hadj, List.getElem_mem _⟩
  · obtain ⟨j, r, _, hr, hadj⟩ := hP.parent i q hpos hi
    exact ⟨r, neighbours_symm hadj, List.getElem?_mem hr⟩

theorem count_eq_one_of_nodup_mem {l : List (Int × Int)} {q : Int × Int} (h : l.Nodup)
    (hq : q ∈ l) : List.count q l = 1 := by
  induction l with
  | nil => cases hq
  | cons b l ih =>
    rw [List.nodup_cons] at h
    rw [List.count_cons]
    by_cases hb : b = q
    · subst hb
      have h0 : List.count b l = 0 := List.count_eq_zero.2 h.1
      simp [h0]
    · have hq2 : q ∈ l := by
        rcases List.mem_cons.1 hq with e | e
        · exact absurd e.symm hb
        · exact e
      rw [ih h.2 hq2]
      simp [hb]

theorem foldl_min_spec (l : List Int) :
    ∀ a : Int, l.foldl min a ≤ a ∧ (∀ v ∈ l, l.foldl min a ≤ v) ∧
      (l.foldl min a = a ∨ l.foldl min a ∈ l) := by
  induction l with
  | nil => intro a; simp
  | cons b l ih =>
    intro a
    obtain ⟨h1, h2, h3⟩ := ih (min a b)
    rw [List.foldl_cons]
    refine ⟨le_trans h1 (min_le_left a b), ?_, ?_⟩
    · intro v hv
      rcases List.mem_cons.1 hv with e | e
      · rw [e]; exact le_trans h1 (min_le_right a b)
      · exact h2 v e
    · rcases h3 with e | e
      · rcases min_choice a b with c | c
        · left; rw [e, c]
        · right; rw [e, c]; exact List.mem_cons_self b l
      · right; exact List.mem_cons_of_mem b e

theorem foldl_max_spec (l : List Int) :
    ∀ a : Int, a ≤ l.foldl max a ∧ (∀ v ∈ l, v ≤ l.foldl max a) ∧
      (l.foldl max a = a ∨ l.foldl max a ∈ l) := by
  induction l with
  | nil => intro a; simp
  | cons b l ih =>
    intro a
    obtain ⟨h1, h2, h3⟩ := ih (max a b)
    rw [List.foldl_cons]
    refine ⟨le_trans (le_max_left a b) h1, ?_, ?_⟩
    · intro v hv
      rcases List.mem_cons.1 hv with e | e
      · rw [e]; exact le_trans (le_max_right a b) h1
      · exact h2 v e
    · rcases h3 with e | e
      · rcases max_choice a b with c | c
        · left; rw [e, c]
        · right; rw [e, c]; exact List.mem_cons_self b l
      · right; exact List.mem_cons_of_mem b e

theorem foldl_updateBounding_box (ps : List (Int × Int)) :
    ∀ c : ConnectedComponent,
      (ps.foldl (fun c pixel => c.updateBounding pixel.1 pixel.2) c).x_min =
          (ps.map Prod.fst).foldl min c.x_min ∧
      (ps.foldl (fun c pixel => c.updateBounding pixel.1 pixel.2) c).y_min =
          (ps.map Prod.snd).foldl min c.y_min ∧
      (ps.foldl (fun c pixel => c.updateBounding pixel.1 pixel.2) c).x_max =
          (ps.map Prod.fst).foldl max c.x_max ∧
      (ps.foldl (fun c pixel => c.updateBounding pixel.1 pixel.2) c).y_max =
          (ps.map Prod.snd).foldl max c.y_max := by
  induction ps with
  | nil => intro c; exact ⟨rfl, rfl, rfl, rfl⟩
  | cons a ps ih =>
    intro c
    simp only [List.foldl_cons, List.map_cons]
    exact ih (c.updateBounding a.1 a.2)

theorem ofPixels_box (id : Int) (ps : List (Int × Int)) :
    (ConnectedComponent.ofPixels id ps).getBoundingBox =
      ((ps.map Prod.fst).foldl min INT_MAX, (ps.map Prod.snd).foldl min INT_MAX,
        (ps.map Prod.fst).foldl max INT_MIN, (ps.map Prod.snd).foldl max INT_MIN) := by
  obtain ⟨h1, h2, h3, h4⟩ := foldl_updateBounding_box ps
    { id := id, numPixels := (ps.length : Int), pixels := ps,
      x_min := INT_MAX, y_min := INT_MAX, x_max := INT_MIN, y_max := INT_MIN }
  unfold ConnectedComponent.getBoundingBox ConnectedComponent.ofPixels
  rw [h1, h2, h3, h4]

theorem foldl_min_attained {l : List Int} (hne : l ≠ []) (hub : ∀ v ∈ l, v ≤ INT_MAX) :
    l.foldl min INT_MAX ∈ l ∧ ∀ v ∈ l, l.foldl min INT_MAX ≤ v := by
  obtain ⟨_, h2, h3⟩ := foldl_min_spec l INT_MAX
  refine ⟨?_, h2⟩
  rcases h3 with e | e
  · obtain ⟨v, hv⟩ := List.exists_mem_of_ne_nil l hne
    have h4 := h2 v hv
    have h5 := hub v hv
    have h6 : v = l.foldl min INT_MAX := by rw [e] at h4 ⊢; omega
    exact h6 ▸ hv
  · exact e

theorem foldl_max_attained {l : List Int} (hne : l ≠ []) (hlb : ∀ v ∈ l, INT_MIN ≤ v) :
    l.foldl max INT_MIN ∈ l ∧ ∀ v ∈ l, v ≤ l.foldl max INT_MIN := by
  obtain ⟨_, h2, h3⟩ := foldl_max_spec l INT_MIN
  refine ⟨?_, h2⟩
  rcases h3 with e | e
  · obtain ⟨v, hv⟩ := List.exists_mem_of_ne_nil l hne
    have h4 := h2 v hv
    have h5 := hlb v hv
    have h6 : v = l.foldl max INT_MIN := by rw [e] at h4 ⊢; omega
    exact h6 ▸ hv
  · exact e

theorem filter_foldl_eq (P : ConnectedComponent → Prop) [DecidablePred P]
    (l : List ConnectedComponent) :
    ∀ init : List ConnectedComponent,
      l.foldl (fun (filtered : List ConnectedComponent) c =>
          if P c then filtered ++ [c] else filtered) init =
        init ++ l.filter (fun c => decide (P c)) := by
  induction l with
  | nil => intro init; simp
  | cons a l ih =>
    intro init
    rw [List.foldl_cons, ih]
    by_cases ha : P a
    · simp [ha]
    · simp [ha]

theorem ids_at {comps pre post : List ConnectedComponent} {c : ConnectedComponent}
    (hids : comps.map (fun c => c.id) = (List.range comps.length).map Int.ofNat)
    (hsplit : comps = pre ++ c :: post) : c.id = (pre.length : Int) := by
  have hlt : pre.length < comps.length := by
    rw [hsplit, List.length_append, List.length_cons]; omega
  have h1 : (comps.map (fun c => c.id))[pre.length]? = some c.id := by
    rw [hsplit, List.getElem?_map, List.getElem?_append_right (Nat.le_refl _)]
    simp
  have h2 : ((List.range comps.length).map Int.ofNat)[pre.length]? =
      some (pre.length : Int) := by
    rw [List.getElem?_map, List.getElem?_range hlt]
    rfl
  rw [hids, h2] at h1
  injection h1 with e
  exact e.symm

theorem seeds_pairwise {w h m k : Int} {FG : Int × Int → Prop} {s : ScanState}
    (hinv : ScanInv w h FG m k s) :
    s.components.Pairwise (fun a b => seedIndex w a < seedIndex w b) := by
  refine List.Pairwise.imp_of_mem ?_ hinv.seeds
  intro a b ha hb hab
  obtain ⟨_, _, _, sa, hsa, _⟩ := hinv.regions a ha
  obtain ⟨_, _, _, sb, hsb, _⟩ := hinv.regions b hb
  have := hab sa sb hsa hsb
  simpa [seedIndex, hsa, hsb] using this

theorem filter_lt_length {α : Type} (f : α → Int) (pre post : List α) (c : α)
    (hpw : (pre ++ c :: post).Pairwise (fun a b => f a < f b)) :
    ((pre ++ c :: post).filter (fun d => decide (f d < f c))).length = pre.length := by
  rw [List.pairwise_append] at hpw
  obtain ⟨_, h2, h3⟩ := hpw
  have h4 := (List.pairwise_cons.1 h2).1
  have e1 : pre.filter (fun d => decide (f d < f c)) = pre := by
    rw [List.filter_eq_self]
    intro a ha
    exact decide_eq_true (h3 a ha c (List.mem_cons_self c post))
  have e2 : (c :: post).filter (fun d => decide (f d < f c)) = [] := by
    rw [List.filter_eq_nil_iff]
    intro a ha
    rcases List.mem_cons.1 ha with e | e
    · rw [e]; simp
    · have := h4 a e
      simp only [decide_eq_true_eq]
      omega
  rw [List.filter_append, e1, e2, List.append_nil]

/-! ## Two runs that differ in the minimum size -/

theorem foldlM_sim {α σ1 σ2 : Type} (R : σ1 → σ2 → Prop) (f : σ1 → α → Option σ1)
    (g : σ2 → α → Option σ2)
    (hstep : ∀ a s1 s2 s1', R s1 s2 → f s1 a = some s1' → ∃ s2', g s2 a = some s2' ∧ R s1' s2') :
    ∀ (l : List α) (s1 : σ1) (s2 : σ2) (s1' : σ1), R s1 s2 → l.foldlM f s1 = some s1' →
      ∃ s2', l.foldlM g s2 = some s2' ∧ R s1' s2' := by
  intro l
  induction l with
  | nil =>
    intro s1 s2 s1' hR h
    have e : s1 = s1' := by simpa using h
    exact ⟨s2, rfl, e ▸ hR⟩
  | cons a l ih =>
    intro s1 s2 s1' hR h
    rw [List.foldlM_cons] at h
    obtain ⟨t1, ht1, hrest⟩ := Option.bind_eq_some.1 h
    obtain ⟨t2, ht2, hR2⟩ := hstep a s1 s2 t1 hR ht1
    obtain ⟨r2, hr2, hR3⟩ := ih t1 t2 s1' hR2 hrest
    refine ⟨r2, ?_, hR3⟩
    rw [List.foldlM_cons, ht2]
    exact hr2

theorem labelsAgree_get {l1 l2 : List Int} (h : LabelsAgree l1 l2) {i : Int} {a : Int}
    (ha : vecGet l1 i = some a) : ∃ b, vecGet l2 i = some b ∧ (a = -1 ↔ b = -1) := by
  unfold vecGet at ha ⊢
  by_cases h0 : 0 ≤ i
  · rw [if_pos h0] at ha ⊢
    have h1 : (l1.map fun v => decide (v = -1))[i.toNat]? =
        (l2.map fun v => decide (v = -1))[i.toNat]? := by rw [h]
    rw [List.getElem?_map, List.getElem?_map, ha] at h1
    cases hb : l2[i.toNat]? with
    | none => rw [hb] at h1; simp at h1
    | some b =>
      rw [hb] at h1
      simp only [Option.map_some', Option.some.injEq, decide_eq_decide] at h1
      exact ⟨b, rfl, h1⟩
  · rw [if_neg h0] at ha
    cases ha

theorem labelsAgree_set {l1 l2 : List Int} (h : LabelsAgree l1 l2) {i c1 c2 : Int}
    (hc1 : c1 ≠ -1) (hc2 : c2 ≠ -1) {l1' : List Int} (hs : vecSet l1 i c1 = some l1') :
    ∃ l2', vecSet l2 i c2 = some l2' ∧ LabelsAgree l1' l2' := by
  have hlen : l1.length = l2.length := by
    have := congrArg List.length h
    simpa using this
  unfold vecSet at hs ⊢
  by_cases hc : 0 ≤ i ∧ i.toNat < l1.length
  · rw [if_pos hc] at hs
    injection hs with e
    rw [if_pos (by rw [← hlen]; exact hc)]
    refine ⟨_, rfl, ?_⟩
    rw [← e]
    unfold LabelsAgree at h ⊢
    rw [List.map_set, List.map_set, h]
    simp [hc1, hc2]
  · rw [if_neg hc] at hs
    cases hs

theorem visitNeighbour_sim {w h c1 c2 : Int} (hc1 : c1 ≠ -1) (hc2 : c2 ≠ -1)
    (n : Int × Int) (s1 s2 s1' : BfsState) (hR : BfsSim s1 s2)
    (hv : visitNeighbour w h c1 s1 n = some s1') :
    ∃ s2', visitNeighbour w h c2 s2 n = some s2' ∧ BfsSim s1' s2' := by
  unfold visitNeighbour at hv ⊢
  dsimp only at hv ⊢
  by_cases hc : (n.1 ≥ 0 ∧ n.1 < w) ∧ (n.2 ≥ 0 ∧ n.2 < h)
  · rw [if_pos hc] at hv ⊢
    obtain ⟨b, hb, hv⟩ := Option.bind_eq_some.1 hv
    rw [← hR.bin, hb, Option.some_bind]
    by_cases hb255 : b = 255
    · rw [if_pos hb255] at hv ⊢
      obtain ⟨l1, hl1, hv⟩ := Option.bind_eq_some.1 hv
      obtain ⟨l2, hl2, hiff⟩ := labelsAgree_get hR.lab hl1
      rw [hl2, Option.some_bind]
      by_cases hl : l1 = -1
      · rw [if_pos hl] at hv
        rw [if_pos (hiff.1 hl)]
        obtain ⟨lab1, hlab1, hv⟩ := Option.bind_eq_some.1 hv
        obtain ⟨bin1, hbin1, hv⟩ := Option.bind_eq_some.1 hv
        obtain ⟨lab2, hlab2, hagree⟩ := labelsAgree_set hR.lab hc1 hc2 hlab1
        rw [hlab2, Option.some_bind, hbin1, Option.some_bind]
        injection hv with e
        refine ⟨_, rfl, ?_⟩
        rw [← e]
        exact ⟨rfl, hagree, by rw [hR.queue], by rw [hR.pixels]⟩
      · rw [if_neg hl] at hv
        rw [if_neg (fun e => hl (hiff.2 e))]
        injection hv with e
        exact ⟨s2, rfl, e ▸ hR⟩
    · rw [if_neg hb255] at hv ⊢
      injection hv with e
      exact ⟨s2, rfl, e ▸ hR⟩
  · rw [if_neg hc] at hv ⊢
    injection hv with e
    exact ⟨s2, rfl, e ▸ hR⟩

theorem bfs_sim {w h c1 c2 : Int} (hc1 : c1 ≠ -1) (hc2 : c2 ≠ -1) :
    ∀ (fuel : Nat) (s1 s2 r1 : BfsState), BfsSim s1 s2 → bfs w h c1 fuel s1 = some r1 →
      ∃ r2, bfs w h c2 fuel s2 = some r2 ∧ BfsSim r1 r2 := by
  intro fuel
  induction fuel with
  | zero =>
    intro s1 s2 r1 _ hb0
    simp [bfs] at hb0
  | succ fuel ih =>
    intro s1 s2 r1 hR hb0
    rcases hq : s1.queue with _ | ⟨cur, rest⟩
    · have hq2 : s2.queue = [] := by rw [← hR.queue, hq]
      simp only [bfs, hq] at hb0
      injection hb0 with e
      exact ⟨s2, by simp [bfs, hq2], e ▸ hR⟩
    · have hq2 : s2.queue = cur :: rest := by rw [← hR.queue, hq]
      simp only [bfs, hq] at hb0
      obtain ⟨t1, ht1, hrest⟩ := Option.bind_eq_some.1 hb0
      obtain ⟨t2, ht2, hR2⟩ :=
        foldlM_sim BfsSim (visitNeighbour w h c1) (visitNeighbour w h c2)
          (fun a x y x' hxy hx => visitNeighbour_sim hc1 hc2 a x y x' hxy hx)
          (neighbours cur.1 cur.2) { s1 with queue := rest } { s2 with queue := rest } t1
          ⟨hR.bin, hR.lab, rfl, hR.pixels⟩ ht1
      obtain ⟨r2, hr2, hR3⟩ := ih t1 t2 r1 hR2 hrest
      refine ⟨r2, ?_, hR3⟩
      simp only [bfs, hq2]
      rw [ht2]
      exact hr2

theorem scanCell_sim {w h m : Int} (hm0 : 0 ≤ m) (hm1 : m < 18446744073709551616)
    (x y : Int) (s1 s2 s1' : ScanState) (hR : ScanSim m s1 s2)
    (hv : scanCell w h m s1 x y = some s1') :
    ∃ s2', scanCell w h 0 s2 x y = some s2' ∧ ScanSim m s1' s2' := by
  have hc1 : s1.componentID ≠ -1 := by have := hR.cid1; omega
  have hc2 : s2.componentID ≠ -1 := by have := hR.cid2; omega
  unfold scanCell at hv ⊢
  dsimp only at hv ⊢
  obtain ⟨b, hb, hv⟩ := Option.bind_eq_some.1 hv
  rw [← hR.bin, hb, Option.some_bind]
  by_cases hb255 : b = 255
  · rw [if_pos hb255] at hv ⊢
    obtain ⟨l1, hl1, hv⟩ := Option.bind_eq_some.1 hv
    obtain ⟨l2, hl2, hiff⟩ := labelsAgree_get hR.lab hl1
    rw [hl2, Option.some_bind]
    by_cases hl : l1 = -1
    · rw [if_pos hl] at hv
      rw [if_pos (hiff.1 hl)]
      obtain ⟨lab1, hlab1, hv⟩ := Option.bind_eq_some.1 hv
      obtain ⟨bin1, hbin1, hv⟩ := Option.bind_eq_some.1 hv
      obtain ⟨r1, hr1, hv⟩ := Option.bind_eq_some.1 hv
      obtain ⟨lab2, hlab2, hagree⟩ := labelsAgree_set hR.lab hc1 hc2 hlab1
      obtain ⟨r2, hr2, hsim⟩ := bfs_sim hc1 hc2 (bin1.length + 1)
        { binaryImage := bin1, labels := lab1, queue := [(x, y)], pixels := [(x, y)] }
        { binaryImage := bin1, labels := lab2, queue := [(x, y)], pixels := [(x, y)] } r1
        ⟨rfl, hagree, rfl, rfl⟩ hr1
      rw [hlab2, Option.some_bind, hbin1, Option.some_bind, hr2, Option.some_bind]
      have hzero : r2.pixels.length ≥ ((0 : Int) % 18446744073709551616).toNat := by
        simp
      rw [if_pos hzero]
      have hmod : m % 18446744073709551616 = m := Int.emod_eq_of_lt hm0 hm1
      rw [hmod] at hv
      by_cases hsz : r1.pixels.length ≥ m.toNat
      · rw [if_pos hsz] at hv
        injection hv with e
        refine ⟨_, rfl, ?_⟩
        rw [← e]
        refine ⟨hsim.bin, hsim.lab, by have := hR.cid1; show 0 ≤ s1.componentID + 1; omega,
          by have := hR.cid2; show 0 ≤ s2.componentID + 1; omega, ?_⟩
        show (s1.components ++ [ConnectedComponent.ofPixels s1.componentID r1.pixels]).map
            ConnectedComponent.getPixels =
          ((s2.components ++ [ConnectedComponent.ofPixels s2.componentID r2.pixels]).filter
            fun c => decide (m ≤ c.getSize)).map ConnectedComponent.getPixels
        have hkeep : m ≤ (ConnectedComponent.ofPixels s2.componentID r2.pixels).getSize := by
          unfold ConnectedComponent.getSize
          rw [ofPixels_pixels, ← hsim.pixels]
          omega
        have hf : List.filter (fun c => decide (m ≤ c.getSize))
            [ConnectedComponent.ofPixels s2.componentID r2.pixels] =
            [ConnectedComponent.ofPixels s2.componentID r2.pixels] := by
          simp [List.filter, hkeep]
        rw [List.map_append, List.filter_append, List.map_append, hR.comps, hf]
        simp [ConnectedComponent.getPixels, ofPixels_pixels, hsim.pixels]
      · rw [if_neg hsz] at hv
        injection hv with e
        refine ⟨_, rfl, ?_⟩
        rw [← e]
        refine ⟨hsim.bin, hsim.lab, hR.cid1,
          by have := hR.cid2; show 0 ≤ s2.componentID + 1; omega, ?_⟩
        show s1.components.map ConnectedComponent.getPixels =
          ((s2.components ++ [ConnectedComponent.ofPixels s2.componentID r2.pixels]).filter
            fun c => decide (m ≤ c.getSize)).map ConnectedComponent.getPixels
        have hdrop : ¬ m ≤ (ConnectedComponent.ofPixels s2.componentID r2.pixels).getSize := by
          unfold ConnectedComponent.getSize
          rw [ofPixels_pixels, ← hsim.pixels]
          omega
        have hf : List.filter (fun c => decide (m ≤ c.getSize))
            [ConnectedComponent.ofPixels s2.componentID r2.pixels] = [] := by
          simp [List.filter, hdrop]
        rw [List.filter_append, List.map_append, hR.comps, hf]
        simp
    · rw [if_neg hl] at hv
      rw [if_neg (fun e => hl (hiff.2 e))]
      injection hv with e
      exact ⟨s2, rfl, e ▸ hR⟩
  · rw [if_neg hb255] at hv ⊢
    injection hv with e
    exact ⟨s2, rfl, e ▸ hR⟩

theorem scanRows_sim {w h m : Int} (hm0 : 0 ≤ m) (hm1 : m < 18446744073709551616)
    (s1 s2 s1' : ScanState) (hR : ScanSim m s1 s2) (hv : scanRows w h m s1 = some s1') :
    ∃ s2', scanRows w h 0 s2 = some s2' ∧ ScanSim m s1' s2' := by
  unfold scanRows at hv ⊢
  refine foldlM_sim (ScanSim m) _ _ ?_ _ s1 s2 s1' hR hv
  intro yn t1 t2 t1' hT ht
  unfold scanRow at ht ⊢
  refine foldlM_sim (ScanSim m) _ _ ?_ _ t1 t2 t1' hT ht
  intro xn u1 u2 u1' hU hu
  exact scanCell_sim hm0 hm1 _ _ u1 u2 u1' hU hu

/-! ## The labelling contract -/

/-- C1: on a well-formed raster, for every threshold and every minValidSize, each pixel
`(x, y)` stored in a region left by `extractComponents` satisfies `0 <= x < width`,
`0 <= y < height` and `samples[y*width+x] >= threshold`, and no coordinate occurs twice:
each pixel list is duplicate-free, two regions of the list share no coordinate, and so the
concatenation of all pixel lists is duplicate-free. -/
theorem extractComponents_pixels_sound (p : PGMimageProcessor) (threshold : Nat)
    (minValidSize : Int) (hwf : WellFormed p) :
    ∃ p' n, p.extractComponents threshold minValidSize = some (p', n) ∧
      (∀ c ∈ p'.components, ∀ q ∈ c.pixels,
        (0 ≤ q.1 ∧ q.1 < p.width) ∧ (0 ≤ q.2 ∧ q.2 < p.height) ∧
          ∃ v, vecGet p.imageData (q.2 * p.width + q.1) = some v ∧ v ≥ threshold) ∧
      (∀ c ∈ p'.components, c.pixels.Nodup) ∧
      p'.components.Pairwise (fun a b => ∀ q ∈ a.pixels, q ∉ b.pixels) ∧
      (p'.components.flatMap fun c => c.pixels).Nodup := by
  obtain ⟨s, hinv, he⟩ := extract_spec p threshold minValidSize hwf
  refine ⟨_, _, he, ?_, ?_, ?_, hinv.disjoint⟩
  · intro c hc q hq
    obtain ⟨hin, v, hv, hvt⟩ := (hinv.regions c hc).2.1.fg q hq
    exact ⟨hin.1, hin.2, v, hv, hvt⟩
  · intro c hc
    exact (hinv.regions c hc).2.1.nodup
  · have hd := (List.nodup_flatMap.1 hinv.disjoint).2
    refine hd.imp ?_
    intro a b hab q hqa hqb
    exact hab hqa hqb

/-- C1 at the 3 x 3 raster `rasterB` with threshold 1 and minValidSize 1. -/
theorem extractComponents_pixels_sound_witness :
    WellFormed rasterB ∧
    ∃ p' n, rasterB.extractComponents 1 1 = some (p', n) ∧
      (∀ c ∈ p'.components, ∀ q ∈ c.pixels,
        (0 ≤ q.1 ∧ q.1 < rasterB.width) ∧ (0 ≤ q.2 ∧ q.2 < rasterB.height) ∧
          ∃ v, vecGet rasterB.imageData (q.2 * rasterB.width + q.1) = some v ∧ v ≥ 1) ∧
      (∀ c ∈ p'.components, c.pixels.Nodup) ∧
      p'.components.Pairwise (fun a b => ∀ q ∈ a.pixels, q ∉ b.pixels) ∧
      (p'.components.flatMap fun c => c.pixels).Nodup :=
  ⟨by decide, extractComponents_pixels_sound rasterB 1 1 (by decide)⟩

/-- C2: on a well-formed raster, when minValidSize is 0 or 1 nothing is discarded: every
cell on the raster whose sample is at least the threshold lies in a region of the list left
by `extractComponents` and occurs exactly once in the concatenation of all pixel lists; a
foreground cell without a foreground 4-neighbour is kept as a region of its own. -/
theorem extractComponents_covers_foreground (p : PGMimageProcessor) (threshold : Nat)
    (minValidSize : Int) (hwf : WellFormed p) (hm : minValidSize = 0 ∨ minValidSize = 1) :
    ∃ p' n, p.extractComponents threshold minValidSize = some (p', n) ∧
      (∀ q, Foreground p threshold q →
        (∃ c ∈ p'.components, q ∈ c.pixels) ∧
          List.count q (p'.components.flatMap fun c => c.pixels) = 1) ∧
      (∀ q, Foreground p threshold q →
        (∀ r ∈ neighbours q.1 q.2, ¬ Foreground p threshold r) →
          ∃ c ∈ p'.components, c.pixels = [q]) := by
  obtain ⟨s, hinv, he⟩ := extract_spec p threshold minValidSize hwf
  have hm1 : (minValidSize % 18446744073709551616).toNat ≤ 1 := by
    rcases hm with h | h <;> rw [h] <;> decide
  have hcov : ∀ q, Foreground p threshold q → ∃ c ∈ s.components, q ∈ c.pixels := by
    intro q hq
    have hlt : pixelIndex p.width q < p.height * p.width := by
      have := pixelIndex_lt hq.1
      rw [Int.mul_comm]; exact this
    exact hinv.cover hm1 q hq (hinv.scanned q hq hlt)
  refine ⟨_, _, he, ?_, ?_⟩
  · intro q hq
    obtain ⟨c, hc, hqc⟩ := hcov q hq
    refine ⟨⟨c, hc, hqc⟩, count_eq_one_of_nodup_mem hinv.disjoint ?_⟩
    exact List.mem_flatMap.2 ⟨c, hc, hqc⟩
  · intro q hq hiso
    obtain ⟨c, hc, hqc⟩ := hcov q hq
    have hP := (hinv.regions c hc).2.1
    refine ⟨c, hc, ?_⟩
    have hlen : ¬ 1 < c.pixels.length := by
      intro h1
      obtain ⟨r, hr, hrc⟩ := region_has_neighbour hP h1 hqc
      exact hiso r hr (hP.fg r hrc)
    rcases hcp : c.pixels with _ | ⟨a, _ | ⟨b, l⟩⟩
    · exact absurd hcp hP.nonempty
    · rw [hcp] at hqc
      rw [List.mem_singleton] at hqc
      rw [hqc]
    · rw [hcp] at hlen
      simp at hlen

/-- C2 at the 3 x 3 raster `rasterB` with threshold 1 and minValidSize 0. -/
theorem extractComponents_covers_foreground_witness :
    WellFormed rasterB ∧ ((0 : Int) = 0 ∨ (0 : Int) = 1) ∧
    ∃ p' n, rasterB.extractComponents 1 0 = some (p', n) ∧
      (∀ q, Foreground rasterB 1 q →
        (∃ c ∈ p'.components, q ∈ c.pixels) ∧
          List.count q (p'.components.flatMap fun c => c.pixels) = 1) ∧
      (∀ q, Foreground rasterB 1 q →
        (∀ r ∈ neighbours q.1 q.2, ¬ Foreground rasterB 1 r) →
          ∃ c ∈ p'.components, c.pixels = [q]) :=
  ⟨by decide, Or.inl rfl,
    extractComponents_covers_foreground rasterB 1 0 (by decide) (Or.inl rfl)⟩

/-- C3: on a well-formed raster each region left by `extractComponents` is a maximal
4-connected set of foreground cells.  With `sd` the first pixel of the region, a cell is a
member exactly when it is a foreground cell reached from `sd` by north/east/south/west steps
through foreground cells; every member is reached from `sd` by steps that stay inside the
region; and no foreground cell outside the region is 4-adjacent to a member. -/
theorem extractComponents_regions_maximal (p : PGMimageProcessor) (threshold : Nat)
    (minValidSize : Int) (hwf : WellFormed p) :
    ∃ p' n, p.extractComponents threshold minValidSize = some (p', n) ∧
      ∀ c ∈ p'.components, ∃ sd, c.pixels.head? = some sd ∧
        (∀ q, q ∈ c.pixels ↔
          Foreground p threshold q ∧ Reach4 (Foreground p threshold) sd q) ∧
        (∀ q ∈ c.pixels, Reach4 (fun r => r ∈ c.pixels) sd q) ∧
        (∀ r ∈ c.pixels, ∀ q ∈ neighbours r.1 r.2, Foreground p threshold q →
          q ∈ c.pixels) := by
  obtain ⟨s, hinv, he⟩ := extract_spec p threshold minValidSize hwf
  refine ⟨_, _, he, ?_⟩
  intro c hc
  obtain ⟨_, hP, _, sd, hsd, _⟩ := hinv.regions c hc
  have hins : ∀ q ∈ c.pixels, Reach4 (fun r => r ∈ c.pixels) sd q := by
    intro q hq
    obtain ⟨i, hi⟩ := List.getElem?_of_mem hq
    exact region_reach_inside hP hsd i q hi
  refine ⟨sd, hsd, ?_, hins, hP.closed⟩
  intro q
  constructor
  · intro hq
    refine ⟨hP.fg q hq, ?_⟩
    exact Relation.ReflTransGen.mono (fun a b hab => ⟨hab.1, hP.fg b hab.2⟩) (hins q hq)
  · intro hq
    exact region_reach_closed hP (List.mem_of_mem_head? hsd) hq.2

/-- C3 at the 3 x 3 raster `rasterB` with threshold 1 and minValidSize 1. -/
theorem extractComponents_regions_maximal_witness :
    WellFormed rasterB ∧
    ∃ p' n, rasterB.extractComponents 1 1 = some (p', n) ∧
      ∀ c ∈ p'.components, ∃ sd, c.pixels.head? = some sd ∧
        (∀ q, q ∈ c.pixels ↔ Foreground rasterB 1 q ∧ Reach4 (Foreground rasterB 1) sd q) ∧
        (∀ q ∈ c.pixels, Reach4 (fun r => r ∈ c.pixels) sd q) ∧
        (∀ r ∈ c.pixels, ∀ q ∈ neighbours r.1 r.2, Foreground rasterB 1 q →
          q ∈ c.pixels) :=
  ⟨by decide, extractComponents_regions_maximal rasterB 1 1 (by decide)⟩

/-- C4: in every region returned by `extractComponents` whose size is greater than 1,
every member pixel `(x, y)` has at least one of `(x, y-1)`, `(x+1, y)`, `(x, y+1)`,
`(x-1, y)` that is also a member of the same region.  This holds for every processor state
on which the call returns, and the call does return on every well-formed raster. -/
theorem extractComponents_no_isolated_member (p : PGMimageProcessor) (threshold : Nat)
    (minValidSize : Int) :
    (WellFormed p → ∃ p' n, p.extractComponents threshold minValidSize = some (p', n)) ∧
    ∀ p' n, p.extractComponents threshold minValidSize = some (p', n) →
      ∀ c ∈ p'.components, c.getSize > 1 → ∀ q ∈ c.pixels,
        (q.1, q.2 - 1) ∈ c.pixels ∨ (q.1 + 1, q.2) ∈ c.pixels ∨
          (q.1, q.2 + 1) ∈ c.pixels ∨ (q.1 - 1, q.2) ∈ c.pixels := by
  refine ⟨extract_total p threshold minValidSize, ?_⟩
  intro p' n he c hc hsz q hq
  rcases extract_partial p threshold minValidSize p' n he with hnil | ⟨s, hinv, hs⟩
  · rw [hnil] at hc
    cases hc
  · rw [hs] at hc
    have hP := (hinv.regions c hc).2.1
    have hlen : 1 < c.pixels.length := by
      unfold ConnectedComponent.getSize at hsz
      omega
    obtain ⟨r, hr, hrc⟩ := region_has_neighbour hP hlen hq
    simp only [neighbours, List.mem_cons, List.mem_singleton, List.mem_nil_iff,
      or_false] at hr
    rcases hr with h | h | h | h
    · exact Or.inl (h ▸ hrc)
    · exact Or.inr (Or.inl (h ▸ hrc))
    · exact Or.inr (Or.inr (Or.inl (h ▸ hrc)))
    · exact Or.inr (Or.inr (Or.inr (h ▸ hrc)))

/-- C4 at the 3 x 3 raster `rasterB` with threshold 1 and minValidSize 1. -/
theorem extractComponents_no_isolated_member_witness :
    WellFormed rasterB ∧
    rasterB.extractComponents 1 1 =
      some ({ rasterB with components := rasterBRegions }, 2) ∧
    ∀ c ∈ rasterBRegions, c.getSize > 1 → ∀ q ∈ c.pixels,
      (q.1, q.2 - 1) ∈ c.pixels ∨ (q.1 + 1, q.2) ∈ c.pixels ∨
        (q.1, q.2 + 1) ∈ c.pixels ∨ (q.1 - 1, q.2) ∈ c.pixels :=
  ⟨by decide, by decide,
    (extractComponents_no_isolated_member rasterB 1 1).2
      { rasterB with components := rasterBRegions } 2 (by decide)⟩

/-- C5: for every region left by `extractComponents` on a well-formed raster (whose `int`
dimensions do not exceed `INT_MAX`), `getBoundingBox()` is
`(min x, min y, max x, max y)` over the region's pixels: each of the four values is attained
by a pixel of the region and bounds that coordinate of every pixel; in particular
`xMin <= xMax` and `yMin <= yMax`. -/
theorem extractComponents_boundingBox (p : PGMimageProcessor) (threshold : Nat)
    (minValidSize : Int) (hwf : WellFormed p) (hwi : p.width ≤ INT_MAX)
    (hhi : p.height ≤ INT_MAX) :
    ∃ p' n, p.extractComponents threshold minValidSize = some (p', n) ∧
      ∀ c ∈ p'.components, ∃ xMin yMin xMax yMax,
        c.getBoundingBox = (xMin, yMin, xMax, yMax) ∧
        (∃ q ∈ c.pixels, q.1 = xMin) ∧ (∀ q ∈ c.pixels, xMin ≤ q.1) ∧
        (∃ q ∈ c.pixels, q.2 = yMin) ∧ (∀ q ∈ c.pixels, yMin ≤ q.2) ∧
        (∃ q ∈ c.pixels, q.1 = xMax) ∧ (∀ q ∈ c.pixels, q.1 ≤ xMax) ∧
        (∃ q ∈ c.pixels, q.2 = yMax) ∧ (∀ q ∈ c.pixels, q.2 ≤ yMax) ∧
        xMin ≤ xMax ∧ yMin ≤ yMax := by
  obtain ⟨s, hinv, he⟩ := extract_spec p threshold minValidSize hwf
  refine ⟨_, _, he, ?_⟩
  intro c hc
  obtain ⟨hcons, hP, _, _⟩ := hinv.regions c hc
  have hin : ∀ q ∈ c.pixels, InBounds p.width p.height q := fun q hq => (hP.fg q hq).1
  have hx : (c.pixels.map Prod.fst) ≠ [] := by simpa using hP.nonempty
  have hy : (c.pixels.map Prod.snd) ≠ [] := by simpa using hP.nonempty
  have hxub : ∀ v ∈ c.pixels.map Prod.fst, v ≤ INT_MAX := by
    intro v hv
    obtain ⟨q, hq, rfl⟩ := List.mem_map.1 hv
    have := (hin q hq).1.2
    omega
  have hyub : ∀ v ∈ c.pixels.map Prod.snd, v ≤ INT_MAX := by
    intro v hv
    obtain ⟨q, hq, rfl⟩ := List.mem_map.1 hv
    have := (hin q hq).2.2
    omega
  have hxlb : ∀ v ∈ c.pixels.map Prod.fst, INT_MIN ≤ v := by
    intro v hv
    obtain ⟨q, hq, rfl⟩ := List.mem_map.1 hv
    have := (hin q hq).1.1
    unfold INT_MIN
    omega
  have hylb : ∀ v ∈ c.pixels.map Prod.snd, INT_MIN ≤ v := by
    intro v hv
    obtain ⟨q, hq, rfl⟩ := List.mem_map.1 hv
    have := (hin q hq).2.1
    unfold INT_MIN
    omega
  obtain ⟨ax, bx⟩ := foldl_min_attained hx hxub
  obtain ⟨ay, by1⟩ := foldl_min_attained hy hyub
  obtain ⟨aX, bX⟩ := foldl_max_attained hx hxlb
  obtain ⟨aY, bY⟩ := foldl_max_attained hy hylb
  obtain ⟨q1, hq1, e1⟩ := List.mem_map.1 ax
  obtain ⟨q2, hq2, e2⟩ := List.mem_map.1 ay
  obtain ⟨q3, hq3, e3⟩ := List.mem_map.1 aX
  obtain ⟨q4, hq4, e4⟩ := List.mem_map.1 aY
  have hbox := ofPixels_box c.id c.pixels
  rw [← hcons] at hbox
  refine ⟨_, _, _, _, hbox,
    ⟨q1, hq1, e1⟩, fun q hq => bx q.1 (List.mem_map_of_mem _ hq),
    ⟨q2, hq2, e2⟩, fun q hq => by1 q.2 (List.mem_map_of_mem _ hq),
    ⟨q3, hq3, e3⟩, fun q hq => bX q.1 (List.mem_map_of_mem _ hq),
    ⟨q4, hq4, e4⟩, fun q hq => bY q.2 (List.mem_map_of_mem _ hq), ?_, ?_⟩
  · exact le_trans (bx q1.1 (List.mem_map_of_mem _ hq1)) (bX q1.1 (List.mem_map_of_mem _ hq1))
  · exact le_trans (by1 q2.2 (List.mem_map_of_mem _ hq2))
      (bY q2.2 (List.mem_map_of_mem _ hq2))

/-- C5 at the 3 x 3 raster `rasterB` with threshold 1 and minValidSize 1. -/
theorem extractComponents_boundingBox_witness :
    WellFormed rasterB ∧ rasterB.width ≤ INT_MAX ∧ rasterB.height ≤ INT_MAX ∧
    ∃ p' n, rasterB.extractComponents 1 1 = some (p', n) ∧
      ∀ c ∈ p'.components, ∃ xMin yMin xMax yMax,
        c.getBoundingBox = (xMin, yMin, xMax, yMax) ∧
        (∃ q ∈ c.pixels, q.1 = xMin) ∧ (∀ q ∈ c.pixels, xMin ≤ q.1) ∧
        (∃ q ∈ c.pixels, q.2 = yMin) ∧ (∀ q ∈ c.pixels, yMin ≤ q.2) ∧
        (∃ q ∈ c.pixels, q.1 = xMax) ∧ (∀ q ∈ c.pixels, q.1 ≤ xMax) ∧
        (∃ q ∈ c.pixels, q.2 = yMax) ∧ (∀ q ∈ c.pixels, q.2 ≤ yMax) ∧
        xMin ≤ xMax ∧ yMin ≤ yMax :=
  ⟨by decide, by decide, by decide,
    extractComponents_boundingBox rasterB 1 1 (by decide) (by decide) (by decide)⟩

/-- C6: on a well-formed raster, for every threshold `t` and every `int` minValidSize
`m >= 0`, the pixel lists of the regions left by `extractComponents(t, m)` are, in the same
order, the pixel lists of the regions left by `extractComponents(t, 0)` that have at least
`m` pixels; in particular the result is empty (and the count returned is 0) when `m` exceeds
the size of every region. -/
theorem extractComponents_minValidSize_restricts (p : PGMimageProcessor) (threshold : Nat)
    (m : Int) (hwf : WellFormed p) (hm0 : 0 ≤ m) (hmi : m ≤ INT_MAX) :
    ∃ pm nm p0 n0, p.extractComponents threshold m = some (pm, nm) ∧
      p.extractComponents threshold 0 = some (p0, n0) ∧
      pm.components.map ConnectedComponent.getPixels =
        (p0.components.filter fun c => decide (m ≤ c.getSize)).map
          ConnectedComponent.getPixels ∧
      ((∀ c ∈ p0.components, c.getSize < m) → pm.components = [] ∧ nm = 0) := by
  obtain ⟨s, _, he⟩ := extract_spec p threshold m hwf
  have hm1 : m < 18446744073709551616 := by unfold INT_MAX at hmi; omega
  have hprod : 0 ≤ p.width * p.height := Int.mul_nonneg (by have := hwf.1; omega)
    (by have := hwf.2.1; omega)
  unfold PGMimageProcessor.extractComponents vecAlloc at he ⊢
  simp only [if_pos hprod, Option.some_bind] at he ⊢
  cases hsr : scanRows p.width p.height m
      { binaryImage := binarize p.imageData threshold,
        labels := List.replicate (p.width * p.height).toNat (-1),
        componentID := 0, components := [] } with
  | none =>
    rw [hsr] at he
    cases he
  | some sm =>
    obtain ⟨s0, hs0, hsim⟩ := scanRows_sim hm0 hm1 _ _ sm
      ⟨rfl, rfl, le_refl _, le_refl _, by simp⟩ hsr
    rw [hs0]
    refine ⟨_, _, _, _, rfl, rfl, hsim.comps, ?_⟩
    intro hall
    have hnil : (s0.components.filter fun c => decide (m ≤ c.getSize)) = [] := by
      rw [List.filter_eq_nil_iff]
      intro c hc
      have := hall c hc
      simp only [decide_eq_true_eq]
      omega
    have hc := hsim.comps
    rw [hnil, List.map_nil, List.map_eq_nil_iff] at hc
    exact ⟨hc, by show ((sm.components.length : Nat) : Int) = 0; rw [hc]; rfl⟩

/-- C6 at the raster `rasterA` with threshold 1 and minValidSize 2. -/
theorem extractComponents_minValidSize_restricts_witness :
    WellFormed rasterA ∧ (0 : Int) ≤ 2 ∧ (2 : Int) ≤ INT_MAX ∧
    ∃ pm nm p0 n0, rasterA.extractComponents 1 2 = some (pm, nm) ∧
      rasterA.extractComponents 1 0 = some (p0, n0) ∧
      pm.components.map ConnectedComponent.getPixels =
        (p0.components.filter fun c => decide ((2 : Int) ≤ c.getSize)).map
          ConnectedComponent.getPixels ∧
      ((∀ c ∈ p0.components, c.getSize < 2) → pm.components = [] ∧ nm = 0) :=
  ⟨by decide, by decide, by decide,
    extractComponents_minValidSize_restricts rasterA 1 2 (by decide) (by decide) (by decide)⟩

/-- C7: on a well-formed raster the regions left by `extractComponents` appear in the order
in which the row-major scan meets their seeds: of any two consecutive regions of the list,
the index `y*width+x` of the first pixel of the earlier one is strictly smaller than that of
the first pixel of the later one. -/
theorem extractComponents_seed_order (p : PGMimageProcessor) (threshold : Nat)
    (minValidSize : Int) (hwf : WellFormed p) :
    ∃ p' n, p.extractComponents threshold minValidSize = some (p', n) ∧
      ∀ pre a b post, p'.components = pre ++ a :: b :: post →
        ∃ sa sb, a.pixels.head? = some sa ∧ b.pixels.head? = some sb ∧
          sa.2 * p.width + sa.1 < sb.2 * p.width + sb.1 := by
  obtain ⟨s, hinv, he⟩ := extract_spec p threshold minValidSize hwf
  refine ⟨_, _, he, ?_⟩
  intro pre a b post hsplit
  have hsplit2 : s.components = pre ++ a :: b :: post := hsplit
  have ha : a ∈ s.components := by rw [hsplit2]; simp
  have hb : b ∈ s.components := by rw [hsplit2]; simp
  obtain ⟨_, _, _, sa, hsa, _⟩ := hinv.regions a ha
  obtain ⟨_, _, _, sb, hsb, _⟩ := hinv.regions b hb
  have hpw := hinv.seeds
  rw [hsplit2, List.pairwise_append] at hpw
  have hab := (List.pairwise_cons.1 hpw.2.1).1 b (List.mem_cons_self b post)
  exact ⟨sa, sb, hsa, hsb, hab sa sb hsa hsb⟩

/-- C7 at the 3 x 3 raster `rasterB` with threshold 1 and minValidSize 1. -/
theorem extractComponents_seed_order_witness :
    WellFormed rasterB ∧
    ∃ p' n, rasterB.extractComponents 1 1 = some (p', n) ∧
      ∀ pre a b post, p'.components = pre ++ a :: b :: post →
        ∃ sa sb, a.pixels.head? = some sa ∧ b.pixels.head? = some sb ∧
          sa.2 * rasterB.width + sa.1 < sb.2 * rasterB.width + sb.1 :=
  ⟨by decide, extractComponents_seed_order rasterB 1 1 (by decide)⟩

/-- C8: in the list left by one call of `extractComponents` the region ids are
non-negative, pairwise distinct, and strictly increasing along the list.  This holds for
every processor state on which the call returns, and the call does return on every
well-formed raster. -/
theorem extractComponents_ids_increasing (p : PGMimageProcessor) (threshold : Nat)
    (minValidSize : Int) :
    (WellFormed p → ∃ p' n, p.extractComponents threshold minValidSize = some (p', n)) ∧
    ∀ p' n, p.extractComponents threshold minValidSize = some (p', n) →
      (∀ c ∈ p'.components, 0 ≤ c.getID) ∧
      (p'.components.map ConnectedComponent.getID).Nodup ∧
      (p'.components.map ConnectedComponent.getID).Pairwise (fun a b => a < b) := by
  refine ⟨extract_total p threshold minValidSize, ?_⟩
  intro p' n he
  rcases extract_partial p threshold minValidSize p' n he with hnil | ⟨s, hinv, hs⟩
  · rw [hnil]
    exact ⟨fun c hc => absurd hc (List.not_mem_nil c), List.nodup_nil, List.Pairwise.nil⟩
  · rw [hs]
    have hids : s.components.map ConnectedComponent.getID =
        (List.range s.components.length).map Int.ofNat := hinv.ids
    have hpw : (s.components.map ConnectedComponent.getID).Pairwise (fun a b => a < b) := by
      rw [hids, List.pairwise_map]
      exact (List.pairwise_lt_range _).imp (fun h => Int.ofNat_lt.2 h)
    refine ⟨?_, hpw.imp (fun h => ne_of_lt h), hpw⟩
    intro c hc
    have hmem : c.getID ∈ s.components.map ConnectedComponent.getID :=
      List.mem_map_of_mem _ hc
    rw [hids] at hmem
    obtain ⟨k, _, hk⟩ := List.mem_map.1 hmem
    rw [← hk]
    exact Int.ofNat_nonneg k

/-- C8 at the 3 x 3 raster `rasterB` with threshold 1 and minValidSize 1. -/
theorem extractComponents_ids_increasing_witness :
    WellFormed rasterB ∧
    rasterB.extractComponents 1 1 =
      some ({ rasterB with components := rasterBRegions }, 2) ∧
    (∀ c ∈ rasterBRegions, 0 ≤ c.getID) ∧
    (rasterBRegions.map ConnectedComponent.getID).Nodup ∧
    (rasterBRegions.map ConnectedComponent.getID).Pairwise (fun a b => a < b) :=
  ⟨by decide, by decide,
    (extractComponents_ids_increasing rasterB 1 1).2
      { rasterB with components := rasterBRegions } 2 (by decide)⟩

/-- C9 as stated fails on the raster `rasterA` (samples 1 0 1 1 on one row, threshold 1).
With minValidSize 0 the scan finds the region of `(0,0)` and then the region of `(2,0)`; with
minValidSize 2 the first is discarded and the one region left has id 0, though one discovered
region precedes it: its id is not the number of regions, kept or discarded, met before. -/
theorem extractComponents_id_consumed_counterexample :
    rasterA.extractComponents 1 0 =
        some ({ rasterA with components :=
                  [ConnectedComponent.ofPixels 0 [(0, 0)],
                   ConnectedComponent.ofPixels 1 [(2, 0), (3, 0)]] }, 2) ∧
    rasterA.extractComponents 1 2 =
        some ({ rasterA with components :=
                  [ConnectedComponent.ofPixels 0 [(2, 0), (3, 0)]] }, 1) ∧
    (ConnectedComponent.ofPixels 0 [(2, 0), (3, 0)]).getID ≠ 1 ∧
    ¬ (∀ p0 n0 p2 n2, rasterA.extractComponents 1 0 = some (p0, n0) →
        rasterA.extractComponents 1 2 = some (p2, n2) →
        ∀ c ∈ p2.components,
          c.getID = ((p0.components.filter fun d =>
            decide (seedIndex rasterA.width d < seedIndex rasterA.width c)).length : Int)) := by
  refine ⟨by decide, by decide, by decide, ?_⟩
  intro h
  have h1 := h _ _ _ _ rfl rfl (ConnectedComponent.ofPixels 0 [(2, 0), (3, 0)])
    (List.mem_singleton.2 rfl)
  revert h1
  decide

/-- C9 as amended: the id of each region returned by `extractComponents` equals the number
of regions of the returned list (the kept regions only) whose seed precedes its seed in the
row-major scan.  This holds for every processor state on which the call returns, and the
call does return on every well-formed raster. -/
theorem extractComponents_id_counts_kept (p : PGMimageProcessor) (threshold : Nat)
    (minValidSize : Int) :
    (WellFormed p → ∃ p' n, p.extractComponents threshold minValidSize = some (p', n)) ∧
    ∀ p' n, p.extractComponents threshold minValidSize = some (p', n) →
      ∀ c ∈ p'.components,
        c.getID = ((p'.components.filter fun d =>
          decide (seedIndex p.width d < seedIndex p.width c)).length : Int) := by
  refine ⟨extract_total p threshold minValidSize, ?_⟩
  intro p' n he c hc
  rcases extract_partial p threshold minValidSize p' n he with hnil | ⟨s, hinv, hs⟩
  · rw [hnil] at hc
    cases hc
  · rw [hs] at hc ⊢
    obtain ⟨pre, post, hsplit⟩ := List.append_of_mem hc
    have hpw := seeds_pairwise hinv
    rw [hsplit] at hpw
    have hlen := filter_lt_length (seedIndex p.width) pre post c hpw
    show c.id = ((s.components.filter fun d =>
      decide (seedIndex p.width d < seedIndex p.width c)).length : Int)
    rw [ids_at hinv.ids hsplit]
    conv_rhs => rw [hsplit]
    rw [hlen]

/-- C9 as amended, at the raster `rasterA` with threshold 1 and minValidSize 2. -/
theorem extractComponents_id_counts_kept_witness :
    WellFormed rasterA ∧
    rasterA.extractComponents 1 2 =
      some ({ rasterA with components :=
                [ConnectedComponent.ofPixels 0 [(2, 0), (3, 0)]] }, 1) ∧
    ∀ c ∈ [ConnectedComponent.ofPixels 0 [(2, 0), (3, 0)]],
      c.getID = (([ConnectedComponent.ofPixels 0 [(2, 0), (3, 0)]].filter fun d =>
        decide (seedIndex rasterA.width d < seedIndex rasterA.width c)).length : Int) :=
  ⟨by decide, by decide,
    (extractComponents_id_counts_kept rasterA 1 2).2
      { rasterA with components := [ConnectedComponent.ofPixels 0 [(2, 0), (3, 0)]] } 1
      (by decide)⟩

/-- C10: for every region list and all integers minSize and maxSize,
`filterComponentsBySize(minSize, maxSize)` replaces the list by the sub-sequence, in the
original relative order, of exactly the regions `r` with `minSize <= r.getSize() <= maxSize`;
the kept regions are the very values of the old list, so id, pixel list and bounding box are
unchanged, and the rest of the processor is untouched. -/
theorem filterComponentsBySize_spec (p : PGMimageProcessor) (minSize maxSize : Int) :
    (p.filterComponentsBySize minSize maxSize).1.components =
        p.components.filter
          (fun r => decide (minSize ≤ r.getSize ∧ r.getSize ≤ maxSize)) ∧
      ((p.filterComponentsBySize minSize maxSize).1.components).Sublist p.components ∧
      (∀ r, r ∈ (p.filterComponentsBySize minSize maxSize).1.components ↔
        r ∈ p.components ∧ minSize ≤ r.getSize ∧ r.getSize ≤ maxSize) ∧
      (∀ r ∈ (p.filterComponentsBySize minSize maxSize).1.components,
        ∃ r0 ∈ p.components, r.getID = r0.getID ∧ r.getPixels = r0.getPixels ∧
          r.getBoundingBox = r0.getBoundingBox) := by
  have h : (p.filterComponentsBySize minSize maxSize).1.components =
      p.components.filter (fun r => decide (minSize ≤ r.getSize ∧ r.getSize ≤ maxSize)) := by
    have h1 := filter_foldl_eq
      (fun c : ConnectedComponent => c.getSize ≥ minSize ∧ c.getSize ≤ maxSize)
      p.components []
    simp only [List.nil_append] at h1
    exact h1
  rw [h]
  refine ⟨rfl, List.filter_sublist _, ?_, ?_⟩
  · intro r
    simp [List.mem_filter]
  · intro r hr
    exact ⟨r, (List.mem_filter.1 hr).1, rfl, rfl, rfl⟩

/-! ## Filtering and the size queries -/

theorem filter_components (p : PGMimageProcessor) (a b : Int) :
    (p.filterComponentsBySize a b).1.components =
      p.components.filter (fun r => decide (a ≤ r.getSize ∧ r.getSize ≤ b)) := by
  have h1 := filter_foldl_eq
    (fun c : ConnectedComponent => c.getSize ≥ a ∧ c.getSize ≤ b) p.components []
  simp only [List.nil_append] at h1
  exact h1

theorem filter_count (p : PGMimageProcessor) (a b : Int) :
    (p.filterComponentsBySize a b).2 =
      ((p.filterComponentsBySize a b).1.components.length : Int) := rfl

theorem filter_frame (p : PGMimageProcessor) (a b : Int) :
    (p.filterComponentsBySize a b).1 =
      { p with components := (p.filterComponentsBySize a b).1.components } := rfl

theorem extract_some_form {p p' : PGMimageProcessor} {t : Nat} {m n : Int}
    (he : p.extractComponents t m = some (p', n)) :
    ∃ comps : List ConnectedComponent,
      p' = { p with components := comps } ∧ n = (comps.length : Int) := by
  unfold PGMimageProcessor.extractComponents vecAlloc at he
  split at he
  · rw [Option.some_bind] at he
    obtain ⟨s, _, hs⟩ := Option.map_eq_some'.1 he
    injection hs with e1 e2
    exact ⟨s.components, e1.symm, e2.symm⟩
  · cases he

theorem largest_foldl (l : List ConnectedComponent) :
    ∀ init : Int,
      init ≤ l.foldl (fun (maxSize : Int) c =>
          if c.getSize > maxSize then c.getSize else maxSize) init ∧
      (∀ c ∈ l, c.getSize ≤ l.foldl (fun (maxSize : Int) c =>
          if c.getSize > maxSize then c.getSize else maxSize) init) ∧
      (l.foldl (fun (maxSize : Int) c =>
          if c.getSize > maxSize then c.getSize else maxSize) init = init ∨
        ∃ c ∈ l, c.getSize = l.foldl (fun (maxSize : Int) c =>
          if c.getSize > maxSize then c.getSize else maxSize) init) := by
  induction l with
  | nil => intro init; simp
  | cons a l ih =>
    intro init
    rw [List.foldl_cons]
    obtain ⟨h1, h2, h3⟩ := ih (if a.getSize > init then a.getSize else init)
    have hstep : init ≤ (if a.getSize > init then a.getSize else init) ∧
        a.getSize ≤ (if a.getSize > init then a.getSize else init) := by
      split <;> omega
    refine ⟨le_trans hstep.1 h1, ?_, ?_⟩
    · intro c hc
      rcases List.mem_cons.1 hc with e | e
      · rw [e]; exact le_trans hstep.2 h1
      · exact h2 c e
    · rcases h3 with e | ⟨c, hc, e⟩
      · by_cases ha : a.getSize > init
        · right
          rw [if_pos ha] at e ⊢
          exact ⟨a, List.mem_cons_self a l, e.symm⟩
        · left
          rw [if_neg ha] at e ⊢
          exact e
      · exact Or.inr ⟨c, List.mem_cons_of_mem a hc, e⟩

theorem smallest_foldl (l : List ConnectedComponent) :
    ∀ init : Int,
      l.foldl (fun (minSize : Int) c =>
          if c.getSize < minSize then c.getSize else minSize) init ≤ init ∧
      (∀ c ∈ l, l.foldl (fun (minSize : Int) c =>
          if c.getSize < minSize then c.getSize else minSize) init ≤ c.getSize) ∧
      (l.foldl (fun (minSize : Int) c =>
          if c.getSize < minSize then c.getSize else minSize) init = init ∨
        ∃ c ∈ l, c.getSize = l.foldl (fun (minSize : Int) c =>
          if c.getSize < minSize then c.getSize else minSize) init) := by
  induction l with
  | nil => intro init; simp
  | cons a l ih =>
    intro init
    rw [List.foldl_cons]
    obtain ⟨h1, h2, h3⟩ := ih (if a.getSize < init then a.getSize else init)
    have hstep : (if a.getSize < init then a.getSize else init) ≤ init ∧
        (if a.getSize < init then a.getSize else init) ≤ a.getSize := by
      split <;> omega
    refine ⟨le_trans h1 hstep.1, ?_, ?_⟩
    · intro c hc
      rcases List.mem_cons.1 hc with e | e
      · rw [e]; exact le_trans h1 hstep.2
      · exact h2 c e
    · rcases h3 with e | ⟨c, hc, e⟩
      · by_cases ha : a.getSize < init
        · right
          rw [if_pos ha] at e ⊢
          exact ⟨a, List.mem_cons_self a l, e.symm⟩
        · left
          rw [if_neg ha] at e ⊢
          exact e
      · exact Or.inr ⟨c, List.mem_cons_of_mem a hc, e⟩

/-- C11: for every region list (whose sizes, being values of the `int` that `getSize()`
returns, do not exceed `INT_MAX`), `filterComponentsBySize(0, INT_MAX)` leaves the list
unchanged, and with it the whole processor, and returns the length of the list. -/
theorem filterComponentsBySize_zero_intMax (p : PGMimageProcessor)
    (hsz : ∀ c ∈ p.components, c.getSize ≤ INT_MAX) :
    (p.filterComponentsBySize 0 INT_MAX).1.components = p.components ∧
      (p.filterComponentsBySize 0 INT_MAX).1 = p ∧
      (p.filterComponentsBySize 0 INT_MAX).2 = (p.components.length : Int) := by
  have hc : (p.filterComponentsBySize 0 INT_MAX).1.components = p.components := by
    rw [filter_components, List.filter_eq_self]
    intro c hc
    have h0 : (0 : Int) ≤ c.getSize := by
      unfold ConnectedComponent.getSize
      exact Int.ofNat_nonneg _
    exact decide_eq_true ⟨h0, hsz c hc⟩
  refine ⟨hc, ?_, ?_⟩
  · rw [filter_frame, hc]
  · rw [filter_count, hc]

/-- C11 at a processor that holds the three regions `sampleRegions`. -/
theorem filterComponentsBySize_zero_intMax_witness :
    (∀ c ∈ ({ rasterA with components := sampleRegions } : PGMimageProcessor).components,
      c.getSize ≤ INT_MAX) ∧
    (({ rasterA with components := sampleRegions } : PGMimageProcessor).filterComponentsBySize
        0 INT_MAX).1.components = sampleRegions ∧
    (({ rasterA with components := sampleRegions } : PGMimageProcessor).filterComponentsBySize
        0 INT_MAX).1 = { rasterA with components := sampleRegions } ∧
    (({ rasterA with components := sampleRegions } : PGMimageProcessor).filterComponentsBySize
        0 INT_MAX).2 = 3 :=
  ⟨by decide,
    filterComponentsBySize_zero_intMax { rasterA with components := sampleRegions }
      (by decide)⟩

/-- C12: for every region list and all bounds, every region in the list after
`filterComponentsBySize` was in the list before it, so its id is the id of a region of the
old list and the ids left form a sub-sequence of the old ids; the count returned is at most
the number of regions before the call. -/
theorem filterComponentsBySize_subset (p : PGMimageProcessor) (minSize maxSize : Int) :
    (∀ r ∈ (p.filterComponentsBySize minSize maxSize).1.components, r ∈ p.components) ∧
      (∀ r ∈ (p.filterComponentsBySize minSize maxSize).1.components,
        ∃ r0 ∈ p.components, r0.getID = r.getID) ∧
      ((p.filterComponentsBySize minSize maxSize).1.components.map
        ConnectedComponent.getID).Sublist (p.components.map ConnectedComponent.getID) ∧
      (p.filterComponentsBySize minSize maxSize).2 ≤ (p.components.length : Int) := by
  have hsub : ((p.filterComponentsBySize minSize maxSize).1.components).Sublist
      p.components := by
    rw [filter_components]
    exact List.filter_sublist _
  refine ⟨fun r hr => hsub.subset hr, fun r hr => ⟨r, hsub.subset hr, rfl⟩,
    hsub.map _, ?_⟩
  rw [filter_count]
  exact Int.ofNat_le.2 hsub.length_le

/-- C13: `getLargestSize()` and `getSmallestSize()` both return 0 on an empty region list,
as for the default-constructed processor; on a non-empty list `getLargestSize()` is the
maximum and `getSmallestSize()` the minimum of the region sizes: each is the size of some
region of the list and bounds the size of every region. -/
theorem getLargestSize_getSmallestSize_spec (p : PGMimageProcessor) :
    (p.components = [] → p.getLargestSize = 0 ∧ p.getSmallestSize = 0) ∧
      (p.components ≠ [] →
        (∃ c ∈ p.components, c.getSize = p.getLargestSize) ∧
        (∀ c ∈ p.components, c.getSize ≤ p.getLargestSize) ∧
        (∃ c ∈ p.components, c.getSize = p.getSmallestSize) ∧
        (∀ c ∈ p.components, p.getSmallestSize ≤ c.getSize)) ∧
      PGMimageProcessor.defaultConstructed.getLargestSize = 0 ∧
      PGMimageProcessor.defaultConstructed.getSmallestSize = 0 := by
  refine ⟨?_, ?_, rfl, rfl⟩
  · intro hnil
    unfold PGMimageProcessor.getLargestSize PGMimageProcessor.getSmallestSize
    rw [hnil]
    exact ⟨rfl, rfl⟩
  · intro hne
    obtain ⟨h1, h2, h3⟩ := largest_foldl p.components 0
    have hL : (∃ c ∈ p.components, c.getSize = p.getLargestSize) := by
      rcases h3 with e | e
      · obtain ⟨c, hc⟩ := List.exists_mem_of_ne_nil _ hne
        refine ⟨c, hc, ?_⟩
        have hle := h2 c hc
        have h0 : (0 : Int) ≤ c.getSize := by
          unfold ConnectedComponent.getSize
          exact Int.ofNat_nonneg _
        unfold PGMimageProcessor.getLargestSize
        rw [e] at hle ⊢
        omega
      · exact e
    refine ⟨hL, h2, ?_, ?_⟩
    · rcases hcs : p.components with _ | ⟨c0, rest⟩
      · exact absurd hcs hne
      · obtain ⟨_, _, k3⟩ := smallest_foldl (c0 :: rest) c0.getSize
        have hdef : p.getSmallestSize = (c0 :: rest).foldl (fun (minSize : Int) c =>
            if c.getSize < minSize then c.getSize else minSize) c0.getSize := by
          unfold PGMimageProcessor.getSmallestSize
          rw [hcs]
        rw [hdef]
        rcases k3 with e | e
        · exact ⟨c0, List.mem_cons_self c0 rest, e.symm⟩
        · exact e
    · rcases hcs : p.components with _ | ⟨c0, rest⟩
      · exact absurd hcs hne
      · obtain ⟨_, k2, _⟩ := smallest_foldl (c0 :: rest) c0.getSize
        have hdef : p.getSmallestSize = (c0 :: rest).foldl (fun (minSize : Int) c =>
            if c.getSize < minSize then c.getSize else minSize) c0.getSize := by
          unfold PGMimageProcessor.getSmallestSize
          rw [hcs]
        rw [hdef]
        exact k2

/-- C13 at a processor that holds the three regions `sampleRegions` (sizes 2, 1, 3). -/
theorem getLargestSize_getSmallestSize_spec_witness :
    ({ rasterA with components := sampleRegions } : PGMimageProcessor).components ≠ [] ∧
    ({ rasterA with components := sampleRegions } : PGMimageProcessor).getLargestSize = 3 ∧
    ({ rasterA with components := sampleRegions } : PGMimageProcessor).getSmallestSize = 1 ∧
    ((∃ c ∈ sampleRegions, c.getSize =
        ({ rasterA with components := sampleRegions } : PGMimageProcessor).getLargestSize) ∧
      (∀ c ∈ sampleRegions, c.getSize ≤
        ({ rasterA with components := sampleRegions } : PGMimageProcessor).getLargestSize) ∧
      (∃ c ∈ sampleRegions, c.getSize =
        ({ rasterA with components := sampleRegions } : PGMimageProcessor).getSmallestSize) ∧
      (∀ c ∈ sampleRegions,
        ({ rasterA with components := sampleRegions } : PGMimageProcessor).getSmallestSize ≤
          c.getSize)) :=
  ⟨by decide, by decide, by decide,
    (getLargestSize_getSmallestSize_spec { rasterA with components := sampleRegions }).2.1
      (by decide)⟩

/-! ## What a call reads and what it leaves -/

theorem extract_congr (p q : PGMimageProcessor) (t : Nat) (m : Int)
    (hw : p.width = q.width) (hh : p.height = q.height) (hd : p.imageData = q.imageData) :
    q.extractComponents t m =
      (p.extractComponents t m).map
        (fun r => ({ q with components := r.1.components }, r.2)) := by
  unfold PGMimageProcessor.extractComponents
  rw [hw, hh, hd]
  cases vecAlloc (q.width * q.height) (-1 : Int) with
  | none => rfl
  | some labels =>
    simp only [Option.some_bind]
    cases scanRows q.width q.height m
        { binaryImage := binarize q.imageData t, labels := labels, componentID := 0,
          components := [] } with
    | none => rfl
    | some s => rfl

/-- C18: the region list left by `extractComponents(t, m)` depends only on the raster, `t`
and `m`.  Two processor states with the same width, height and samples, whatever region
lists they hold, are left with the same list (same ids, pixel orders, sizes and bounding
boxes) and return the same count; calling `extractComponents(t, m)` a second time, or after
any `filterComponentsBySize`, gives back the state and the count of the first call. -/
theorem extractComponents_ignores_region_list (p q : PGMimageProcessor) (t : Nat) (m : Int)
    (hw : p.width = q.width) (hh : p.height = q.height) (hd : p.imageData = q.imageData) :
    (p.extractComponents t m).map (fun r => (r.1.components, r.2)) =
        (q.extractComponents t m).map (fun r => (r.1.components, r.2)) ∧
      ∀ p1 n1, p.extractComponents t m = some (p1, n1) →
        p1.extractComponents t m = some (p1, n1) ∧
        ∀ a b, (p1.filterComponentsBySize a b).1.extractComponents t m = some (p1, n1) := by
  constructor
  · rw [extract_congr p q t m hw hh hd]
    cases p.extractComponents t m with
    | none => rfl
    | some r => rfl
  · intro p1 n1 he
    obtain ⟨comps, hp1, _⟩ := extract_some_form he
    have e1 : p.width = p1.width := by rw [hp1]
    have e2 : p.height = p1.height := by rw [hp1]
    have e3 : p.imageData = p1.imageData := by rw [hp1]
    constructor
    · rw [extract_congr p p1 t m e1 e2 e3, he]
      rfl
    · intro a b
      rw [extract_congr p (p1.filterComponentsBySize a b).1 t m e1 e2 e3, he]
      rfl

/-- C18 at `rasterB`, once without regions and once holding `sampleRegions`. -/
theorem extractComponents_ignores_region_list_witness :
    rasterB.width = ({ rasterB with components := sampleRegions } : PGMimageProcessor).width ∧
    rasterB.height =
      ({ rasterB with components := sampleRegions } : PGMimageProcessor).height ∧
    rasterB.imageData =
      ({ rasterB with components := sampleRegions } : PGMimageProcessor).imageData ∧
    ((rasterB.extractComponents 1 1).map (fun r => (r.1.components, r.2)) =
        (({ rasterB with components := sampleRegions } :
          PGMimageProcessor).extractComponents 1 1).map (fun r => (r.1.components, r.2)) ∧
      ∀ p1 n1, rasterB.extractComponents 1 1 = some (p1, n1) →
        p1.extractComponents 1 1 = some (p1, n1) ∧
        ∀ a b, (p1.filterComponentsBySize a b).1.extractComponents 1 1 = some (p1, n1)) :=
  ⟨rfl, rfl, rfl,
    extractComponents_ignores_region_list rasterB { rasterB with components := sampleRegions }
      1 1 rfl rfl rfl⟩

/-- C19: `extractComponents` and `filterComponentsBySize` leave the raster unchanged: for
every threshold, minValidSize, minSize and maxSize the width, the height, maxVal and the
sample vector `imageData` (and the file name) of the processor left by the call are those it
had before.  For `extractComponents` this holds on every state on which the call returns,
and the call returns on every well-formed raster. -/
theorem extract_filter_leave_raster (p : PGMimageProcessor) (threshold : Nat)
    (minValidSize minSize maxSize : Int) :
    (WellFormed p → ∃ p' n, p.extractComponents threshold minValidSize = some (p', n)) ∧
      (∀ p' n, p.extractComponents threshold minValidSize = some (p', n) →
        p'.width = p.width ∧ p'.height = p.height ∧ p'.maxVal = p.maxVal ∧
          p'.imageData = p.imageData ∧ p'.fileName = p.fileName) ∧
      ((p.filterComponentsBySize minSize maxSize).1.width = p.width ∧
        (p.filterComponentsBySize minSize maxSize).1.height = p.height ∧
        (p.filterComponentsBySize minSize maxSize).1.maxVal = p.maxVal ∧
        (p.filterComponentsBySize minSize maxSize).1.imageData = p.imageData ∧
        (p.filterComponentsBySize minSize maxSize).1.fileName = p.fileName) := by
  refine ⟨extract_total p threshold minValidSize, ?_, ⟨rfl, rfl, rfl, rfl, rfl⟩⟩
  intro p' n he
  obtain ⟨comps, hp', _⟩ := extract_some_form he
  rw [hp']
  exact ⟨rfl, rfl, rfl, rfl, rfl⟩

/-- C19 at `rasterB` with threshold 1 and minValidSize 1. -/
theorem extract_filter_leave_raster_witness :
    WellFormed rasterB ∧
    rasterB.extractComponents 1 1 =
      some ({ rasterB with components := rasterBRegions }, 2) ∧
    (∃ p' n, rasterB.extractComponents 1 1 = some (p', n)) ∧
    (({ rasterB with components := rasterBRegions } : PGMimageProcessor).width =
        rasterB.width ∧
      ({ rasterB with components := rasterBRegions } : PGMimageProcessor).height =
        rasterB.height ∧
      ({ rasterB with components := rasterBRegions } : PGMimageProcessor).maxVal =
        rasterB.maxVal ∧
      ({ rasterB with components := rasterBRegions } : PGMimageProcessor).imageData =
        rasterB.imageData ∧
      ({ rasterB with components := rasterBRegions } : PGMimageProcessor).fileName =
        rasterB.fileName) :=
  ⟨by decide, by decide,
    (extract_filter_leave_raster rasterB 1 1 0 0).1 (by decide),
    (extract_filter_leave_raster rasterB 1 1 0 0).2.1
      { rasterB with components := rasterBRegions } 2 (by decide)⟩

/-- C20: for every processor state and all arguments, the integer returned by
`extractComponents` (whenever the call returns, as it does on every well-formed raster), and
likewise the integer returned by `filterComponentsBySize`, is the number of regions in the
list the call leaves: the value `getComponentCount()` reports on the processor left. -/
theorem returned_count_is_getComponentCount (p : PGMimageProcessor) (threshold : Nat)
    (minValidSize minSize maxSize : Int) :
    (WellFormed p → ∃ p' n, p.extractComponents threshold minValidSize = some (p', n)) ∧
      (∀ p' n, p.extractComponents threshold minValidSize = some (p', n) →
        n = p'.getComponentCount ∧ n = (p'.components.length : Int)) ∧
      (p.filterComponentsBySize minSize maxSize).2 =
        (p.filterComponentsBySize minSize maxSize).1.getComponentCount ∧
      (p.filterComponentsBySize minSize maxSize).2 =
        ((p.filterComponentsBySize minSize maxSize).1.components.length : Int) := by
  refine ⟨extract_total p threshold minValidSize, ?_, rfl, rfl⟩
  intro p' n he
  obtain ⟨comps, hp', hn⟩ := extract_some_form he
  rw [hp', hn]
  exact ⟨rfl, rfl⟩

/-- C20 at `rasterB` with threshold 1 and minValidSize 1. -/
theorem returned_count_is_getComponentCount_witness :
    WellFormed rasterB ∧
    rasterB.extractComponents 1 1 =
      some ({ rasterB with components := rasterBRegions }, 2) ∧
    (∃ p' n, rasterB.extractComponents 1 1 = some (p', n)) ∧
    ((2 : Int) =
        ({ rasterB with components := rasterBRegions } : PGMimageProcessor).getComponentCount ∧
      (2 : Int) =
        (({ rasterB with components := rasterBRegions } :
          PGMimageProcessor).components.length : Int)) :=
  ⟨by decide, by decide,
    (returned_count_is_getComponentCount rasterB 1 1 0 0).1 (by decide),
    (returned_count_is_getComponentCount rasterB 1 1 0 0).2.1
      { rasterB with components := rasterBRegions } 2 (by decide)⟩

/-! ## Degenerate rasters and the scenarios of the specification -/

theorem extract_congr_bin (p q : PGMimageProcessor) (t : Nat) (m : Int)
    (hw : p.width = q.width) (hh : p.height = q.height)
    (hb : binarize p.imageData t = binarize q.imageData t) :
    q.extractComponents t m =
      (p.extractComponents t m).map
        (fun r => ({ q with components := r.1.components }, r.2)) := by
  unfold PGMimageProcessor.extractComponents
  rw [hw, hh, hb]
  cases vecAlloc (q.width * q.height) (-1 : Int) with
  | none => rfl
  | some labels =>
    simp only [Option.some_bind]
    cases scanRows q.width q.height m
        { binaryImage := binarize q.imageData t, labels := labels, componentID := 0,
          components := [] } with
    | none => rfl
    | some s => rfl

theorem no_foreground_of_small {p : PGMimageProcessor} {t : Nat}
    (hsmall : ∀ v ∈ p.imageData, v < t) (q : Int × Int) : ¬ Foreground p t q := by
  rintro ⟨_, v, hv, hge⟩
  unfold vecGet at hv
  split at hv
  · have := hsmall v (List.getElem?_mem hv)
    omega
  · cases hv

theorem extract_zero_area (p : PGMimageProcessor) (t : Nat) (m : Int)
    (hz : p.width * p.height = 0) :
    p.extractComponents t m = some ({ p with components := [] }, 0) := by
  have hd : p.width ≤ 0 ∨ p.height ≤ 0 := by
    rcases Int.mul_eq_zero.1 hz with h | h
    · left; omega
    · right; omega
  unfold PGMimageProcessor.extractComponents vecAlloc
  rw [if_pos (by omega), Option.some_bind, scanRows_degenerate hd]
  rfl

/-- C14: if the raster has no sample at or above the threshold, `extractComponents` returns
0 and leaves an empty region list, for every minValidSize: this holds on every state on which
the call returns, and the call returns on every well-formed raster.  When
`width * height = 0` the call returns 0 with an empty list whatever the buffer holds, and the
scan visits no cell (it leaves every scan state as it is); with an empty sample buffer, as in
the default-constructed processor, every read of the working image would abort the call, so
none takes place. -/
theorem extractComponents_no_foreground (p : PGMimageProcessor) (threshold : Nat)
    (minValidSize : Int) :
    (WellFormed p → ∃ p' n, p.extractComponents threshold minValidSize = some (p', n)) ∧
      ((∀ v ∈ p.imageData, v < threshold) →
        ∀ p' n, p.extractComponents threshold minValidSize = some (p', n) →
          p' = { p with components := [] } ∧ n = 0) ∧
      (p.width * p.height = 0 →
        p.extractComponents threshold minValidSize = some ({ p with components := [] }, 0) ∧
          (∀ s, scanRows p.width p.height minValidSize s = some s) ∧
          (p.imageData = [] → ∀ i, vecGet (binarize p.imageData threshold) i = none)) ∧
      PGMimageProcessor.defaultConstructed.extractComponents threshold minValidSize =
        some (PGMimageProcessor.defaultConstructed, 0) := by
  refine ⟨extract_total p threshold minValidSize, ?_, ?_, ?_⟩
  · intro hsmall p' n he
    obtain ⟨comps, hp', hn⟩ := extract_some_form he
    have hnil : p'.components = [] := by
      rcases extract_partial p threshold minValidSize p' n he with hnil | ⟨s, hinv, hs⟩
      · exact hnil
      · rw [hs]
        rcases hcs : s.components with _ | ⟨c, rest⟩
        · rfl
        · exfalso
          have hc : c ∈ s.components := by rw [hcs]; exact List.mem_cons_self c rest
          have hP := (hinv.regions c hc).2.1
          obtain ⟨q, hq⟩ := List.exists_mem_of_ne_nil _ hP.nonempty
          exact no_foreground_of_small hsmall q (hP.fg q hq)
    have hcomps : comps = [] := by
      rw [hp'] at hnil
      exact hnil
    rw [hp', hn, hcomps]
    exact ⟨rfl, rfl⟩
  · intro hz
    refine ⟨extract_zero_area p threshold minValidSize hz, ?_, ?_⟩
    · intro s
      apply scanRows_degenerate
      rcases Int.mul_eq_zero.1 hz with h | h
      · left; omega
      · right; omega
    · intro hempty i
      rw [hempty]
      unfold vecGet binarize
      split <;> rfl
  · exact extract_zero_area _ threshold minValidSize rfl

/-- C14 at the all-background raster `darkRaster` with threshold 4 and minValidSize 1. -/
theorem extractComponents_no_foreground_witness :
    WellFormed darkRaster ∧ (∀ v ∈ darkRaster.imageData, v < 4) ∧
    darkRaster.extractComponents 4 1 = some ({ darkRaster with components := [] }, 0) ∧
    (∃ p' n, darkRaster.extractComponents 4 1 = some (p', n)) ∧
    (({ darkRaster with components := [] } : PGMimageProcessor) =
        { darkRaster with components := [] } ∧ (0 : Int) = 0) ∧
    PGMimageProcessor.defaultConstructed.width * PGMimageProcessor.defaultConstructed.height =
      0 ∧
    (PGMimageProcessor.defaultConstructed.extractComponents 4 1 =
        some ({ PGMimageProcessor.defaultConstructed with components := [] }, 0) ∧
      (∀ s, scanRows PGMimageProcessor.defaultConstructed.width
        PGMimageProcessor.defaultConstructed.height 1 s = some s) ∧
      (PGMimageProcessor.defaultConstructed.imageData = [] →
        ∀ i, vecGet (binarize PGMimageProcessor.defaultConstructed.imageData 4) i = none)) :=
  ⟨by decide, by decide, by decide,
    (extractComponents_no_foreground darkRaster 4 1).1 (by decide),
    (extractComponents_no_foreground darkRaster 4 1).2.1 (by decide)
      { darkRaster with components := [] } 0 (by decide),
    by decide,
    (extractComponents_no_foreground PGMimageProcessor.defaultConstructed 4 1).2.2.1
      (by decide)⟩

/-- C16: on the 5 x 5 raster whose samples are all 0 except a value `v >= 1` on the block
`(1,1)`, `(2,1)`, `(1,2)`, `(2,2)`, `extractComponents(1, 1)` returns 1 and leaves exactly one
region, with id 0, of size 4 and with bounding box `(1, 1, 2, 2)`; this holds for every
`v >= 1`, so for every `v` in 1..255. -/
theorem extractComponents_block (v : Nat) (hv : 1 ≤ v) :
    (blockRaster v).extractComponents 1 1 =
        some ({ blockRaster v with components :=
                  [ConnectedComponent.ofPixels 0 [(1, 1), (2, 1), (1, 2), (2, 2)]] }, 1) ∧
      (ConnectedComponent.ofPixels 0 [(1, 1), (2, 1), (1, 2), (2, 2)]).getSize = 4 ∧
      (ConnectedComponent.ofPixels 0 [(1, 1), (2, 1), (1, 2), (2, 2)]).getBoundingBox =
        (1, 1, 2, 2) := by
  have hb : binarize (blockRaster 1).imageData 1 = binarize (blockRaster v).imageData 1 := by
    simp [binarize, blockRaster, hv]
  have h1 : (blockRaster 1).extractComponents 1 1 =
      some ({ blockRaster 1 with components :=
                [ConnectedComponent.ofPixels 0 [(1, 1), (2, 1), (1, 2), (2, 2)]] }, 1) := by
    decide
  refine ⟨?_, by decide, by decide⟩
  rw [extract_congr_bin (blockRaster 1) (blockRaster v) 1 1 rfl rfl hb, h1]
  rfl

/-- C16 at the sample value 200. -/
theorem extractComponents_block_witness :
    1 ≤ 200 ∧
    (blockRaster 200).extractComponents 1 1 =
        some ({ blockRaster 200 with components :=
                  [ConnectedComponent.ofPixels 0 [(1, 1), (2, 1), (1, 2), (2, 2)]] }, 1) ∧
      (ConnectedComponent.ofPixels 0 [(1, 1), (2, 1), (1, 2), (2, 2)]).getSize = 4 ∧
      (ConnectedComponent.ofPixels 0 [(1, 1), (2, 1), (1, 2), (2, 2)]).getBoundingBox =
        (1, 1, 2, 2) :=
  ⟨by decide, extractComponents_block 200 (by decide)⟩

theorem isolated_region {w : Int} {FG : Int × Int → Prop} {ps : List (Int × Int)}
    (hP : RegionOK w FG ps) {q : Int × Int} (hq : q ∈ ps)
    (hiso : ∀ r ∈ neighbours q.1 q.2, ¬ FG r) : ps = [q] := by
  have hlen : ¬ 1 < ps.length := by
    intro h1
    obtain ⟨r, hr, hrc⟩ := region_has_neighbour hP h1 hq
    exact hiso r hr (hP.fg r hrc)
  rcases hcp : ps with _ | ⟨a, _ | ⟨b, l⟩⟩
  · exact absurd hcp hP.nonempty
  · rw [hcp] at hq
    rw [List.mem_singleton] at hq
    rw [hq]
  · rw [hcp] at hlen
    simp at hlen

theorem seedIndex_singleton {w : Int} {c : ConnectedComponent} {q : Int × Int}
    (hc : c.pixels = [q]) : seedIndex w c = pixelIndex w q := by
  unfold seedIndex
  rw [hc]
  rfl

theorem diagonalRaster_foreground (q : Int × Int) :
    Foreground diagonalRaster 1 q ↔ q = (0, 0) ∨ q = (1, 1) := by
  obtain ⟨x, y⟩ := q
  constructor
  · rintro ⟨⟨⟨hx0, hx1⟩, hy0, hy1⟩, v, hv, hge⟩
    have hx : x = 0 ∨ x = 1 := by
      have : x < 2 := hx1
      have : 0 ≤ x := hx0
      omega
    have hy : y = 0 ∨ y = 1 := by
      have : y < 2 := hy1
      have : 0 ≤ y := hy0
      omega
    rcases hx with rfl | rfl <;> rcases hy with rfl | rfl
    · exact Or.inl rfl
    · exfalso
      have e : vecGet diagonalRaster.imageData (pixelIndex diagonalRaster.width (0, 1)) =
          some 0 := by decide
      rw [e] at hv
      injection hv with e2
      omega
    · exfalso
      have e : vecGet diagonalRaster.imageData (pixelIndex diagonalRaster.width (1, 0)) =
          some 0 := by decide
      rw [e] at hv
      injection hv with e2
      omega
    · exact Or.inr rfl
  · rintro (h | h)
    · rw [h]
      exact ⟨by unfold InBounds; decide, 5, by decide, by decide⟩
    · rw [h]
      exact ⟨by unfold InBounds; decide, 5, by decide, by decide⟩

/-- C17: on a well-formed raster with width and height at least 2 whose only cells with a
sample at or above the threshold are `(0,0)` and `(1,1)`, `extractComponents(threshold, m)`
with `m` in {0, 1} returns 2 and leaves exactly two regions, distinct, each of size 1: the
first (id 0) contains only `(0,0)` and the second (id 1) only `(1,1)`. -/
theorem extractComponents_diagonal (p : PGMimageProcessor) (threshold : Nat) (m : Int)
    (hwf : WellFormed p) (hw : 2 ≤ p.width) (_hh : 2 ≤ p.height)
    (honly : ∀ q, Foreground p threshold q ↔ q = (0, 0) ∨ q = (1, 1))
    (hm : m = 0 ∨ m = 1) :
    p.extractComponents threshold m =
        some ({ p with components :=
                  [ConnectedComponent.ofPixels 0 [(0, 0)],
                   ConnectedComponent.ofPixels 1 [(1, 1)]] }, 2) ∧
      ConnectedComponent.ofPixels 0 [(0, 0)] ≠ ConnectedComponent.ofPixels 1 [(1, 1)] ∧
      (ConnectedComponent.ofPixels 0 [(0, 0)]).getSize = 1 ∧
      (ConnectedComponent.ofPixels 1 [(1, 1)]).getSize = 1 ∧
      (ConnectedComponent.ofPixels 0 [(0, 0)]).getPixels = [(0, 0)] ∧
      (ConnectedComponent.ofPixels 1 [(1, 1)]).getPixels = [(1, 1)] := by
  refine ⟨?_, by decide, by decide, by decide, by decide, by decide⟩
  obtain ⟨s, hinv, he⟩ := extract_spec p threshold m hwf
  have hm1 : (m % 18446744073709551616).toNat ≤ 1 := by
    rcases hm with h | h <;> rw [h] <;> decide
  have hiso0 : ∀ r ∈ neighbours (0 : Int) (0 : Int), ¬ Foreground p threshold r := by
    intro r hr hfg
    have hor := (honly r).1 hfg
    simp only [neighbours, List.mem_cons, List.mem_singleton, List.mem_nil_iff,
      or_false] at hr
    rcases hr with h | h | h | h <;> rw [h] at hor <;> simp at hor
  have hiso1 : ∀ r ∈ neighbours (1 : Int) (1 : Int), ¬ Foreground p threshold r := by
    intro r hr hfg
    have hor := (honly r).1 hfg
    simp only [neighbours, List.mem_cons, List.mem_singleton, List.mem_nil_iff,
      or_false] at hr
    rcases hr with h | h | h | h <;> rw [h] at hor <;> simp at hor
  have hshape : ∀ c ∈ s.components, c.pixels = [(0, 0)] ∨ c.pixels = [(1, 1)] := by
    intro c hc
    obtain ⟨_, hP, _, sd, hsd, _⟩ := hinv.regions c hc
    have hmem : sd ∈ c.pixels := List.mem_of_mem_head? hsd
    rcases (honly sd).1 (hP.fg sd hmem) with h | h
    · left
      rw [h] at hmem
      exact isolated_region hP hmem hiso0
    · right
      rw [h] at hmem
      exact isolated_region hP hmem hiso1
  have hseed : ∀ c ∈ s.components,
      seedIndex p.width c = 0 ∨ seedIndex p.width c = p.width + 1 := by
    intro c hc
    rcases hshape c hc with h | h
    · left
      rw [seedIndex_singleton h]
      simp [pixelIndex]
    · right
      rw [seedIndex_singleton h]
      simp [pixelIndex]
  have hcov : ∀ q, Foreground p threshold q → ∃ c ∈ s.components, q ∈ c.pixels := by
    intro q hq
    have hlt : pixelIndex p.width q < p.height * p.width := by
      have := pixelIndex_lt hq.1
      rw [Int.mul_comm]; exact this
    exact hinv.cover hm1 q hq (hinv.scanned q hq hlt)
  obtain ⟨ca, hca, hqa⟩ := hcov (0, 0) ((honly _).2 (Or.inl rfl))
  obtain ⟨cb, hcb, hqb⟩ := hcov (1, 1) ((honly _).2 (Or.inr rfl))
  have hpa : ca.pixels = [(0, 0)] := by
    rcases hshape ca hca with h | h
    · exact h
    · rw [h] at hqa; simp at hqa
  have hpb : cb.pixels = [(1, 1)] := by
    rcases hshape cb hcb with h | h
    · rw [h] at hqb; simp at hqb
    · exact h
  have hpw := seeds_pairwise hinv
  have hids := hinv.ids
  have hcomps : s.components =
      [ConnectedComponent.ofPixels 0 [(0, 0)], ConnectedComponent.ofPixels 1 [(1, 1)]] := by
    rcases hcs : s.components with _ | ⟨c1, _ | ⟨c2, _ | ⟨c3, rest⟩⟩⟩
    · rw [hcs] at hca
      cases hca
    · rw [hcs] at hca hcb
      rw [List.mem_singleton] at hca hcb
      rw [hca] at hpa
      rw [hcb, hpa] at hpb
      simp at hpb
    · rw [hcs] at hpw hids hca hcb
      have h12 := (List.pairwise_cons.1 hpw).1 c2 (List.mem_cons_self c2 [])
      have hc1 : c1 ∈ s.components := by rw [hcs]; simp
      have hc2 : c2 ∈ s.components := by rw [hcs]; simp
      have hp1 : c1.pixels = [(0, 0)] := by
        rcases hshape c1 hc1 with h | h
        · exact h
        · exfalso
          rw [seedIndex_singleton h] at h12
          simp only [pixelIndex] at h12
          rcases hseed c2 hc2 with h2 | h2 <;> rw [h2] at h12 <;> omega
      have hp2 : c2.pixels = [(1, 1)] := by
        rcases hshape c2 hc2 with h | h
        · exfalso
          rw [seedIndex_singleton h, seedIndex_singleton hp1] at h12
          simp [pixelIndex] at h12
        · exact h
      simp only [List.map_cons, List.map_nil, List.length_cons, List.length_nil] at hids
      have hid1 : c1.id = 0 := by
        have := congrArg (fun l => l[0]?) hids
        simpa [List.range_succ] using this
      have hid2 : c2.id = 1 := by
        have := congrArg (fun l => l[1]?) hids
        simpa [List.range_succ] using this
      have e1 := (hinv.regions c1 hc1).1
      have e2 := (hinv.regions c2 hc2).1
      rw [hid1, hp1] at e1
      rw [hid2, hp2] at e2
      rw [e1, e2]
    · exfalso
      rw [hcs] at hpw
      have hc1 : c1 ∈ s.components := by rw [hcs]; simp
      have hc2 : c2 ∈ s.components := by rw [hcs]; simp
      have hc3 : c3 ∈ s.components := by rw [hcs]; simp
      have h12 := (List.pairwise_cons.1 hpw).1 c2 (by simp)
      have h23 := (List.pairwise_cons.1 (List.pairwise_cons.1 hpw).2).1 c3 (by simp)
      rcases hseed c1 hc1 with a1 | a1 <;> rcases hseed c2 hc2 with a2 | a2 <;>
        rcases hseed c3 hc3 with a3 | a3 <;> omega
  rw [he, hcomps]
  rfl

/-- C17 at the 2 x 2 raster `diagonalRaster` with threshold 1 and minValidSize 1. -/
theorem extractComponents_diagonal_witness :
    WellFormed diagonalRaster ∧ 2 ≤ diagonalRaster.width ∧ 2 ≤ diagonalRaster.height ∧
    (∀ q, Foreground diagonalRaster 1 q ↔ q = (0, 0) ∨ q = (1, 1)) ∧
    ((1 : Int) = 0 ∨ (1 : Int) = 1) ∧
    (diagonalRaster.extractComponents 1 1 =
        some ({ diagonalRaster with components :=
                  [ConnectedComponent.ofPixels 0 [(0, 0)],
                   ConnectedComponent.ofPixels 1 [(1, 1)]] }, 2) ∧
      ConnectedComponent.ofPixels 0 [(0, 0)] ≠ ConnectedComponent.ofPixels 1 [(1, 1)] ∧
      (ConnectedComponent.ofPixels 0 [(0, 0)]).getSize = 1 ∧
      (ConnectedComponent.ofPixels 1 [(1, 1)]).getSize = 1 ∧
      (ConnectedComponent.ofPixels 0 [(0, 0)]).getPixels = [(0, 0)] ∧
      (ConnectedComponent.ofPixels 1 [(1, 1)]).getPixels = [(1, 1)]) :=
  ⟨by decide, by decide, by decide, diagonalRaster_foreground, Or.inr rfl,
    extractComponents_diagonal diagonalRaster 1 1 (by decide) (by decide) (by decide)
      diagonalRaster_foreground (Or.inr rfl)⟩

/-! ## Threshold 0: the whole raster is one region -/

theorem int_interval_induction (S : Int → Prop) (lo hi a : Int) (hS : S a)
    (hup : ∀ x, lo ≤ x → x + 1 < hi → S x → S (x + 1))
    (hdown : ∀ x, lo ≤ x - 1 → x < hi → S x → S (x - 1)) (hlo : lo ≤ a) (hhi : a < hi) :
    ∀ x, lo ≤ x → x < hi → S x := by
  have up : ∀ n : Nat, a + (n : Int) < hi → S (a + (n : Int)) := by
    intro n
    induction n with
    | zero =>
      intro _
      simpa using hS
    | succ n ih =>
      intro hlt
      have e : a + ((n + 1 : Nat) : Int) = a + (n : Int) + 1 := by push_cast; ring
      rw [e] at hlt ⊢
      exact hup (a + (n : Int)) (by omega) hlt (ih (by omega))
  have down : ∀ n : Nat, lo ≤ a - (n : Int) → S (a - (n : Int)) := by
    intro n
    induction n with
    | zero =>
      intro _
      simpa using hS
    | succ n ih =>
      intro hge
      have e : a - ((n + 1 : Nat) : Int) = a - (n : Int) - 1 := by push_cast; ring
      rw [e] at hge ⊢
      exact hdown (a - (n : Int)) hge (by omega) (ih (by omega))
  intro x hx1 hx2
  rcases le_total a x with h | h
  · have e : x = a + ((x - a).toNat : Int) := by omega
    rw [e]
    exact up _ (by omega)
  · have e : x = a - ((a - x).toNat : Int) := by omega
    rw [e]
    exact down _ (by omega)

theorem grid_connected {w h : Int} {FG : Int × Int → Prop} {ps : List (Int × Int)}
    (hP : RegionOK w FG ps) (hall : ∀ q, InBounds w h q → FG q)
    (hin : ∀ q ∈ ps, InBounds w h q) : ∀ q, InBounds w h q → q ∈ ps := by
  obtain ⟨a, ha⟩ := List.exists_mem_of_ne_nil _ hP.nonempty
  have hain := hin a ha
  have row : ∀ x, 0 ≤ x → x < w → (x, a.2) ∈ ps := by
    refine int_interval_induction (fun x => (x, a.2) ∈ ps) 0 w a.1 ha ?_ ?_
      hain.1.1 hain.1.2
    · intro x hx0 hx1 hmem
      exact hP.closed (x, a.2) hmem (x + 1, a.2) (by simp [neighbours])
        (hall _ ⟨⟨by omega, hx1⟩, hain.2⟩)
    · intro x hx0 hx1 hmem
      exact hP.closed (x, a.2) hmem (x - 1, a.2) (by simp [neighbours])
        (hall _ ⟨⟨hx0, by omega⟩, hain.2⟩)
  intro q hq
  have col : ∀ y, 0 ≤ y → y < h → (q.1, y) ∈ ps := by
    refine int_interval_induction (fun y => (q.1, y) ∈ ps) 0 h a.2
      (row q.1 hq.1.1 hq.1.2) ?_ ?_ hain.2.1 hain.2.2
    · intro y hy0 hy1 hmem
      exact hP.closed (q.1, y) hmem (q.1, y + 1) (by simp [neighbours])
        (hall _ ⟨hq.1, by omega, hy1⟩)
    · intro y hy0 hy1 hmem
      exact hP.closed (q.1, y) hmem (q.1, y - 1) (by simp [neighbours])
        (hall _ ⟨hq.1, hy0, by omega⟩)
  exact col q.2 hq.2.1 hq.2.2

theorem length_ge_of_all_cells {w h : Int} (hw : 0 < w) {ps : List (Int × Int)}
    (hall : ∀ q, InBounds w h q → q ∈ ps) : (w * h).toNat ≤ ps.length := by
  have hsub : List.range (w * h).toNat ⊆ ps.map (fun q => (pixelIndex w q).toNat) := by
    intro i hi
    rw [List.mem_range] at hi
    have hi2 : (i : Int) < h * w := by
      rw [Int.mul_comm]; omega
    have hq : InBounds w h ((i : Int) % w, (i : Int) / w) :=
      ⟨⟨Int.emod_nonneg _ (ne_of_gt hw), Int.emod_lt_of_pos _ hw⟩,
        Int.ediv_nonneg (Int.ofNat_nonneg i) (le_of_lt hw), Int.ediv_lt_of_lt_mul hw hi2⟩
    rw [List.mem_map]
    refine ⟨((i : Int) % w, (i : Int) / w), hall _ hq, ?_⟩
    have e : pixelIndex w ((i : Int) % w, (i : Int) / w) = (i : Int) := by
      show (i : Int) / w * w + (i : Int) % w = (i : Int)
      rw [Int.mul_comm]
      exact Int.ediv_add_emod _ _
    rw [e]
    exact Int.toNat_natCast i
  have h3 := (List.subperm_of_subset (List.nodup_range _) hsub).length_le
  simpa using h3

theorem foldl_min_eq_zero {l : List Int} (h0 : (0 : Int) ∈ l) (hnn : ∀ v ∈ l, 0 ≤ v) :
    l.foldl min INT_MAX = 0 := by
  obtain ⟨_, h2, h3⟩ := foldl_min_spec l INT_MAX
  have hle := h2 0 h0
  rcases h3 with e | e
  · rw [e] at hle
    unfold INT_MAX at hle
    omega
  · have := hnn _ e
    omega

theorem foldl_max_eq {l : List Int} {b : Int} (hb : b ∈ l) (hub : ∀ v ∈ l, v ≤ b)
    (hb0 : 0 ≤ b) : l.foldl max INT_MIN = b := by
  obtain ⟨_, h2, h3⟩ := foldl_max_spec l INT_MIN
  have hge := h2 b hb
  rcases h3 with e | e
  · rw [e] at hge
    unfold INT_MIN at hge
    omega
  · have := hub _ e
    omega

theorem foreground_zero {p : PGMimageProcessor} (hwf : WellFormed p) (q : Int × Int)
    (hq : InBounds p.width p.height q) : Foreground p 0 q := by
  have h0 := pixelIndex_nonneg hq
  have h1 := pixelIndex_toNat_lt hq
  obtain ⟨v, hv⟩ := vecGet_isSome (v := p.imageData) h0 (by have := hwf.2.2; omega)
  exact ⟨hq, v, hv, Nat.zero_le v⟩

theorem extract_sim (p : PGMimageProcessor) (t : Nat) (m : Int) (hm0 : 0 ≤ m)
    (hm1 : m < 18446744073709551616) (pm : PGMimageProcessor) (nm : Int)
    (he : p.extractComponents t m = some (pm, nm)) :
    ∃ p0 n0, p.extractComponents t 0 = some (p0, n0) ∧
      pm.components.map ConnectedComponent.getPixels =
        (p0.components.filter fun c => decide (m ≤ c.getSize)).map
          ConnectedComponent.getPixels := by
  unfold PGMimageProcessor.extractComponents vecAlloc at he ⊢
  by_cases hprod : 0 ≤ p.width * p.height
  · simp only [if_pos hprod, Option.some_bind] at he ⊢
    cases hsr : scanRows p.width p.height m
        { binaryImage := binarize p.imageData t,
          labels := List.replicate (p.width * p.height).toNat (-1),
          componentID := 0, components := [] } with
    | none =>
      rw [hsr] at he
      cases he
    | some sm =>
      rw [hsr] at he
      obtain ⟨s0, hs0, hsim⟩ := scanRows_sim hm0 hm1 _ _ sm
        ⟨rfl, rfl, le_refl _, le_refl _, by simp⟩ hsr
      rw [hs0]
      refine ⟨_, _, rfl, ?_⟩
      injection he with e
      have e1 := congrArg (fun r => r.1.components) e
      have e2 : sm.components = pm.components := e1
      rw [← e2]
      exact hsim.comps
  · rw [if_neg hprod] at he
    cases he

theorem full_region {p : PGMimageProcessor} {m k : Int} {s : ScanState}
    (hwf : WellFormed p) (hinv : ScanInv p.width p.height (Foreground p 0) m k s)
    {c : ConnectedComponent} (hc : c ∈ s.components) :
    (∀ q, InBounds p.width p.height q → q ∈ c.pixels) ∧
      (c.pixels.length : Int) = p.width * p.height ∧ seedIndex p.width c = 0 := by
  obtain ⟨_, hP, _, sd, hsd, _⟩ := hinv.regions c hc
  have hin : ∀ q ∈ c.pixels, InBounds p.width p.height q := fun q hq => (hP.fg q hq).1
  have hall := grid_connected hP (foreground_zero hwf) hin
  have h1 := pixels_length_le hP.nodup hin
  have h2 := length_ge_of_all_cells (h := p.height) hwf.1 hall
  have hprod : 0 ≤ p.width * p.height :=
    Int.mul_nonneg (le_of_lt hwf.1) (le_of_lt hwf.2.1)
  refine ⟨hall, by omega, ?_⟩
  have h00 : InBounds p.width p.height (0, 0) :=
    ⟨⟨le_refl _, hwf.1⟩, le_refl _, hwf.2.1⟩
  have hmin := hP.seed_min sd hsd (0, 0) (hall _ h00)
  have hnn := pixelIndex_nonneg (hin sd (List.mem_of_mem_head? hsd))
  have hz : pixelIndex p.width ((0 : Int), (0 : Int)) = 0 := by simp [pixelIndex]
  unfold seedIndex
  rw [hsd]
  show pixelIndex p.width sd = 0
  omega

theorem full_regions_le_one {p : PGMimageProcessor} {m k : Int} {s : ScanState}
    (hwf : WellFormed p) (hinv : ScanInv p.width p.height (Foreground p 0) m k s) :
    s.components = [] ∨ ∃ c, s.components = [c] := by
  rcases hcs : s.components with _ | ⟨c1, _ | ⟨c2, rest⟩⟩
  · exact Or.inl rfl
  · exact Or.inr ⟨c1, rfl⟩
  · exfalso
    have hpw := seeds_pairwise hinv
    rw [hcs] at hpw
    have h12 := (List.pairwise_cons.1 hpw).1 c2 (List.mem_cons_self c2 rest)
    have hc1 : c1 ∈ s.components := by rw [hcs]; simp
    have hc2 : c2 ∈ s.components := by rw [hcs]; simp
    rw [(full_region hwf hinv hc1).2.2, (full_region hwf hinv hc2).2.2] at h12
    omega

/-- C15: on every well-formed raster of size W x H, whatever its samples, and for every
`int` minValidSize with `0 <= minValidSize <= W*H`, `extractComponents(0, minValidSize)`
returns 1 and leaves exactly one region, with id 0, whose size is `W*H` and whose bounding
box is `(0, 0, W-1, H-1)`. -/
theorem extractComponents_threshold_zero (p : PGMimageProcessor) (minValidSize : Int)
    (hwf : WellFormed p) (hm0 : 0 ≤ minValidSize)
    (hm : minValidSize ≤ p.width * p.height) (hmi : minValidSize ≤ INT_MAX) :
    ∃ c, p.extractComponents 0 minValidSize = some ({ p with components := [c] }, 1) ∧
      c.getID = 0 ∧ c.getSize = p.width * p.height ∧
      c.getBoundingBox = (0, 0, p.width - 1, p.height - 1) := by
  obtain ⟨s0, hinv0, he0⟩ := extract_spec p 0 0 hwf
  obtain ⟨sm, hinvm, hem⟩ := extract_spec p 0 minValidSize hwf
  have hm1 : minValidSize < 18446744073709551616 := by unfold INT_MAX at hmi; omega
  obtain ⟨p0, n0, he0b, hrel⟩ := extract_sim p 0 minValidSize hm0 hm1 _ _ hem
  rw [he0] at he0b
  injection he0b with e
  have ep0 : s0.components = p0.components := congrArg (fun r => r.1.components) e
  rw [← ep0] at hrel
  have hrel2 : sm.components.map ConnectedComponent.getPixels =
      (s0.components.filter fun c => decide (minValidSize ≤ c.getSize)).map
        ConnectedComponent.getPixels := hrel
  have hw := hwf.1
  have hh := hwf.2.1
  have h00 : InBounds p.width p.height (0, 0) := ⟨⟨le_refl _, hw⟩, le_refl _, hh⟩
  have hlt00 : pixelIndex p.width (0, 0) < p.height * p.width := by
    have := pixelIndex_lt h00
    rw [Int.mul_comm]; exact this
  obtain ⟨c0, hc0, _⟩ := hinv0.cover (by decide) (0, 0) (foreground_zero hwf _ h00)
    (hinv0.scanned _ (foreground_zero hwf _ h00) hlt00)
  have hkeep : decide (minValidSize ≤ c0.getSize) = true := by
    rw [decide_eq_true_eq]
    unfold ConnectedComponent.getSize
    rw [(full_region hwf hinv0 hc0).2.1]
    exact hm
  have hne : sm.components ≠ [] := by
    intro hnil
    rw [hnil, List.map_nil] at hrel2
    have hmem : c0 ∈ s0.components.filter fun c => decide (minValidSize ≤ c.getSize) :=
      List.mem_filter.2 ⟨hc0, hkeep⟩
    have hnil2 := List.map_eq_nil_iff.1 hrel2.symm
    rw [hnil2] at hmem
    cases hmem
  rcases full_regions_le_one hwf hinvm with hnil | ⟨c, hc⟩
  · exact absurd hnil hne
  · have hcm : c ∈ sm.components := by rw [hc]; exact List.mem_singleton.2 rfl
    obtain ⟨hall, hlen, _⟩ := full_region hwf hinvm hcm
    have hcons := (hinvm.regions c hcm).1
    have hin : ∀ q ∈ c.pixels, InBounds p.width p.height q :=
      fun q hq => ((hinvm.regions c hcm).2.1.fg q hq).1
    have hid : c.id = 0 := by
      have hsplit : sm.components = [] ++ c :: [] := hc
      have := ids_at hinvm.ids hsplit
      simpa using this
    refine ⟨c, by rw [hem, hc]; rfl, hid, hlen, ?_⟩
    have hbox := ofPixels_box c.id c.pixels
    rw [← hcons] at hbox
    have hcorner : InBounds p.width p.height (p.width - 1, p.height - 1) :=
      ⟨⟨by show 0 ≤ p.width - 1; omega, by show p.width - 1 < p.width; omega⟩,
        by show 0 ≤ p.height - 1; omega, by show p.height - 1 < p.height; omega⟩
    have hx : (c.pixels.map Prod.fst).foldl min INT_MAX = 0 :=
      foldl_min_eq_zero (List.mem_map.2 ⟨(0, 0), hall _ h00, rfl⟩)
        (fun v hv => by
          obtain ⟨q, hq, e⟩ := List.mem_map.1 hv
          rw [← e]
          exact (hin q hq).1.1)
    have hy : (c.pixels.map Prod.snd).foldl min INT_MAX = 0 :=
      foldl_min_eq_zero (List.mem_map.2 ⟨(0, 0), hall _ h00, rfl⟩)
        (fun v hv => by
          obtain ⟨q, hq, e⟩ := List.mem_map.1 hv
          rw [← e]
          exact (hin q hq).2.1)
    have hX : (c.pixels.map Prod.fst).foldl max INT_MIN = p.width - 1 :=
      foldl_max_eq (List.mem_map.2 ⟨(p.width - 1, p.height - 1), hall _ hcorner, rfl⟩)
        (fun v hv => by
          obtain ⟨q, hq, e⟩ := List.mem_map.1 hv
          rw [← e]
          have := (hin q hq).1.2
          omega)
        (by omega)
    have hY : (c.pixels.map Prod.snd).foldl max INT_MIN = p.height - 1 :=
      foldl_max_eq (List.mem_map.2 ⟨(p.width - 1, p.height - 1), hall _ hcorner, rfl⟩)
        (fun v hv => by
          obtain ⟨q, hq, e⟩ := List.mem_map.1 hv
          rw [← e]
          have := (hin q hq).2.2
          omega)
        (by omega)
    rw [hbox, hx, hy, hX, hY]

/-- C15 at the 3 x 2 raster `fullRaster` with minValidSize 6, the number of its cells. -/
theorem extractComponents_threshold_zero_witness :
    WellFormed fullRaster ∧ (0 : Int) ≤ 6 ∧ (6 : Int) ≤ fullRaster.width * fullRaster.height ∧
    (6 : Int) ≤ INT_MAX ∧
    ∃ c, fullRaster.extractComponents 0 6 = some ({ fullRaster with components := [c] }, 1) ∧
      c.getID = 0 ∧ c.getSize = fullRaster.width * fullRaster.height ∧
      c.getBoundingBox = (0, 0, fullRaster.width - 1, fullRaster.height - 1) :=
  ⟨by decide, by decide, by decide, by decide,
    extractComponents_threshold_zero fullRaster 6 (by decide) (by decide) (by decide)
      (by decide)⟩

/-! ## The class ConnectedComponent -/

theorem foldl_updateBounding_eq (ps : List (Int × Int)) (c : ConnectedComponent) :
    ps.foldl (fun c pixel => c.updateBounding pixel.1 pixel.2) c =
      { id := c.id, numPixels := c.numPixels, pixels := c.pixels,
        x_min := (ps.map Prod.fst).foldl min c.x_min,
        y_min := (ps.map Prod.snd).foldl min c.y_min,
        x_max := (ps.map Prod.fst).foldl max c.x_max,
        y_max := (ps.map Prod.snd).foldl max c.y_max } := by
  obtain ⟨h1, h2, h3⟩ := foldl_updateBounding_fields ps c
  obtain ⟨k1, k2, k3, k4⟩ := foldl_updateBounding_box ps c
  rw [← h1, ← h2, ← h3, ← k1, ← k2, ← k3, ← k4]

theorem addPixels_eq (ps : List (Int × Int)) :
    ∀ c : ConnectedComponent,
      c.addPixels ps =
        { id := c.id, numPixels := c.numPixels + (ps.length : Int),
          pixels := c.pixels ++ ps,
          x_min := (ps.map Prod.fst).foldl min c.x_min,
          y_min := (ps.map Prod.snd).foldl min c.y_min,
          x_max := (ps.map Prod.fst).foldl max c.x_max,
          y_max := (ps.map Prod.snd).foldl max c.y_max } := by
  induction ps with
  | nil =>
    intro c
    simp [ConnectedComponent.addPixels]
  | cons a ps ih =>
    intro c
    have hstep : c.addPixels (a :: ps) = (c.addPixel a.1 a.2).addPixels ps := rfl
    rw [hstep, ih]
    simp only [ConnectedComponent.addPixel, ConnectedComponent.updateBounding,
      List.map_cons, List.foldl_cons, List.length_cons, ConnectedComponent.mk.injEq,
      and_true, true_and]
    constructor
    · push_cast; ring
    · simp

theorem ofPixels_eq_addPixels (id : Int) (ps : List (Int × Int)) :
    ConnectedComponent.ofPixels id ps = (ConnectedComponent.ofId id).addPixels ps := by
  rw [addPixels_eq]
  unfold ConnectedComponent.ofPixels
  rw [foldl_updateBounding_eq]
  simp [ConnectedComponent.ofId]

theorem produced_numPixels {c : ConnectedComponent} (hc : ConnectedComponent.Produced c) :
    c.numPixels = (c.pixels.length : Int) := by
  induction hc with
  | ofId Id => rfl
  | ofPixels id pixels => rw [ofPixels_numPixels, ofPixels_pixels]
  | addPixel c x y _ ih =>
    show c.numPixels + 1 = ((c.pixels ++ [(x, y)]).length : Int)
    rw [ih, List.length_append]
    simp
  | copyConstruct c _ ih => exact ih
  | copyAssign d c _ ih => exact ih
  | moveConstructNew c _ ih => exact ih
  | moveConstructOld c _ _ => rfl
  | moveAssignNew d c _ ih => exact ih
  | moveAssignOld d c _ _ => rfl

/-- C21, the size invariant: for every component produced by `ConnectedComponent(id)` or
`ConnectedComponent(id, pixels)` followed by any sequence of `addPixel`, copy and move
operations (the objects a move leaves behind included), `getSize()` is the length of the
pixel list and equals the stored counter `numPixels`, the size `printData()` reports. -/
theorem size_invariant (c : ConnectedComponent) (hc : ConnectedComponent.Produced c) :
    c.getSize = (c.getPixels.length : Int) ∧ c.getSize = c.numPixels ∧
      c.printData.2 = c.getSize := by
  have h := produced_numPixels hc
  refine ⟨rfl, ?_, ?_⟩
  · unfold ConnectedComponent.getSize
    exact h.symm
  · unfold ConnectedComponent.printData ConnectedComponent.getSize
    exact h

/-- C21 at a component built from two pixels, extended by `addPixel`, then moved. -/
theorem size_invariant_witness :
    ConnectedComponent.Produced
      (((ConnectedComponent.ofPixels 3 [(1, 1), (2, 1)]).addPixel 2 2).moveConstruct).1 ∧
    ((((ConnectedComponent.ofPixels 3 [(1, 1), (2, 1)]).addPixel 2 2).moveConstruct).1.getSize =
        ((((ConnectedComponent.ofPixels 3 [(1, 1), (2, 1)]).addPixel 2
          2).moveConstruct).1.getPixels.length : Int) ∧
      (((ConnectedComponent.ofPixels 3 [(1, 1), (2, 1)]).addPixel 2 2).moveConstruct).1.getSize =
        (((ConnectedComponent.ofPixels 3 [(1, 1), (2, 1)]).addPixel 2
          2).moveConstruct).1.numPixels ∧
      (((ConnectedComponent.ofPixels 3 [(1, 1), (2, 1)]).addPixel 2
          2).moveConstruct).1.printData.2 =
        (((ConnectedComponent.ofPixels 3 [(1, 1), (2, 1)]).addPixel 2
          2).moveConstruct).1.getSize) :=
  ⟨.moveConstructNew _ (.addPixel _ 2 2 (.ofPixels 3 [(1, 1), (2, 1)])),
    size_invariant _ (.moveConstructNew _ (.addPixel _ 2 2 (.ofPixels 3 [(1, 1), (2, 1)])))⟩

/-- C22: for every component `c`, after move-constructing `d` from `c`, and likewise after
move-assigning `c` to a distinct component `d`, `d` has the id, pixel list, size and bounding
box that `c` had, and `c` is left with id 0, size 0 and an empty pixel list. -/
theorem move_spec (c d : ConnectedComponent) :
    ((c.moveConstruct).1.getID = c.getID ∧ (c.moveConstruct).1.getPixels = c.getPixels ∧
        (c.moveConstruct).1.getSize = c.getSize ∧
        (c.moveConstruct).1.getBoundingBox = c.getBoundingBox) ∧
      ((c.moveConstruct).2.getID = 0 ∧ (c.moveConstruct).2.getSize = 0 ∧
        (c.moveConstruct).2.getPixels = []) ∧
      ((d.moveAssign c).1.getID = c.getID ∧ (d.moveAssign c).1.getPixels = c.getPixels ∧
        (d.moveAssign c).1.getSize = c.getSize ∧
        (d.moveAssign c).1.getBoundingBox = c.getBoundingBox) ∧
      ((d.moveAssign c).2.getID = 0 ∧ (d.moveAssign c).2.getSize = 0 ∧
        (d.moveAssign c).2.getPixels = []) :=
  ⟨⟨rfl, rfl, rfl, rfl⟩, ⟨rfl, rfl, rfl⟩, ⟨rfl, rfl, rfl, rfl⟩, ⟨rfl, rfl, rfl⟩⟩

/-- C23 against the code: the defaulted constructor initialises no `int` member, so after
`ConnectedComponent c;` the call `getID()` returns whatever the storage of `id` holds (7
here), not 0; `getSize()` is 0, since the vector is empty. -/
theorem defaultInit_getID_indeterminate :
    (ConnectedComponent.defaultInit 7 0 0 0 0 0).getID = 7 ∧
      (ConnectedComponent.defaultInit 7 0 0 0 0 0).getID ≠ 0 ∧
      ∀ a b c d e f : Int,
        (ConnectedComponent.defaultInit a b c d e f).getID = a ∧
          (ConnectedComponent.defaultInit a b c d e f).getSize = 0 :=
  ⟨rfl, by decide, fun _ _ _ _ _ _ => ⟨rfl, rfl⟩⟩

/-- C24: for every id, `ConnectedComponent(id)` is an empty region: `getID()` is `id`,
`getSize()` is 0, the stored counter is 0, the pixel list is empty, and the bounding box is
the unset sentinel `(INT_MAX, INT_MAX, INT_MIN, INT_MIN)`. -/
theorem ofId_spec (Id : Int) :
    (ConnectedComponent.ofId Id).getID = Id ∧ (ConnectedComponent.ofId Id).getSize = 0 ∧
      (ConnectedComponent.ofId Id).numPixels = 0 ∧
      (ConnectedComponent.ofId Id).getPixels = [] ∧
      (ConnectedComponent.ofId Id).getBoundingBox = (INT_MAX, INT_MAX, INT_MIN, INT_MIN) ∧
      (ConnectedComponent.ofId Id).getBoundingBox =
        (2147483647, 2147483647, -2147483648, -2147483648) :=
  ⟨rfl, rfl, rfl, rfl, rfl, rfl⟩

/-- C29: for every id and every pixel list `ps`, `ConnectedComponent(id, ps)` is the
component obtained from `ConnectedComponent(id)` by calling `addPixel(x, y)` for each
`(x, y)` of `ps` in order: the two are equal in every member, so in id, pixel list, stored
`numPixels` and bounding box. -/
theorem ofPixels_refines_addPixel (id : Int) (ps : List (Int × Int)) :
    ConnectedComponent.ofPixels id ps = (ConnectedComponent.ofId id).addPixels ps ∧
      (ConnectedComponent.ofPixels id ps).getID =
        ((ConnectedComponent.ofId id).addPixels ps).getID ∧
      (ConnectedComponent.ofPixels id ps).getPixels =
        ((ConnectedComponent.ofId id).addPixels ps).getPixels ∧
      (ConnectedComponent.ofPixels id ps).numPixels =
        ((ConnectedComponent.ofId id).addPixels ps).numPixels ∧
      (ConnectedComponent.ofPixels id ps).getBoundingBox =
        ((ConnectedComponent.ofId id).addPixels ps).getBoundingBox := by
  have h := ofPixels_eq_addPixels id ps
  refine ⟨h, ?_, ?_, ?_, ?_⟩ <;> rw [h]

/-- C30: for every id and every non-empty sequence `ps` of `addPixel` calls applied to
`ConnectedComponent(id)`, with coordinates in the range of `int`, the pixel list is exactly
`ps` in call order and the bounding box is `(min x, min y, max x, max y)` over `ps` (each bound
attained by an added pixel and bounding all of them), so `xMin ≤ xMax` and `yMin ≤ yMax`; and
for every component, one `addPixel(x, y)` appends `(x, y)`, lengthens the list by one, and
leaves a box that contains the old box and the new pixel. -/
theorem addPixel_sequence_spec (Id : Int) (ps : List (Int × Int)) (hne : ps ≠ [])
    (hint : ∀ q ∈ ps, (INT_MIN ≤ q.1 ∧ q.1 ≤ INT_MAX) ∧ (INT_MIN ≤ q.2 ∧ q.2 ≤ INT_MAX)) :
    ((ConnectedComponent.ofId Id).addPixels ps).getPixels = ps ∧
      ((ConnectedComponent.ofId Id).addPixels ps).getSize = (ps.length : Int) ∧
      (∃ xMin yMin xMax yMax,
        ((ConnectedComponent.ofId Id).addPixels ps).getBoundingBox = (xMin, yMin, xMax, yMax) ∧
        (∃ q ∈ ps, q.1 = xMin) ∧ (∀ q ∈ ps, xMin ≤ q.1) ∧
        (∃ q ∈ ps, q.2 = yMin) ∧ (∀ q ∈ ps, yMin ≤ q.2) ∧
        (∃ q ∈ ps, q.1 = xMax) ∧ (∀ q ∈ ps, q.1 ≤ xMax) ∧
        (∃ q ∈ ps, q.2 = yMax) ∧ (∀ q ∈ ps, q.2 ≤ yMax) ∧
        xMin ≤ xMax ∧ yMin ≤ yMax) ∧
      ∀ (c : ConnectedComponent) (x y : Int),
        (c.addPixel x y).getPixels = c.getPixels ++ [(x, y)] ∧
          (c.addPixel x y).getPixels.length = c.getPixels.length + 1 ∧
          (c.addPixel x y).x_min ≤ c.x_min ∧ (c.addPixel x y).y_min ≤ c.y_min ∧
          c.x_max ≤ (c.addPixel x y).x_max ∧ c.y_max ≤ (c.addPixel x y).y_max ∧
          (c.addPixel x y).x_min ≤ x ∧ x ≤ (c.addPixel x y).x_max ∧
          (c.addPixel x y).y_min ≤ y ∧ y ≤ (c.addPixel x y).y_max := by
  have hadd := ofPixels_eq_addPixels Id ps
  have hx : (ps.map Prod.fst) ≠ [] := by simpa using hne
  have hy : (ps.map Prod.snd) ≠ [] := by simpa using hne
  have hxub : ∀ v ∈ ps.map Prod.fst, v ≤ INT_MAX := by
    intro v hv
    obtain ⟨q, hq, rfl⟩ := List.mem_map.1 hv
    exact (hint q hq).1.2
  have hyub : ∀ v ∈ ps.map Prod.snd, v ≤ INT_MAX := by
    intro v hv
    obtain ⟨q, hq, rfl⟩ := List.mem_map.1 hv
    exact (hint q hq).2.2
  have hxlb : ∀ v ∈ ps.map Prod.fst, INT_MIN ≤ v := by
    intro v hv
    obtain ⟨q, hq, rfl⟩ := List.mem_map.1 hv
    exact (hint q hq).1.1
  have hylb : ∀ v ∈ ps.map Prod.snd, INT_MIN ≤ v := by
    intro v hv
    obtain ⟨q, hq, rfl⟩ := List.mem_map.1 hv
    exact (hint q hq).2.1
  obtain ⟨ax, bx⟩ := foldl_min_attained hx hxub
  obtain ⟨ay, by1⟩ := foldl_min_attained hy hyub
  obtain ⟨aX, bX⟩ := foldl_max_attained hx hxlb
  obtain ⟨aY, bY⟩ := foldl_max_attained hy hylb
  obtain ⟨q1, hq1, e1⟩ := List.mem_map.1 ax
  obtain ⟨q2, hq2, e2⟩ := List.mem_map.1 ay
  obtain ⟨q3, hq3, e3⟩ := List.mem_map.1 aX
  obtain ⟨q4, hq4, e4⟩ := List.mem_map.1 aY
  have hbox := ofPixels_box Id ps
  have hpix := ofPixels_pixels Id ps
  rw [hadd] at hbox hpix
  refine ⟨hpix, ?_, ⟨_, _, _, _, hbox,
    ⟨q1, hq1, e1⟩, fun q hq => bx q.1 (List.mem_map_of_mem _ hq),
    ⟨q2, hq2, e2⟩, fun q hq => by1 q.2 (List.mem_map_of_mem _ hq),
    ⟨q3, hq3, e3⟩, fun q hq => bX q.1 (List.mem_map_of_mem _ hq),
    ⟨q4, hq4, e4⟩, fun q hq => bY q.2 (List.mem_map_of_mem _ hq), ?_, ?_⟩, ?_⟩
  · unfold ConnectedComponent.getSize
    rw [hpix]
  · exact le_trans (bx q1.1 (List.mem_map_of_mem _ hq1)) (bX q1.1 (List.mem_map_of_mem _ hq1))
  · exact le_trans (by1 q2.2 (List.mem_map_of_mem _ hq2))
      (bY q2.2 (List.mem_map_of_mem _ hq2))
  · intro c x y
    refine ⟨rfl, ?_, min_le_left _ _, min_le_left _ _, le_max_left _ _, le_max_left _ _,
      min_le_right _ _, le_max_right _ _, min_le_right _ _, le_max_right _ _⟩
    show (c.pixels ++ [(x, y)]).length = c.pixels.length + 1
    simp

/-- C30 at the call sequence `addPixel(2, 5)`, `addPixel(0, 7)`, `addPixel(1, 6)` on
`ConnectedComponent(4)`. -/
theorem addPixel_sequence_spec_witness :
    ([(2, 5), (0, 7), (1, 6)] : List (Int × Int)) ≠ [] ∧
    (∀ q ∈ ([(2, 5), (0, 7), (1, 6)] : List (Int × Int)),
      (INT_MIN ≤ q.1 ∧ q.1 ≤ INT_MAX) ∧ (INT_MIN ≤ q.2 ∧ q.2 ≤ INT_MAX)) ∧
    ((ConnectedComponent.ofId 4).addPixels [(2, 5), (0, 7), (1, 6)]).getPixels =
      [(2, 5), (0, 7), (1, 6)] ∧
    ((ConnectedComponent.ofId 4).addPixels [(2, 5), (0, 7), (1, 6)]).getBoundingBox =
      (0, 5, 2, 7) :=
  ⟨by decide, by decide,
    (addPixel_sequence_spec 4 [(2, 5), (0, 7), (1, 6)] (by decide) (by decide)).1, by decide⟩

/-! ## The file-name test -/

theorem isPPMFile_short (fileName : List Char) (h : fileName.length < 4) :
    PGMimageProcessor.isPPMFile fileName = none := by
  unfold PGMimageProcessor.isPPMFile substr
  have hpos : (((fileName.length : Int) - 4) % 18446744073709551616).toNat > fileName.length := by
    omega
  rw [if_pos hpos]
  rfl

theorem isPPMFile_long (fileName : List Char) (h : 4 ≤ fileName.length)
    (hsize : fileName.length < 18446744073709551616) :
    PGMimageProcessor.isPPMFile fileName =
      some (decide (fileName.drop (fileName.length - 4) = ['.', 'p', 'p', 'm'])) := by
  unfold PGMimageProcessor.isPPMFile substr
  have hpos : (((fileName.length : Int) - 4) % 18446744073709551616).toNat =
      fileName.length - 4 := by
    omega
  rw [hpos, if_neg (by omega)]
  rfl

/-- C25 against the code: on the empty name and on the three-character name `abc` the
position `fileName.size() - 4` wraps around to a value beyond the length and `substr` throws,
so `isPPMFile` fails instead of returning false; on `x.ppm` it returns true and on `x.pgm`
false. -/
theorem isPPMFile_short_name_throws :
    PGMimageProcessor.isPPMFile [] = none ∧
      PGMimageProcessor.isPPMFile ['a', 'b', 'c'] = none ∧
      PGMimageProcessor.isPPMFile ['x', '.', 'p', 'p', 'm'] = some true ∧
      PGMimageProcessor.isPPMFile ['x', '.', 'p', 'g', 'm'] = some false :=
  ⟨isPPMFile_short [] (by decide), isPPMFile_short ['a', 'b', 'c'] (by decide),
    by rw [isPPMFile_long _ (by decide) (by decide)]; decide,
    by rw [isPPMFile_long _ (by decide) (by decide)]; decide⟩

/-! ## Every index of the extraction is in range -/

theorem vecGet_some_iff {α : Type} (v : List α) (i : Int) :
    (∃ a, vecGet v i = some a) ↔ 0 ≤ i ∧ i < (v.length : Int) := by
  unfold vecGet
  constructor
  · rintro ⟨a, ha⟩
    by_cases h0 : 0 ≤ i
    · rw [if_pos h0] at ha
      have hlt : i.toNat < v.length := (List.getElem?_eq_some.1 ha).1
      exact ⟨h0, by omega⟩
    · rw [if_neg h0] at ha
      cases ha
  · rintro ⟨h0, h1⟩
    rw [if_pos h0]
    have hlt : i.toNat < v.length := by omega
    exact ⟨v[i.toNat], List.getElem?_eq_getElem hlt⟩

theorem vecSet_some_iff {α : Type} (v : List α) (i : Int) (a : α) :
    (∃ v', vecSet v i a = some v') ↔ 0 ≤ i ∧ i < (v.length : Int) := by
  unfold vecSet
  constructor
  · rintro ⟨v', hv⟩
    by_cases hc : 0 ≤ i ∧ i.toNat < v.length
    · exact ⟨hc.1, by omega⟩
    · rw [if_neg hc] at hv
      cases hv
  · rintro ⟨h0, h1⟩
    have hc : 0 ≤ i ∧ i.toNat < v.length := ⟨h0, by omega⟩
    rw [if_pos hc]
    exact ⟨_, rfl⟩

/-- C28: for every well-formed raster, threshold and minValidSize, `extractComponents`
returns a result, in a model where a read or write outside a vector is a failure: the working
image and the label array both have `width * height` entries, a store keeps the length, the
scan index `y * width + x` of every scanned cell lies in `[0, width * height)`, a neighbour
that fails the bounds test causes no access, and the index `ny * width + nx` of a neighbour
that passes it lies in `[0, width * height)`. -/
theorem extractComponents_indices_in_range (p : PGMimageProcessor) (threshold : Nat)
    (minValidSize : Int) (hwf : WellFormed p) :
    (∃ p' n, p.extractComponents threshold minValidSize = some (p', n)) ∧
      ((((binarize p.imageData threshold).length : Int) = p.width * p.height) ∧
        ∃ labels, vecAlloc (p.width * p.height) (-1 : Int) = some labels ∧
          ((labels.length : Int) = p.width * p.height)) ∧
      (∀ x y : Int, 0 ≤ x → x < p.width → 0 ≤ y → y < p.height →
        0 ≤ y * p.width + x ∧ y * p.width + x < p.width * p.height) ∧
      (∀ (currX currY componentID : Int) (s : BfsState) (n : Int × Int),
        n ∈ neighbours currX currY →
          (¬ InBounds p.width p.height n →
            visitNeighbour p.width p.height componentID s n = some s) ∧
          (InBounds p.width p.height n →
            0 ≤ n.2 * p.width + n.1 ∧ n.2 * p.width + n.1 < p.width * p.height)) ∧
      (∀ (α : Type) (v : List α) (i : Int) (a : α),
        ((∃ b, vecGet v i = some b) ↔ 0 ≤ i ∧ i < (v.length : Int)) ∧
          ((∃ v', vecSet v i a = some v') ↔ 0 ≤ i ∧ i < (v.length : Int)) ∧
          ∀ v', vecSet v i a = some v' → v'.length = v.length) := by
  obtain ⟨hw, hh, hlen⟩ := hwf
  have hpos : 0 ≤ p.width * p.height := le_of_lt (Int.mul_pos hw hh)
  refine ⟨extract_total p threshold minValidSize ⟨hw, hh, hlen⟩, ⟨?_, ?_⟩, ?_, ?_, ?_⟩
  · unfold binarize
    rw [List.length_map]
    exact hlen
  · refine ⟨List.replicate (p.width * p.height).toNat (-1), ?_, ?_⟩
    · unfold vecAlloc
      rw [if_pos hpos]
    · rw [List.length_replicate]
      omega
  · intro x y hx0 hx1 hy0 hy1
    have hq : InBounds p.width p.height (x, y) := ⟨⟨hx0, hx1⟩, ⟨hy0, hy1⟩⟩
    exact ⟨pixelIndex_nonneg hq, pixelIndex_lt hq⟩
  · intro _ _ componentID s n _
    exact ⟨fun hn => visitNeighbour_out hn, fun hn => ⟨pixelIndex_nonneg hn, pixelIndex_lt hn⟩⟩
  · intro α v i a
    exact ⟨vecGet_some_iff v i, vecSet_some_iff v i a, fun v' hv => vecSet_length hv⟩

/-- C28 at the 3 x 3 raster `rasterB` with threshold 1 and minValidSize 1. -/
theorem extractComponents_indices_in_range_witness :
    WellFormed rasterB ∧
      (∃ p' n, rasterB.extractComponents 1 1 = some (p', n)) ∧
      ∀ x y : Int, 0 ≤ x → x < rasterB.width → 0 ≤ y → y < rasterB.height →
        0 ≤ y * rasterB.width + x ∧ y * rasterB.width + x < rasterB.width * rasterB.height :=
  ⟨by decide, (extractComponents_indices_in_range rasterB 1 1 (by decide)).1,
    (extractComponents_indices_in_range rasterB 1 1 (by decide)).2.2.1⟩

/-! ## The grayscale writer -/

theorem foldlM_frame {α κ β : Type} (N : Nat) (K : κ → Prop) (obs : List Nat → κ → β)
    (touched : α → κ → Prop) (step : List Nat → α → Option (List Nat)) :
    ∀ (l : List α),
      (∀ a ∈ l, ∀ out, out.length = N → ∃ out', step out a = some out' ∧ out'.length = N ∧
        ∀ q, K q → ¬ touched a q → obs out' q = obs out q) →
      ∀ out, out.length = N → ∃ out', l.foldlM step out = some out' ∧ out'.length = N ∧
        ∀ q, K q → (∀ a ∈ l, ¬ touched a q) → obs out' q = obs out q := by
  intro l
  induction l with
  | nil =>
    intro _ out hlen
    exact ⟨out, rfl, hlen, fun _ _ _ => rfl⟩
  | cons a l ih =>
    intro hstep out hlen
    obtain ⟨out1, h1, hlen1, hfr1⟩ := hstep a (List.mem_cons_self a l) out hlen
    obtain ⟨out2, h2, hlen2, hfr2⟩ :=
      ih (fun b hb => hstep b (List.mem_cons_of_mem a hb)) out1 hlen1
    refine ⟨out2, ?_, hlen2, ?_⟩
    · rw [List.foldlM_cons, h1]
      exact h2
    · intro q hq hnot
      rw [hfr2 q hq (fun b hb => hnot b (List.mem_cons_of_mem a hb)),
        hfr1 q hq (hnot a (List.mem_cons_self a l))]

theorem foldlM_painted {α κ β : Type} (N : Nat) (K : κ → Prop) (obs : List Nat → κ → β)
    (touched : α → κ → Prop) (step : List Nat → α → Option (List Nat)) (f : κ → β) :
    ∀ (l : List α),
      (∀ a ∈ l, ∀ out, out.length = N → ∃ out', step out a = some out' ∧ out'.length = N ∧
        (∀ q, K q → ¬ touched a q → obs out' q = obs out q) ∧
        (∀ q, K q → touched a q → obs out' q = f q)) →
      ∀ out, out.length = N → ∃ out', l.foldlM step out = some out' ∧ out'.length = N ∧
        (∀ q, K q → (∀ a ∈ l, ¬ touched a q) → obs out' q = obs out q) ∧
        (∀ q, K q → (∃ a ∈ l, touched a q) → obs out' q = f q) := by
  intro l
  induction l with
  | nil =>
    intro _ out hlen
    refine ⟨out, rfl, hlen, fun _ _ _ => rfl, ?_⟩
    rintro q _ ⟨a, ha, _⟩
    exact absurd ha (List.not_mem_nil a)
  | cons a l ih =>
    intro hstep out hlen
    obtain ⟨out1, h1, hlen1, hfr1, hp1⟩ := hstep a (List.mem_cons_self a l) out hlen
    obtain ⟨out2, h2, hlen2, hfr2, hp2⟩ :=
      ih (fun b hb => hstep b (List.mem_cons_of_mem a hb)) out1 hlen1
    refine ⟨out2, ?_, hlen2, ?_, ?_⟩
    · rw [List.foldlM_cons, h1]
      exact h2
    · intro q hq hnot
      rw [hfr2 q hq (fun b hb => hnot b (List.mem_cons_of_mem a hb)),
        hfr1 q hq (hnot a (List.mem_cons_self a l))]
    · rintro q hq ⟨b, hb, hbq⟩
      by_cases hl : ∃ b ∈ l, touched b q
      · exact hp2 q hq hl
      · have hnot : ∀ b ∈ l, ¬ touched b q := fun b hb hbq => hl ⟨b, hb, hbq⟩
        rw [hfr2 q hq hnot]
        rcases List.mem_cons.1 hb with e | e
        · exact hp1 q hq (e ▸ hbq)
        · exact absurd hbq (hnot b e)

theorem store3_spec (v : List Nat) (i : Int) (r g b : Nat) (h0 : 0 ≤ i)
    (h1 : i + 2 < (v.length : Int)) :
    ∃ out', store3 v i r g b = some out' ∧ out'.length = v.length ∧
      vecGet out' i = some r ∧ vecGet out' (i + 1) = some g ∧
      vecGet out' (i + 2) = some b ∧
      ∀ j, 0 ≤ j → (j < i ∨ i + 2 < j) → vecGet out' j = vecGet v j := by
  have a0 : i.toNat < v.length := by omega
  have a1 : (i + 1).toNat < (v.set i.toNat r).length := by
    rw [List.length_set]; omega
  have a2 : (i + 2).toNat < ((v.set i.toNat r).set (i + 1).toNat g).length := by
    rw [List.length_set, List.length_set]; omega
  have p1 : (0 : Int) ≤ i + 1 := by omega
  have p2 : (0 : Int) ≤ i + 2 := by omega
  refine ⟨((v.set i.toNat r).set (i + 1).toNat g).set (i + 2).toNat b, ?_, ?_, ?_, ?_, ?_, ?_⟩
  · unfold store3
    rw [vecSet_eq h0 a0, Option.some_bind, vecSet_eq p1 a1, Option.some_bind, vecSet_eq p2 a2]
  · simp
  · have n1 : i + 2 ≠ i := by omega
    have n2 : i + 1 ≠ i := by omega
    rw [vecGet_set_other p2 h0 n1, vecGet_set_other p1 h0 n2]
    exact vecGet_set_same h0 a0
  · have n1 : i + 2 ≠ i + 1 := by omega
    rw [vecGet_set_other p2 p1 n1]
    exact vecGet_set_same p1 a1
  · exact vecGet_set_same p2 a2
  · intro j hj hne
    have n1 : i + 2 ≠ j := by omega
    have n2 : i + 1 ≠ j := by omega
    have n3 : i ≠ j := by omega
    rw [vecGet_set_other p2 hj n1, vecGet_set_other p1 hj n2, vecGet_set_other h0 hj n3]

theorem colourAt_frame {w : Int} {out out' : List Nat} {i : Int} {q : Int × Int}
    (hfr : ∀ j, 0 ≤ j → (j < i ∨ i + 2 < j) → vecGet out' j = vecGet out j)
    (hq0 : 0 ≤ pixelIndex w q)
    (hne : pixelIndex w q * 3 + 2 < i ∨ i + 2 < pixelIndex w q * 3) :
    colourAt w out' q = colourAt w out q := by
  unfold colourAt
  rw [hfr (pixelIndex w q * 3) (by omega) (by omega),
    hfr (pixelIndex w q * 3 + 1) (by omega) (by omega),
    hfr (pixelIndex w q * 3 + 2) (by omega) (by omega)]

theorem colourAt_frame_cell {w h : Int} {out out' : List Nat} {a q : Int × Int}
    (hfr : ∀ j, 0 ≤ j → (j < pixelIndex w a * 3 ∨ pixelIndex w a * 3 + 2 < j) →
      vecGet out' j = vecGet out j)
    (ha : InBounds w h a) (hq : InBounds w h q) (hne : q ≠ a) :
    colourAt w out' q = colourAt w out q := by
  have hidx : pixelIndex w q ≠ pixelIndex w a := fun e => hne (pixelIndex_inj hq ha e)
  exact colourAt_frame hfr (pixelIndex_nonneg hq) (by omega)

theorem store3_cell {w h : Int} (a : Int × Int) (r g b : Nat) (out : List Nat)
    (ha : InBounds w h a) (hlen : out.length = (w * h * 3).toNat) :
    ∃ out', store3 out (pixelIndex w a * 3) r g b = some out' ∧
      out'.length = (w * h * 3).toNat ∧
      (∀ q, InBounds w h q → ¬ q = a → colourAt w out' q = colourAt w out q) ∧
      (∀ q, InBounds w h q → q = a → colourAt w out' q = some (r, g, b)) := by
  have h0 := pixelIndex_nonneg ha
  have h1 := pixelIndex_lt ha
  obtain ⟨out', e, hl, e1, e2, e3, hfr⟩ :=
    store3_spec out (pixelIndex w a * 3) r g b (by omega) (by omega)
  refine ⟨out', e, hl.trans hlen, ?_, ?_⟩
  · intro q hq hne
    exact colourAt_frame_cell hfr ha hq hne
  · intro q _ hqa
    rw [hqa]
    unfold colourAt
    rw [e1, e2, e3]
    rfl

theorem paintRed_spec (out : List Nat) (i : Int) :
    ∃ out', paintRed out i = some out' ∧ out'.length = out.length ∧
      ∀ j, 0 ≤ j → (j < i ∨ i + 2 < j) → vecGet out' j = vecGet out j := by
  unfold paintRed
  by_cases hc : i ≥ 0 ∧ i < castInt (((out.length : Int) - 2) % 18446744073709551616)
  · rw [if_pos hc]
    have hlt : i + 2 < (out.length : Int) := by
      have h2 := hc.2
      unfold castInt at h2
      omega
    obtain ⟨out', e, hl, _, _, _, hfr⟩ := store3_spec out i 255 0 0 hc.1 hlt
    exact ⟨out', e, hl, hfr⟩
  · rw [if_neg hc]
    exact ⟨out, rfl, rfl, fun _ _ _ => rfl⟩

theorem wrapInt_eq {n : Int} (h0 : -2147483648 ≤ n) (h1 : n ≤ 2147483647) :
    wrapInt n = n := by
  unfold wrapInt
  omega

theorem wrapInt_index {w h : Int} {a : Int × Int} (ha : InBounds w h a)
    (hfit : w * h * 3 ≤ INT_MAX) :
    wrapInt (wrapInt (a.2 * w) + a.1) = pixelIndex w a ∧
      wrapInt (pixelIndex w a * 3) = pixelIndex w a * 3 := by
  have h0 := pixelIndex_nonneg ha
  have h1 := pixelIndex_lt ha
  have hrow : 0 ≤ a.2 * w := Int.mul_nonneg ha.2.1 (by have := ha.1; omega)
  have hx := ha.1
  unfold INT_MAX at hfit
  unfold pixelIndex at h0 h1 ⊢
  have e1 : wrapInt (a.2 * w) = a.2 * w := wrapInt_eq (by omega) (by omega)
  rw [e1]
  exact ⟨wrapInt_eq (by omega) (by omega), wrapInt_eq (by omega) (by omega)⟩

theorem wrapInt_area {w h : Int} (hw : 0 ≤ w) (hh : 0 ≤ h) (hfit : w * h * 3 ≤ INT_MAX) :
    wrapInt (wrapInt (w * h) * 3) = w * h * 3 := by
  have hpos : 0 ≤ w * h := Int.mul_nonneg hw hh
  unfold INT_MAX at hfit
  have e1 : wrapInt (w * h) = w * h := wrapInt_eq (by omega) (by omega)
  rw [e1]
  exact wrapInt_eq (by omega) (by omega)

theorem paintRed_frame {w h : Int} (hfit : w * h * 3 ≤ INT_MAX) (out : List Nat)
    (x y : Int) :
    ∃ out', paintRed out (wrapInt (wrapInt (wrapInt (y * w) + x) * 3)) = some out' ∧
      out'.length = out.length ∧
      ∀ q, InBounds w h q → InBounds w h (x, y) → q ≠ (x, y) →
        colourAt w out' q = colourAt w out q := by
  obtain ⟨out', e, hl, hfr⟩ := paintRed_spec out (wrapInt (wrapInt (wrapInt (y * w) + x) * 3))
  refine ⟨out', e, hl, ?_⟩
  intro q hq ha hne
  have e1 : wrapInt (wrapInt (y * w) + x) = pixelIndex w (x, y) := (wrapInt_index ha hfit).1
  rw [e1, (wrapInt_index ha hfit).2] at hfr
  exact colourAt_frame_cell (a := (x, y)) hfr ha hq hne

theorem paintRed_pair {w h : Int} (hfit : w * h * 3 ≤ INT_MAX) (N : Nat) (out : List Nat)
    (x1 y1 x2 y2 : Int) (hlen : out.length = N) :
    ∃ out', ((paintRed out (wrapInt (wrapInt (wrapInt (y1 * w) + x1) * 3))).bind fun out =>
        paintRed out (wrapInt (wrapInt (wrapInt (y2 * w) + x2) * 3))) = some out' ∧
      out'.length = N ∧
      ∀ q, InBounds w h q → InBounds w h (x1, y1) → InBounds w h (x2, y2) →
        q ≠ (x1, y1) → q ≠ (x2, y2) → colourAt w out' q = colourAt w out q := by
  obtain ⟨out1, e1, hl1, hfr1⟩ := paintRed_frame hfit out x1 y1
  obtain ⟨out2, e2, hl2, hfr2⟩ := paintRed_frame hfit out1 x2 y2
  refine ⟨out2, ?_, by rw [hl2, hl1, hlen], ?_⟩
  · rw [e1, Option.some_bind, e2]
  · intro q hq ha1 ha2 hn1 hn2
    rw [hfr2 q hq ha2 hn2, hfr1 q hq ha1 hn1]

theorem clampBox_spec {w h : Int} (hw : 1 ≤ w) (hh : 1 ≤ h) (box : Int × Int × Int × Int) :
    (0 ≤ (clampBox w h box).1 ∧ (clampBox w h box).1 ≤ (clampBox w h box).2.2.1 ∧
        (clampBox w h box).2.2.1 ≤ w - 1) ∧
      (0 ≤ (clampBox w h box).2.1 ∧ (clampBox w h box).2.1 ≤ (clampBox w h box).2.2.2 ∧
        (clampBox w h box).2.2.2 ≤ h - 1) := by
  unfold clampBox
  dsimp only
  constructor <;> split_ifs <;> omega

theorem drawBox_step {w h : Int} (hfit : w * h * 3 ≤ INT_MAX) (N : Nat)
    (c : ConnectedComponent) (out : List Nat) (hlen : out.length = N) :
    ∃ out', drawBox w h out c = some out' ∧ out'.length = N ∧
      ∀ q, InBounds w h q → ¬ OnBorder w h c q → colourAt w out' q = colourAt w out q := by
  unfold drawBox
  dsimp only
  obtain ⟨out1, e1, hl1, hfr1⟩ :=
    foldlM_frame N (InBounds w h) (colourAt w)
      (fun (k : Nat) q =>
        q = ((clampBox w h c.getBoundingBox).1 + (k : Int),
              (clampBox w h c.getBoundingBox).2.1) ∨
          q = ((clampBox w h c.getBoundingBox).1 + (k : Int),
              (clampBox w h c.getBoundingBox).2.2.2))
      (fun out (k : Nat) =>
        (paintRed out (wrapInt (wrapInt (wrapInt ((clampBox w h c.getBoundingBox).2.1 * w) +
            ((clampBox w h c.getBoundingBox).1 + (k : Int))) * 3))).bind fun out =>
          paintRed out (wrapInt (wrapInt (wrapInt ((clampBox w h c.getBoundingBox).2.2.2 * w) +
            ((clampBox w h c.getBoundingBox).1 + (k : Int))) * 3)))
      (List.range ((clampBox w h c.getBoundingBox).2.2.1 + 1 -
        (clampBox w h c.getBoundingBox).1).toNat)
      (by
        intro k hk out hlen
        obtain ⟨out', e, hl, hfr⟩ := paintRed_pair (w := w) (h := h) hfit N out
          ((clampBox w h c.getBoundingBox).1 + (k : Int)) (clampBox w h c.getBoundingBox).2.1
          ((clampBox w h c.getBoundingBox).1 + (k : Int)) (clampBox w h c.getBoundingBox).2.2.2
          hlen
        refine ⟨out', e, hl, ?_⟩
        intro q hq hnot
        have hk1 := List.mem_range.1 hk
        obtain ⟨⟨bx0, bx1, bx2⟩, ⟨by0, by1, by2⟩⟩ :=
          clampBox_spec (w := w) (h := h) (by have := hq.1; omega) (by have := hq.2; omega)
            c.getBoundingBox
        refine hfr q hq ⟨⟨?_, ?_⟩, ⟨?_, ?_⟩⟩ ⟨⟨?_, ?_⟩, ⟨?_, ?_⟩⟩ (fun e => hnot (Or.inl e))
          (fun e => hnot (Or.inr e)) <;> dsimp only <;> omega)
      out hlen
  obtain ⟨out2, e2, hl2, hfr2⟩ :=
    foldlM_frame N (InBounds w h) (colourAt w)
      (fun (k : Nat) q =>
        q = ((clampBox w h c.getBoundingBox).1,
              (clampBox w h c.getBoundingBox).2.1 + 1 + (k : Int)) ∨
          q = ((clampBox w h c.getBoundingBox).2.2.1,
              (clampBox w h c.getBoundingBox).2.1 + 1 + (k : Int)))
      (fun out (k : Nat) =>
        (paintRed out
            (wrapInt (wrapInt (wrapInt (((clampBox w h c.getBoundingBox).2.1 + 1 + (k : Int)) * w) +
              (clampBox w h c.getBoundingBox).1) * 3))).bind fun out =>
          paintRed out
            (wrapInt (wrapInt (wrapInt (((clampBox w h c.getBoundingBox).2.1 + 1 + (k : Int)) * w) +
              (clampBox w h c.getBoundingBox).2.2.1) * 3)))
      (List.range ((clampBox w h c.getBoundingBox).2.2.2 -
        ((clampBox w h c.getBoundingBox).2.1 + 1)).toNat)
      (by
        intro k hk out hlen
        obtain ⟨out', e, hl, hfr⟩ := paintRed_pair (w := w) (h := h) hfit N out
          (clampBox w h c.getBoundingBox).1 ((clampBox w h c.getBoundingBox).2.1 + 1 + (k : Int))
          (clampBox w h c.getBoundingBox).2.2.1
          ((clampBox w h c.getBoundingBox).2.1 + 1 + (k : Int)) hlen
        refine ⟨out', e, hl, ?_⟩
        intro q hq hnot
        have hk1 := List.mem_range.1 hk
        obtain ⟨⟨bx0, bx1, bx2⟩, ⟨by0, by1, by2⟩⟩ :=
          clampBox_spec (w := w) (h := h) (by have := hq.1; omega) (by have := hq.2; omega)
            c.getBoundingBox
        refine hfr q hq ⟨⟨?_, ?_⟩, ⟨?_, ?_⟩⟩ ⟨⟨?_, ?_⟩, ⟨?_, ?_⟩⟩ (fun e => hnot (Or.inl e))
          (fun e => hnot (Or.inr e)) <;> dsimp only <;> omega)
      out1 hl1
  refine ⟨out2, ?_, hl2, ?_⟩
  · rw [e1, Option.some_bind]
    exact e2
  · intro q hq hnb
    have hb1 : ∀ k ∈ List.range ((clampBox w h c.getBoundingBox).2.2.1 + 1 -
        (clampBox w h c.getBoundingBox).1).toNat,
        ¬ (q = ((clampBox w h c.getBoundingBox).1 + (k : Int),
              (clampBox w h c.getBoundingBox).2.1) ∨
          q = ((clampBox w h c.getBoundingBox).1 + (k : Int),
              (clampBox w h c.getBoundingBox).2.2.2)) := by
      intro k hk hq2
      have hk1 := List.mem_range.1 hk
      apply hnb
      left
      rcases hq2 with e | e
      · rw [e]
        exact ⟨Or.inl rfl, by dsimp only; omega, by dsimp only; omega⟩
      · rw [e]
        exact ⟨Or.inr rfl, by dsimp only; omega, by dsimp only; omega⟩
    have hb2 : ∀ k ∈ List.range ((clampBox w h c.getBoundingBox).2.2.2 -
        ((clampBox w h c.getBoundingBox).2.1 + 1)).toNat,
        ¬ (q = ((clampBox w h c.getBoundingBox).1,
              (clampBox w h c.getBoundingBox).2.1 + 1 + (k : Int)) ∨
          q = ((clampBox w h c.getBoundingBox).2.2.1,
              (clampBox w h c.getBoundingBox).2.1 + 1 + (k : Int))) := by
      intro k hk hq2
      have hk1 := List.mem_range.1 hk
      apply hnb
      right
      rcases hq2 with e | e
      · rw [e]
        exact ⟨Or.inl rfl, by dsimp only; omega, by dsimp only; omega⟩
      · rw [e]
        exact ⟨Or.inr rfl, by dsimp only; omega, by dsimp only; omega⟩
    rw [hfr2 q hq hb2, hfr1 q hq hb1]

theorem copyGray_step {w h : Int} (hfit : w * h * 3 ≤ INT_MAX) (img : List Nat)
    (a : Int × Int) (out : List Nat)
    (himg : w * h ≤ (img.length : Int)) (ha : InBounds w h a)
    (hlen : out.length = (w * h * 3).toNat) :
    ∃ out', copyGray w img out a.1 a.2 = some out' ∧ out'.length = (w * h * 3).toNat ∧
      (∀ q, InBounds w h q → ¬ q = a → colourAt w out' q = colourAt w out q) ∧
      (∀ q, InBounds w h q → q = a →
        colourAt w out' q = (vecGet img (pixelIndex w q)).map fun g => (g, g, g)) := by
  have h0 := pixelIndex_nonneg ha
  have h1 := pixelIndex_lt ha
  obtain ⟨g, hg⟩ := vecGet_isSome (v := img) h0 (by omega)
  obtain ⟨out', e, hl, hfr, hp⟩ := store3_cell a g g g out ha hlen
  refine ⟨out', ?_, hl, hfr, ?_⟩
  · unfold copyGray
    dsimp only
    rw [(wrapInt_index ha hfit).1, (wrapInt_index ha hfit).2, hg, Option.some_bind]
    exact e
  · intro q hq hqa
    rw [hp q hq hqa, hqa, hg]
    rfl

theorem copyRow_step {w h : Int} (hfit : w * h * 3 ≤ INT_MAX) (img : List Nat) (y : Nat)
    (hy : y < h.toNat)
    (himg : w * h ≤ (img.length : Int)) (out : List Nat)
    (hlen : out.length = (w * h * 3).toNat) :
    ∃ out', (List.range w.toNat).foldlM
        (fun out (x : Nat) => copyGray w img out (x : Int) (y : Int)) out = some out' ∧
      out'.length = (w * h * 3).toNat ∧
      (∀ q, InBounds w h q → ¬ q.2 = (y : Int) → colourAt w out' q = colourAt w out q) ∧
      (∀ q, InBounds w h q → q.2 = (y : Int) →
        colourAt w out' q = (vecGet img (pixelIndex w q)).map fun g => (g, g, g)) := by
  obtain ⟨out', e, hl, hfr, hp⟩ :=
    foldlM_painted (w * h * 3).toNat (InBounds w h) (colourAt w)
      (fun (x : Nat) q => q = ((x : Int), (y : Int)))
      (fun out (x : Nat) => copyGray w img out (x : Int) (y : Int))
      (fun q => (vecGet img (pixelIndex w q)).map fun g => (g, g, g))
      (List.range w.toNat)
      (by
        intro x hx out hlen
        have hx1 := List.mem_range.1 hx
        have ha : InBounds w h ((x : Int), (y : Int)) :=
          ⟨⟨by dsimp only; omega, by dsimp only; omega⟩,
            ⟨by dsimp only; omega, by dsimp only; omega⟩⟩
        exact copyGray_step hfit img ((x : Int), (y : Int)) out himg ha hlen)
      out hlen
  refine ⟨out', e, hl, ?_, ?_⟩
  · intro q hq hne
    apply hfr q hq
    intro x _ hqx
    apply hne
    rw [hqx]
  · intro q hq hqy
    apply hp q hq
    refine ⟨q.1.toNat, List.mem_range.2 ?_, ?_⟩
    · have := hq.1
      omega
    · have := hq.1
      apply Prod.ext
      · dsimp only
        omega
      · exact hqy

theorem copyRows_spec {w h : Int} (hfit : w * h * 3 ≤ INT_MAX) (img : List Nat)
    (himg : w * h ≤ (img.length : Int))
    (out : List Nat) (hlen : out.length = (w * h * 3).toNat) :
    ∃ out', (List.range h.toNat).foldlM
        (fun out (y : Nat) =>
          (List.range w.toNat).foldlM
            (fun out (x : Nat) => copyGray w img out (x : Int) (y : Int)) out) out =
          some out' ∧
      out'.length = (w * h * 3).toNat ∧
      ∀ q, InBounds w h q →
        colourAt w out' q = (vecGet img (pixelIndex w q)).map fun g => (g, g, g) := by
  obtain ⟨out', e, hl, _, hp⟩ :=
    foldlM_painted (w * h * 3).toNat (InBounds w h) (colourAt w)
      (fun (y : Nat) q => q.2 = (y : Int))
      (fun out (y : Nat) =>
        (List.range w.toNat).foldlM
          (fun out (x : Nat) => copyGray w img out (x : Int) (y : Int)) out)
      (fun q => (vecGet img (pixelIndex w q)).map fun g => (g, g, g))
      (List.range h.toNat)
      (fun y hy out hlen => copyRow_step hfit img y (List.mem_range.1 hy) himg out hlen)
      out hlen
  refine ⟨out', e, hl, ?_⟩
  intro q hq
  apply hp q hq
  refine ⟨q.2.toNat, List.mem_range.2 ?_, ?_⟩
  · have := hq.2
    omega
  · have := hq.2
    omega

theorem markPixelColour_true {w h : Int} (out : List Nat) (a : Int × Int) :
    markPixelColour w h true out a = some out := by
  simp [markPixelColour]

theorem markPixelColour_step {w h : Int} (hfit : w * h * 3 ≤ INT_MAX) (a : Int × Int)
    (out : List Nat)
    (hlen : out.length = (w * h * 3).toNat) :
    ∃ out', markPixelColour w h false out a = some out' ∧
      out'.length = (w * h * 3).toNat ∧
      (∀ q, InBounds w h q → ¬ q = a → colourAt w out' q = colourAt w out q) ∧
      (∀ q, InBounds w h q → q = a → colourAt w out' q = some (255, 255, 255)) := by
  unfold markPixelColour
  dsimp only
  by_cases hc : (a.1 ≥ 0 ∧ a.1 < w) ∧ (a.2 ≥ 0 ∧ a.2 < h)
  · have ht : (!false) = true := rfl
    rw [if_pos hc, if_pos ht, (wrapInt_index hc hfit).1, (wrapInt_index hc hfit).2]
    exact store3_cell a 255 255 255 out hc hlen
  · rw [if_neg hc]
    refine ⟨out, rfl, hlen, fun _ _ _ => rfl, ?_⟩
    intro q hq e
    exact absurd (e ▸ hq) hc

theorem markComponentColour_step {w h : Int} (hfit : w * h * 3 ≤ INT_MAX)
    (c : ConnectedComponent) (out : List Nat)
    (hlen : out.length = (w * h * 3).toNat) :
    ∃ out', c.getPixels.foldlM (markPixelColour w h false) out = some out' ∧
      out'.length = (w * h * 3).toNat ∧
      (∀ q, InBounds w h q → ¬ q ∈ c.getPixels → colourAt w out' q = colourAt w out q) ∧
      (∀ q, InBounds w h q → q ∈ c.getPixels → colourAt w out' q = some (255, 255, 255)) := by
  obtain ⟨out', h1, h2, h3, h4⟩ :=
    foldlM_painted (w * h * 3).toNat (InBounds w h) (colourAt w)
      (fun a q => q = a) (markPixelColour w h false) (fun _ => some (255, 255, 255))
      c.getPixels (fun a _ out hlen => markPixelColour_step hfit a out hlen) out hlen
  refine ⟨out', h1, h2, ?_, ?_⟩
  · intro q hq hnot
    exact h3 q hq (fun a ha e => hnot (e ▸ ha))
  · intro q hq hmem
    exact h4 q hq ⟨q, hmem, rfl⟩

theorem colourAt_replicate {w h : Int} {q : Int × Int} (hq : InBounds w h q) :
    colourAt w (List.replicate (w * h * 3).toNat (0 : Nat)) q = some (0, 0, 0) := by
  have h0 := pixelIndex_nonneg hq
  have h1 := pixelIndex_lt hq
  unfold colourAt
  rw [vecGet_eq (by omega), vecGet_eq (by omega), vecGet_eq (by omega),
    List.getElem?_replicate, List.getElem?_replicate, List.getElem?_replicate,
    if_pos (by omega), if_pos (by omega), if_pos (by omega)]
  rfl

theorem writeComponentsColour_false (p : PGMimageProcessor) (hw : 0 ≤ p.width)
    (hh : 0 ≤ p.height) (hfit : p.width * p.height * 3 ≤ INT_MAX) :
    ∃ out, p.writeComponentsColour false = some out ∧
      (out.length : Int) = p.width * p.height * 3 ∧
      ∀ q, InBounds p.width p.height q →
        ((∃ c ∈ p.components, q ∈ c.getPixels) →
          colourAt p.width out q = some (255, 255, 255)) ∧
        ((¬ ∃ c ∈ p.components, q ∈ c.getPixels) →
          colourAt p.width out q = some (0, 0, 0)) := by
  have hpos : 0 ≤ p.width * p.height * 3 := by
    have := Int.mul_nonneg hw hh
    omega
  have hlen0 : (List.replicate (p.width * p.height * 3).toNat (0 : Nat)).length =
      (p.width * p.height * 3).toNat := List.length_replicate _ _
  obtain ⟨out, h1, h2, h3, h4⟩ :=
    foldlM_painted (p.width * p.height * 3).toNat (InBounds p.width p.height)
      (colourAt p.width) (fun (c : ConnectedComponent) q => q ∈ c.getPixels)
      (fun out (c : ConnectedComponent) =>
        c.getPixels.foldlM (markPixelColour p.width p.height false) out)
      (fun _ => some (255, 255, 255)) p.components
      (fun c _ out hlen => markComponentColour_step hfit c out hlen) _ hlen0
  refine ⟨out, ?_, by omega, ?_⟩
  · unfold PGMimageProcessor.writeComponentsColour vecAlloc
    rw [wrapInt_area hw hh hfit, if_pos hpos]
    simp only [Option.some_bind, Bool.false_eq_true, if_false]
    rw [h1]
    rfl
  · intro q hq
    constructor
    · intro hmem
      exact h4 q hq hmem
    · intro hnot
      rw [h3 q hq (fun c hc hm => hnot ⟨c, hc, hm⟩)]
      exact colourAt_replicate hq

theorem writeComponentsColour_true (p : PGMimageProcessor) (hw : 0 ≤ p.width)
    (hh : 0 ≤ p.height) (hfit : p.width * p.height * 3 ≤ INT_MAX)
    (himg : p.width * p.height ≤ (p.imageData.length : Int)) :
    ∃ out, p.writeComponentsColour true = some out ∧
      (out.length : Int) = p.width * p.height * 3 ∧
      ∀ q, InBounds p.width p.height q →
        (∀ c ∈ p.components, ¬ OnBorder p.width p.height c q) →
        ∃ g, vecGet p.imageData (pixelIndex p.width q) = some g ∧
          colourAt p.width out q = some (g, g, g) := by
  have hpos : 0 ≤ p.width * p.height * 3 := by
    have := Int.mul_nonneg hw hh
    omega
  have hlen0 : (List.replicate (p.width * p.height * 3).toNat (0 : Nat)).length =
      (p.width * p.height * 3).toNat := List.length_replicate _ _
  obtain ⟨out1, e1, hl1, hp1⟩ := copyRows_spec (h := p.height) hfit p.imageData himg _ hlen0
  have e2 : p.components.foldlM
      (fun out (c : ConnectedComponent) =>
        c.getPixels.foldlM (markPixelColour p.width p.height true) out) out1 = some out1 :=
    foldlM_fixed _ (fun c out => foldlM_fixed _ (fun a out => markPixelColour_true out a) _ out)
      _ out1
  obtain ⟨out3, e3, hl3, hfr3⟩ :=
    foldlM_frame (p.width * p.height * 3).toNat (InBounds p.width p.height)
      (colourAt p.width) (fun (c : ConnectedComponent) q => OnBorder p.width p.height c q)
      (drawBox p.width p.height) p.components
      (fun c _ out hlen => drawBox_step hfit _ c out hlen) out1 hl1
  refine ⟨out3, ?_, by omega, ?_⟩
  · unfold PGMimageProcessor.writeComponentsColour vecAlloc
    rw [wrapInt_area hw hh hfit, if_pos hpos]
    simp only [Option.some_bind, if_true]
    rw [e1, Option.some_bind, e2, Option.some_bind]
    exact e3
  · intro q hq hnb
    have h0 := pixelIndex_nonneg hq
    have h1 := pixelIndex_lt hq
    obtain ⟨g, hg⟩ := vecGet_isSome (v := p.imageData) h0 (by omega)
    refine ⟨g, hg, ?_⟩
    rw [hfr3 q hq hnb, hp1 q hq, hg]
    rfl

theorem writeComponentsColour_wraps (p : PGMimageProcessor) (drawBoundingBoxes : Bool)
    (hw : p.width = 26755) (hh : p.height = 26755) :
    wrapInt (wrapInt (p.width * p.height) * 3) = -2147477221 ∧
      p.writeComponentsColour drawBoundingBoxes = none := by
  have hcount : wrapInt (wrapInt (p.width * p.height) * 3) = -2147477221 := by
    rw [hw, hh]
    decide
  refine ⟨hcount, ?_⟩
  unfold PGMimageProcessor.writeComponentsColour vecAlloc
  rw [hcount, if_neg (by decide)]
  rfl

/-- C27 against the code: on the 3 x 3 raster of samples 100, whose extraction at threshold
100 gives one region of nine cells, the centre cell `(1, 1)` belongs to the region and is not
on the drawn border; the colour writer with `drawBoundingBoxes = false` gives it the colour
`(255, 255, 255)`, but with `drawBoundingBoxes = true` its colour in the buffer is
`(100, 100, 100)`, the sample of the raster, not `(255, 255, 255)`. -/
theorem writeComponentsColour_boxes_not_white :
    solidRaster.extractComponents 100 1 = some (solidLabelled, 1) ∧
      InBounds solidLabelled.width solidLabelled.height (1, 1) ∧
      (∃ c ∈ solidLabelled.components, ((1 : Int), (1 : Int)) ∈ c.getPixels) ∧
      (∀ c ∈ solidLabelled.components,
        ¬ OnBorder solidLabelled.width solidLabelled.height c (1, 1)) ∧
      ((solidLabelled.writeComponentsColour false).bind fun out =>
          colourAt solidLabelled.width out (1, 1)) = some (255, 255, 255) ∧
      ((solidLabelled.writeComponentsColour true).bind fun out =>
          colourAt solidLabelled.width out (1, 1)) = some (100, 100, 100) ∧
      ((solidLabelled.writeComponentsColour true).bind fun out =>
          colourAt solidLabelled.width out (1, 1)) ≠ some (255, 255, 255) :=
  ⟨by decide, by unfold InBounds; decide, by decide, by decide, by decide, by decide,
    by decide⟩

/-- What the colour writer builds on a processor with `width >= 0`, `height >= 0` and
`width * height * 3` in the range of `int`.  With `drawBoundingBoxes = false`: a buffer of
`width * height * 3` samples in which every cell of the raster that belongs to a region of the
list has colour `(255, 255, 255)` and every other cell `(0, 0, 0)`.  With
`drawBoundingBoxes = true`, when the raster holds at least `width * height` samples: a buffer
of the same length in which every cell of the raster that does not lie on a drawn border has
colour `(g, g, g)` for its own sample `g`, whether or not it belongs to a region. -/
theorem writeComponentsColour_spec (p : PGMimageProcessor) (hw : 0 ≤ p.width)
    (hh : 0 ≤ p.height) (hfit : p.width * p.height * 3 ≤ INT_MAX) :
    (∃ out, p.writeComponentsColour false = some out ∧
      (out.length : Int) = p.width * p.height * 3 ∧
      ∀ q, InBounds p.width p.height q →
        ((∃ c ∈ p.components, q ∈ c.getPixels) →
          colourAt p.width out q = some (255, 255, 255)) ∧
        ((¬ ∃ c ∈ p.components, q ∈ c.getPixels) →
          colourAt p.width out q = some (0, 0, 0))) ∧
      (p.width * p.height ≤ (p.imageData.length : Int) →
        ∃ out, p.writeComponentsColour true = some out ∧
          (out.length : Int) = p.width * p.height * 3 ∧
          ∀ q, InBounds p.width p.height q →
            (∀ c ∈ p.components, ¬ OnBorder p.width p.height c q) →
            ∃ g, vecGet p.imageData (pixelIndex p.width q) = some g ∧
              colourAt p.width out q = some (g, g, g)) :=
  ⟨writeComponentsColour_false p hw hh hfit,
    fun himg => writeComponentsColour_true p hw hh hfit himg⟩

/-- The statement `writeComponentsColour_spec` at the 3 x 3 raster of samples 100 holding its
one region. -/
theorem writeComponentsColour_spec_witness :
    0 ≤ solidLabelled.width ∧ 0 ≤ solidLabelled.height ∧
      solidLabelled.width * solidLabelled.height * 3 ≤ INT_MAX ∧
      ∃ out, solidLabelled.writeComponentsColour false = some out ∧
        (out.length : Int) = solidLabelled.width * solidLabelled.height * 3 ∧
        ∀ q, InBounds solidLabelled.width solidLabelled.height q →
          ((∃ c ∈ solidLabelled.components, q ∈ c.getPixels) →
            colourAt solidLabelled.width out q = some (255, 255, 255)) ∧
          ((¬ ∃ c ∈ solidLabelled.components, q ∈ c.getPixels) →
            colourAt solidLabelled.width out q = some (0, 0, 0)) :=
  ⟨by decide, by decide, by decide,
    (writeComponentsColour_spec solidLabelled (by decide) (by decide) (by decide)).1⟩

/-! ## The box that is drawn, consecutive ids, the seed -/

/-- C31: for every `width >= 1` and `height >= 1` and every stored bounding box, the box that
`drawBox` draws after the clamping and the two swaps satisfies
`0 <= x_min <= x_max <= width - 1` and `0 <= y_min <= y_max <= height - 1`; for the unset
sentinel of an empty region (with `width - 1` and `height - 1` in the range of `int`) it is
the whole raster `(0, 0, width - 1, height - 1)`. -/
theorem clampBox_within_raster (width height : Int) (hw : 1 ≤ width) (hh : 1 ≤ height)
    (boundingBox : Int × Int × Int × Int) :
    (0 ≤ (clampBox width height boundingBox).1 ∧
        (clampBox width height boundingBox).1 ≤ (clampBox width height boundingBox).2.2.1 ∧
        (clampBox width height boundingBox).2.2.1 ≤ width - 1) ∧
      (0 ≤ (clampBox width height boundingBox).2.1 ∧
        (clampBox width height boundingBox).2.1 ≤ (clampBox width height boundingBox).2.2.2 ∧
        (clampBox width height boundingBox).2.2.2 ≤ height - 1) ∧
      (width - 1 ≤ INT_MAX → height - 1 ≤ INT_MAX →
        clampBox width height (ConnectedComponent.ofId 0).getBoundingBox =
          (0, 0, width - 1, height - 1)) := by
  obtain ⟨hx, hy⟩ := clampBox_spec hw hh boundingBox
  refine ⟨hx, hy, ?_⟩
  intro hwi hhi
  unfold INT_MAX at hwi hhi
  unfold clampBox ConnectedComponent.getBoundingBox ConnectedComponent.ofId INT_MAX INT_MIN
  dsimp only
  refine Prod.ext ?_ (Prod.ext ?_ (Prod.ext ?_ ?_)) <;> dsimp only <;> split_ifs <;> omega

/-- C31 at a 5 x 4 raster and the unset sentinel box of an empty region. -/
theorem clampBox_within_raster_witness :
    (1 : Int) ≤ 5 ∧ (1 : Int) ≤ 4 ∧
      clampBox 5 4 (ConnectedComponent.ofId 0).getBoundingBox = (0, 0, 4, 3) ∧
      (0 ≤ (clampBox 5 4 (ConnectedComponent.ofId 0).getBoundingBox).1 ∧
        (clampBox 5 4 (ConnectedComponent.ofId 0).getBoundingBox).1 ≤
          (clampBox 5 4 (ConnectedComponent.ofId 0).getBoundingBox).2.2.1 ∧
        (clampBox 5 4 (ConnectedComponent.ofId 0).getBoundingBox).2.2.1 ≤ 5 - 1) :=
  ⟨by decide, by decide, by decide,
    (clampBox_within_raster 5 4 (by decide) (by decide)
      (ConnectedComponent.ofId 0).getBoundingBox).1⟩

/-- C32: in the list left by `extractComponents` the region at position `i`, counting from 0,
has id `i`, so the ids of the list are `0, 1, ..., n - 1` over the regions that were kept,
for every threshold and minValidSize: this holds on every state on which the call returns,
and the call returns on every well-formed raster. -/
theorem extractComponents_id_is_position (p : PGMimageProcessor) (threshold : Nat)
    (minValidSize : Int) :
    (WellFormed p → ∃ p' n, p.extractComponents threshold minValidSize = some (p', n)) ∧
    ∀ p' n, p.extractComponents threshold minValidSize = some (p', n) →
      (∀ (i : Nat) (c : ConnectedComponent), p'.components[i]? = some c →
        c.getID = (i : Int)) ∧
      p'.components.map ConnectedComponent.getID =
        (List.range p'.components.length).map Int.ofNat := by
  refine ⟨extract_total p threshold minValidSize, ?_⟩
  intro p' n he
  have hids : p'.components.map ConnectedComponent.getID =
      (List.range p'.components.length).map Int.ofNat := by
    rcases extract_partial p threshold minValidSize p' n he with hnil | ⟨s, hinv, hs⟩
    · rw [hnil]
      rfl
    · rw [hs]
      exact hinv.ids
  refine ⟨?_, hids⟩
  intro i c hc
  have hlt : i < p'.components.length := (List.getElem?_eq_some.1 hc).1
  have h1 : (p'.components.map ConnectedComponent.getID)[i]? = some c.getID := by
    rw [List.getElem?_map, hc]
    rfl
  have h2 : ((List.range p'.components.length).map Int.ofNat)[i]? = some (i : Int) := by
    rw [List.getElem?_map, List.getElem?_range hlt]
    rfl
  rw [hids, h2] at h1
  injection h1 with e
  exact e.symm

/-- C32 at the raster `rasterA` with threshold 1 and minValidSize 2: the first region found is
discarded and the region kept has id 0. -/
theorem extractComponents_id_is_position_witness :
    WellFormed rasterA ∧
    rasterA.extractComponents 1 2 =
      some ({ rasterA with components :=
                [ConnectedComponent.ofPixels 0 [(2, 0), (3, 0)]] }, 1) ∧
    ∀ (i : Nat) (c : ConnectedComponent),
      [ConnectedComponent.ofPixels 0 [(2, 0), (3, 0)]][i]? = some c → c.getID = (i : Int) :=
  ⟨by decide, by decide,
    ((extractComponents_id_is_position rasterA 1 2).2
      { rasterA with components := [ConnectedComponent.ofPixels 0 [(2, 0), (3, 0)]] } 1
      (by decide)).1⟩

theorem foldl_min_eq {l : List Int} {b : Int} (hb : b ∈ l) (hlb : ∀ v ∈ l, b ≤ v)
    (hbi : b ≤ INT_MAX) : l.foldl min INT_MAX = b := by
  obtain ⟨_, h2, h3⟩ := foldl_min_spec l INT_MAX
  have hle := h2 b hb
  rcases h3 with e | e
  · rw [e] at hle ⊢
    omega
  · have := hlb _ e
    omega

theorem row_le_of_index_le {w h : Int} {a b : Int × Int} (ha : InBounds w h a)
    (hb : InBounds w h b) (hle : pixelIndex w a ≤ pixelIndex w b) : a.2 ≤ b.2 := by
  by_contra hlt
  have h1 : b.2 + 1 ≤ a.2 := by omega
  have hw : 0 ≤ w := by have := ha.1; omega
  have h2 := Int.mul_le_mul_of_nonneg_right h1 hw
  rw [Int.add_mul, Int.one_mul] at h2
  unfold pixelIndex at hle
  have := ha.1
  have := hb.1
  omega

/-- C33: on a well-formed raster (with `height` in the range of `int`), every region left by
`extractComponents` has a first pixel `sd`, which is the row-major minimum of the region:
`sd.y * width + sd.x <= y * width + x` for every member `(x, y)`; hence no member lies on a
row above `sd`, and the `yMin` of the region's bounding box is the `y` of `sd`. -/
theorem extractComponents_seed_is_minimum (p : PGMimageProcessor) (threshold : Nat)
    (minValidSize : Int) (hwf : WellFormed p) (hhi : p.height ≤ INT_MAX) :
    ∃ p' n, p.extractComponents threshold minValidSize = some (p', n) ∧
      ∀ c ∈ p'.components, ∃ sd, c.getPixels.head? = some sd ∧
        (∀ q ∈ c.getPixels, sd.2 * p.width + sd.1 ≤ q.2 * p.width + q.1) ∧
        (∀ q ∈ c.getPixels, sd.2 ≤ q.2) ∧
        c.getBoundingBox.2.1 = sd.2 := by
  obtain ⟨s, hinv, he⟩ := extract_spec p threshold minValidSize hwf
  refine ⟨_, _, he, ?_⟩
  intro c hc
  obtain ⟨hcons, hP, _, sd, hsd, _⟩ := hinv.regions c hc
  have hmin := hP.seed_min sd hsd
  have hsdm : sd ∈ c.pixels := List.mem_of_mem_head? hsd
  have hin : ∀ q ∈ c.pixels, InBounds p.width p.height q := fun q hq => (hP.fg q hq).1
  have hrow : ∀ q ∈ c.pixels, sd.2 ≤ q.2 :=
    fun q hq => row_le_of_index_le (hin sd hsdm) (hin q hq) (hmin q hq)
  refine ⟨sd, hsd, hmin, hrow, ?_⟩
  have hbox := ofPixels_box c.id c.pixels
  rw [← hcons] at hbox
  rw [hbox]
  show (c.pixels.map Prod.snd).foldl min INT_MAX = sd.2
  apply foldl_min_eq (List.mem_map_of_mem _ hsdm)
  · intro v hv
    obtain ⟨q, hq, rfl⟩ := List.mem_map.1 hv
    exact hrow q hq
  · have := (hin sd hsdm).2.2
    omega

/-- C33 at the 3 x 3 raster `rasterB` with threshold 1 and minValidSize 1. -/
theorem extractComponents_seed_is_minimum_witness :
    WellFormed rasterB ∧ rasterB.height ≤ INT_MAX ∧
    ∃ p' n, rasterB.extractComponents 1 1 = some (p', n) ∧
      ∀ c ∈ p'.components, ∃ sd, c.getPixels.head? = some sd ∧
        (∀ q ∈ c.getPixels, sd.2 * rasterB.width + sd.1 ≤ q.2 * rasterB.width + q.1) ∧
        (∀ q ∈ c.getPixels, sd.2 ≤ q.2) ∧
        c.getBoundingBox.2.1 = sd.2 :=
  ⟨by decide, by decide,
    extractComponents_seed_is_minimum rasterB 1 1 (by decide) (by decide)⟩

/-! ## A negative minimum size -/

theorem scanCell_mod (w h m : Int) (s : ScanState) (x y : Int) :
    scanCell w h m s x y = scanCell w h (m % 18446744073709551616) s x y := by
  unfold scanCell
  rw [Int.emod_emod_of_dvd m (dvd_refl _)]

theorem scanRows_mod (w h m : Int) (s : ScanState) :
    scanRows w h m s = scanRows w h (m % 18446744073709551616) s := by
  unfold scanRows scanRow
  have hf : (fun st (x : Int) (y : Int) => scanCell w h m st x y) =
      fun st (x : Int) (y : Int) => scanCell w h (m % 18446744073709551616) st x y := by
    funext st x y
    exact scanCell_mod w h m st x y
  have hg : ∀ (f g : ScanState → Int → Int → Option ScanState), f = g →
      (List.range h.toNat).foldlM
          (fun st (y : Nat) =>
            (List.range w.toNat).foldlM (fun st (x : Nat) => f st (x : Int) (y : Int)) st) s =
        (List.range h.toNat).foldlM
          (fun st (y : Nat) =>
            (List.range w.toNat).foldlM (fun st (x : Nat) => g st (x : Int) (y : Int)) st) s := by
    intro f g e
    rw [e]
  exact hg _ _ hf

theorem extract_mod (p : PGMimageProcessor) (t : Nat) (m : Int) :
    p.extractComponents t m = p.extractComponents t (m % 18446744073709551616) := by
  unfold PGMimageProcessor.extractComponents
  cases vecAlloc (p.width * p.height) (-1 : Int) with
  | none => rfl
  | some labels =>
    simp only [Option.some_bind]
    rw [scanRows_mod]

theorem region_size_le {p : PGMimageProcessor} {t : Nat} {m k : Int} {s : ScanState}
    (hinv : ScanInv p.width p.height (Foreground p t) m k s) {c : ConnectedComponent}
    (hc : c ∈ s.components) : c.pixels.length ≤ (p.width * p.height).toNat := by
  obtain ⟨_, hP, _, _⟩ := hinv.regions c hc
  exact pixels_length_le hP.nodup (fun q hq => (hP.fg q hq).1)

/-- C35: for every well-formed raster (with `width` and `height` in the range of `int`), every
threshold and every negative minValidSize (in the range of `int`), `extractComponents`
returns 0 and leaves an empty region list, whatever foreground the raster has: the bound
compared with the pixel count of a region is `minValidSize mod 2^64`, which is larger than
`width * height`. -/
theorem extractComponents_negative_minValidSize (p : PGMimageProcessor) (threshold : Nat)
    (minValidSize : Int) (hwf : WellFormed p) (hwi : p.width ≤ INT_MAX)
    (hhi : p.height ≤ INT_MAX) (hneg : minValidSize < 0) (hmi : INT_MIN ≤ minValidSize) :
    p.extractComponents threshold minValidSize = some ({ p with components := [] }, 0) ∧
      (minValidSize % 18446744073709551616).toNat > (p.width * p.height).toNat := by
  unfold INT_MAX at hwi hhi
  unfold INT_MIN at hmi
  have hw0 := hwf.1
  have hh0 := hwf.2.1
  have harea : p.width * p.height ≤ 2147483647 * 2147483647 :=
    Int.mul_le_mul hwi hhi (by omega) (by omega)
  have hbig : (minValidSize % 18446744073709551616).toNat > (p.width * p.height).toNat := by
    omega
  refine ⟨?_, hbig⟩
  obtain ⟨pm, nm, he⟩ := extract_total p threshold minValidSize hwf
  have he2 := he
  rw [extract_mod] at he2
  obtain ⟨p0, n0, he0, hcomps⟩ :=
    extract_sim p threshold (minValidSize % 18446744073709551616) (by omega) (by omega)
      pm nm he2
  obtain ⟨s0, hinv0, hs0⟩ := extract_spec p threshold 0 hwf
  rw [hs0] at he0
  injection he0 with e0
  have e1 : s0.components = p0.components := congrArg (fun r => r.1.components) e0
  have hnil : (p0.components.filter fun c =>
      decide (minValidSize % 18446744073709551616 ≤ c.getSize)) = [] := by
    rw [List.filter_eq_nil_iff]
    intro c hc
    have hle := region_size_le hinv0 (e1 ▸ hc)
    simp only [decide_eq_true_eq]
    unfold ConnectedComponent.getSize
    omega
  rw [hnil, List.map_nil, List.map_eq_nil_iff] at hcomps
  obtain ⟨comps, hp, hn⟩ := extract_some_form he
  rw [hp] at hcomps
  have hc2 : comps = [] := hcomps
  rw [he, hp, hn, hc2]
  rfl

/-- C35 at the 3 x 3 raster `rasterB`, which has foreground at threshold 1, with
minValidSize -1. -/
theorem extractComponents_negative_minValidSize_witness :
    WellFormed rasterB ∧ rasterB.width ≤ INT_MAX ∧ rasterB.height ≤ INT_MAX ∧
      (-1 : Int) < 0 ∧ INT_MIN ≤ (-1 : Int) ∧
      rasterB.extractComponents 1 1 = some ({ rasterB with components := rasterBRegions }, 2) ∧
      rasterB.extractComponents 1 (-1) = some ({ rasterB with components := [] }, 0) :=
  ⟨by decide, by decide, by decide, by decide, by decide, by decide,
    (extractComponents_negative_minValidSize rasterB 1 (-1) (by decide) (by decide)
      (by decide) (by decide) (by decide)).1⟩

/-! ## A moved-from component -/

/-- C36: the object that a move construction or a move assignment leaves behind has the
bounding box `(0, 0, 0, 0)`, not the unset sentinel, so for every `x` and `y` a following
`addPixel(x, y)` on it gives the single pixel `(x, y)` with the bounding box
`(min(0, x), min(0, y), max(0, x), max(0, y))`, which is `(x, y, x, y)` only when
`x = 0` and `y = 0`, so differs from it whenever `x != 0` or `y != 0`. -/
theorem movedFrom_addPixel_box (c d : ConnectedComponent) (x y : Int) :
    ((c.moveConstruct).2 = (d.moveAssign c).2) ∧
      (c.moveConstruct).2.getBoundingBox = (0, 0, 0, 0) ∧
      (c.moveConstruct).2.getBoundingBox ≠ (ConnectedComponent.ofId 0).getBoundingBox ∧
      ((c.moveConstruct).2.addPixel x y).getPixels = [(x, y)] ∧
      ((c.moveConstruct).2.addPixel x y).getSize = 1 ∧
      ((c.moveConstruct).2.addPixel x y).getBoundingBox =
        (min 0 x, min 0 y, max 0 x, max 0 y) ∧
      (((c.moveConstruct).2.addPixel x y).getBoundingBox = (x, y, x, y) ↔ x = 0 ∧ y = 0) ∧
      (x ≠ 0 ∨ y ≠ 0 → ((c.moveConstruct).2.addPixel x y).getBoundingBox ≠ (x, y, x, y)) := by
  have hbox : ((c.moveConstruct).2.addPixel x y).getBoundingBox =
      (min 0 x, min 0 y, max 0 x, max 0 y) := rfl
  have hiff : ((c.moveConstruct).2.addPixel x y).getBoundingBox = (x, y, x, y) ↔
      x = 0 ∧ y = 0 := by
    rw [hbox]
    constructor
    · intro e
      have e1 := congrArg (fun b => b.1) e
      have e2 := congrArg (fun b => b.2.1) e
      have e3 := congrArg (fun b => b.2.2.1) e
      have e4 := congrArg (fun b => b.2.2.2) e
      dsimp only at e1 e2 e3 e4
      omega
    · rintro ⟨hx, hy⟩
      rw [hx, hy]
      rfl
  have hsent : ((0 : Int), (0 : Int), (0 : Int), (0 : Int)) ≠
      (ConnectedComponent.ofId 0).getBoundingBox := by decide
  refine ⟨rfl, rfl, hsent, rfl, rfl, hbox, hiff, ?_⟩
  intro hne hbad
  have := hiff.1 hbad
  omega

/-- C36 at `addPixel(3, -2)` on a moved-from component: the box is `(0, -2, 3, 0)`. -/
theorem movedFrom_addPixel_box_witness :
    ((3 : Int) ≠ 0 ∨ (-2 : Int) ≠ 0) ∧
      (((ConnectedComponent.ofPixels 1 [(5, 5)]).moveConstruct).2.addPixel 3 (-2)).getBoundingBox =
        (0, -2, 3, 0) ∧
      (((ConnectedComponent.ofPixels 1 [(5, 5)]).moveConstruct).2.addPixel 3
        (-2)).getBoundingBox ≠ (3, -2, 3, -2) :=
  ⟨by decide, by decide,
    (movedFrom_addPixel_box (ConnectedComponent.ofPixels 1 [(5, 5)])
      (ConnectedComponent.ofId 0) 3 (-2)).2.2.2.2.2.2.2 (by decide)⟩

/-! ## The order of the pixels of a region -/

theorem getElem?_snoc_ge {α : Type} {ps : List α} {n q : α} {i : Nat}
    (hge : ps.length ≤ i) (hq : (ps ++ [n])[i]? = some q) : i = ps.length ∧ q = n := by
  have hlt : i < (ps ++ [n]).length := (List.getElem?_eq_some.1 hq).1
  rw [List.length_append, List.length_singleton] at hlt
  have hi : i = ps.length := by omega
  subst hi
  rw [List.getElem?_append_right (Nat.le_refl _)] at hq
  simp at hq
  exact ⟨rfl, hq.symm⟩

theorem parentBefore_snoc {ps : List (Int × Int)} {n cur : Int × Int} {D : Nat}
    (hcur : ps[D]? = some cur) (hadj : n ∈ neighbours cur.1 cur.2)
    (hE : ParentBefore D ps) : ParentBefore D (ps ++ [n]) := by
  have hD : D < ps.length := (List.getElem?_eq_some.1 hcur).1
  intro i q hi hq
  by_cases hlt : i < ps.length
  · rw [List.getElem?_append_left hlt] at hq
    obtain ⟨j, r, hj, hr, ha⟩ := hE i q hi hq
    exact ⟨j, r, hj, by rw [List.getElem?_append_left (by omega)]; exact hr, ha⟩
  · obtain ⟨_, hqn⟩ := getElem?_snoc_ge (by omega) hq
    exact ⟨D, cur, Nat.le_refl D, by rw [List.getElem?_append_left hD]; exact hcur,
      hqn ▸ hadj⟩

theorem parentBefore_mono {ps : List (Int × Int)} {D D2 : Nat} (hle : D ≤ D2)
    (hE : ParentBefore D ps) : ParentBefore D2 ps := by
  intro i q hi hq
  obtain ⟨j, r, hj, hr, ha⟩ := hE i q hi hq
  exact ⟨j, r, by omega, hr, ha⟩

theorem bfsOrdered_snoc {ps : List (Int × Int)} {n cur : Int × Int} {D : Nat}
    (hcur : ps[D]? = some cur) (hadj : n ∈ neighbours cur.1 cur.2)
    (hQ : BfsOrdered ps) (hE : ParentBefore D ps)
    (hfar : ∀ (j2 : Nat) (r2 : Int × Int), j2 < D → ps[j2]? = some r2 →
      n ∉ neighbours r2.1 r2.2) :
    BfsOrdered (ps ++ [n]) := by
  have hD : D < ps.length := (List.getElem?_eq_some.1 hcur).1
  have hE2 := parentBefore_snoc hcur hadj hE
  intro i i2 j2 q q2 r2 hi hii hq hq2 hr2 hadj2
  by_cases hj : D ≤ j2
  · obtain ⟨j, r, hjD, hr, ha⟩ := hE2 i q hi hq
    exact ⟨j, r, by omega, hr, ha⟩
  · have hj2 : j2 < ps.length := by omega
    rw [List.getElem?_append_left hj2] at hr2
    by_cases hi2 : i2 < ps.length
    · rw [List.getElem?_append_left hi2] at hq2
      rw [List.getElem?_append_left (by omega)] at hq
      obtain ⟨j, r, hjj, hr, ha⟩ := hQ i i2 j2 q q2 r2 hi hii hq hq2 hr2 hadj2
      exact ⟨j, r, hjj, by rw [List.getElem?_append_left (by omega)]; exact hr, ha⟩
    · obtain ⟨_, hqn⟩ := getElem?_snoc_ge (by omega) hq2
      exact absurd (hqn ▸ hadj2) (hfar j2 r2 (by omega) hr2)

theorem visitNeighbour_order {w h : Int} (cid : Int) {U0 : Int × Int → Prop}
    {s s2 : BfsState} {n cur : Int × Int} {D : Nat} (hc : BfsCore w h U0 s)
    (hcur : s.pixels[D]? = some cur) (hadj : n ∈ neighbours cur.1 cur.2)
    (hdone : ∀ (j2 : Nat) (r2 : Int × Int), j2 < D → s.pixels[j2]? = some r2 →
      ∀ q ∈ neighbours r2.1 r2.2, InBounds w h q → U0 q → q ∈ s.pixels)
    (hQ : BfsOrdered s.pixels) (hE : ParentBefore D s.pixels)
    (hv : visitNeighbour w h cid s n = some s2) :
    BfsOrdered s2.pixels ∧ ParentBefore D s2.pixels := by
  by_cases hin : InBounds w h n
  · by_cases ha : Avail w s.binaryImage s.labels n
    · obtain ⟨hU, hnot⟩ := (hc.avail n hin).1 ha
      rw [visitNeighbour_mark hin hc.len_bin hc.len_lab ha] at hv
      injection hv with e
      rw [← e]
      refine ⟨bfsOrdered_snoc hcur hadj hQ hE ?_, parentBefore_snoc hcur hadj hE⟩
      intro j2 r2 hj2 hr2 hn
      exact hnot (hdone j2 r2 hj2 hr2 n hn hin hU)
    · rw [visitNeighbour_skip hin hc.len_bin hc.len_lab ha] at hv
      injection hv with e
      rw [← e]
      exact ⟨hQ, hE⟩
  · rw [visitNeighbour_out hin] at hv
    injection hv with e
    rw [← e]
    exact ⟨hQ, hE⟩

theorem visitAll_order {w h : Int} (cid : Int) {U0 : Int × Int → Prop} {cur : Int × Int}
    {D : Nat} (ns : List (Int × Int)) :
    ∀ s : BfsState, BfsCore w h U0 s → s.pixels[D]? = some cur →
      (∀ n ∈ ns, n ∈ neighbours cur.1 cur.2) →
      (∀ (j2 : Nat) (r2 : Int × Int), j2 < D → s.pixels[j2]? = some r2 →
        ∀ q ∈ neighbours r2.1 r2.2, InBounds w h q → U0 q → q ∈ s.pixels) →
      BfsOrdered s.pixels → ParentBefore D s.pixels →
      ∀ s2, ns.foldlM (visitNeighbour w h cid) s = some s2 →
        BfsOrdered s2.pixels ∧ ParentBefore D s2.pixels := by
  induction ns with
  | nil =>
    intro s _ _ _ _ hQ hE s2 hv
    have e : s = s2 := by simpa using hv
    rw [← e]
    exact ⟨hQ, hE⟩
  | cons n ns ih =>
    intro s hc hcur hns hdone hQ hE s2 hv
    rw [List.foldlM_cons] at hv
    obtain ⟨s1, hv1, hrest⟩ := Option.bind_eq_some.1 hv
    have hadj := hns n (List.mem_cons_self n ns)
    obtain ⟨t, ht, hct, ⟨ext, hpx, _⟩, _⟩ :=
      visitNeighbour_core cid hc ⟨D, cur, hcur, hadj⟩
    rw [hv1] at ht
    injection ht with e
    subst e
    obtain ⟨hQ1, hE1⟩ := visitNeighbour_order cid hc hcur hadj hdone hQ hE hv1
    have hD : D < s.pixels.length := (List.getElem?_eq_some.1 hcur).1
    have hcur1 : s1.pixels[D]? = some cur := by
      rw [hpx, List.getElem?_append_left hD]
      exact hcur
    have hdone1 : ∀ (j2 : Nat) (r2 : Int × Int), j2 < D → s1.pixels[j2]? = some r2 →
        ∀ q ∈ neighbours r2.1 r2.2, InBounds w h q → U0 q → q ∈ s1.pixels := by
      intro j2 r2 hj2 hr2 q hq hin hU
      rw [hpx, List.getElem?_append_left (by omega)] at hr2
      rw [hpx]
      exact List.mem_append_left _ (hdone j2 r2 hj2 hr2 q hq hin hU)
    exact ih s1 hct hcur1 (fun n2 hn2 => hns n2 (List.mem_cons_of_mem n hn2)) hdone1 hQ1 hE1
      s2 hrest

theorem bfs_order {w h : Int} (cid : Int) {U0 : Int × Int → Prop} :
    ∀ (fuel : Nat) (done : List (Int × Int)) (s : BfsState),
      BfsCore w h U0 s → s.pixels = done ++ s.queue → ClosedOn w h U0 done s.pixels →
      BfsOrdered s.pixels → ParentBefore done.length s.pixels →
      ∀ s2, bfs w h cid fuel s = some s2 → BfsOrdered s2.pixels := by
  intro fuel
  induction fuel with
  | zero =>
    intro done s _ _ _ _ _ s2 hb
    simp [bfs] at hb
  | succ fuel ih =>
    intro done s hc hsplit hclosed hQ hE s2 hb
    rcases hq : s.queue with _ | ⟨cur, rest⟩
    · simp only [bfs, hq] at hb
      injection hb with e
      rw [← e]
      exact hQ
    · rw [hq] at hsplit
      simp only [bfs, hq] at hb
      obtain ⟨s1, hf, hb1⟩ := Option.bind_eq_some.1 hb
      have hc1 : BfsCore w h U0 { s with queue := rest } :=
        ⟨hc.len_bin, hc.len_lab, hc.nodup, hc.mem, hc.avail, hc.parent⟩
      have hcur : s.pixels[done.length]? = some cur := by
        rw [hsplit, List.getElem?_append_right (Nat.le_refl _)]
        simp
      have hpar : ∀ n ∈ neighbours cur.1 cur.2, ∃ (j : Nat) (r : Int × Int),
          ({ s with queue := rest } : BfsState).pixels[j]? = some r ∧
            n ∈ neighbours r.1 r.2 :=
        fun n hn => ⟨done.length, cur, hcur, hn⟩
      obtain ⟨t, hft, hc2, ⟨ext, hp2, hq2⟩, hn2⟩ :=
        visitAll_core cid (neighbours cur.1 cur.2) _ hc1 hpar
      rw [hf] at hft
      injection hft with e
      subst e
      have hp2b : s1.pixels = s.pixels ++ ext := hp2
      have hq2b : s1.queue = rest ++ ext := hq2
      have hdone : ∀ (j2 : Nat) (r2 : Int × Int), j2 < done.length →
          ({ s with queue := rest } : BfsState).pixels[j2]? = some r2 →
          ∀ q ∈ neighbours r2.1 r2.2, InBounds w h q → U0 q →
            q ∈ ({ s with queue := rest } : BfsState).pixels := by
        intro j2 r2 hj2 hr2 q hqn hin hU
        have hr3 : s.pixels[j2]? = some r2 := hr2
        rw [hsplit, List.getElem?_append_left hj2] at hr3
        exact hclosed r2 (List.getElem?_mem hr3) q hqn hin hU
      obtain ⟨hQ1, hE1⟩ :=
        visitAll_order cid (neighbours cur.1 cur.2) _ hc1 hcur (fun n hn => hn) hdone hQ hE
          s1 hf
      have hsplit2 : s1.pixels = (done ++ [cur]) ++ s1.queue := by
        rw [hp2b, hq2b, hsplit]; simp
      have hclosed2 : ClosedOn w h U0 (done ++ [cur]) s1.pixels := by
        intro r hr q hqn hin hU
        rw [List.mem_append, List.mem_singleton] at hr
        rcases hr with hr | hr
        · rw [hp2b]
          exact List.mem_append_left _ (hclosed r hr q hqn hin hU)
        · exact hn2 q (hr ▸ hqn) hin hU
      have hE2 : ParentBefore (done ++ [cur]).length s1.pixels :=
        parentBefore_mono (by rw [List.length_append]; omega) hE1
      exact ih (done ++ [cur]) s1 hc2 hsplit2 hclosed2 hQ1 hE2 s2 hb1

theorem bfs_start_core {w h m k : Int} {FG : Int × Int → Prop} {s : ScanState} {x y : Int}
    (hs : ScanInv w h FG m k s) (hxy : InBounds w h (x, y))
    (ha : Avail w s.binaryImage s.labels (x, y)) :
    BfsCore w h (fun q => InBounds w h q ∧ Avail w s.binaryImage s.labels q)
      { binaryImage := s.binaryImage.set (pixelIndex w (x, y)).toNat 0,
        labels := s.labels.set (pixelIndex w (x, y)).toNat s.componentID,
        queue := [(x, y)], pixels := [(x, y)] } := by
  refine ⟨?_, by simp [hs.len_lab], List.nodup_singleton _, ?_, ?_, ?_⟩
  · show (w * h).toNat ≤ (s.binaryImage.set (pixelIndex w (x, y)).toNat 0).length
    rw [List.length_set]
    exact hs.len_bin
  · intro q hq
    rw [List.mem_singleton] at hq
    subst hq
    exact ⟨hxy, hxy, ha⟩
  · intro q hq
    show Avail w (s.binaryImage.set (pixelIndex w (x, y)).toNat 0)
        (s.labels.set (pixelIndex w (x, y)).toNat s.componentID) q ↔
      (InBounds w h q ∧ Avail w s.binaryImage s.labels q) ∧ q ∉ [(x, y)]
    rw [avail_mark hxy hq, List.mem_singleton]
    exact ⟨fun ⟨a, b⟩ => ⟨⟨hq, a⟩, b⟩, fun ⟨⟨_, a⟩, b⟩ => ⟨a, b⟩⟩
  · intro i q hi hq
    exfalso
    have hq2 : [(x, y)][i]? = some q := hq
    have hlt : i < 1 := (List.getElem?_eq_some.1 hq2).1
    omega

theorem bfsOrdered_singleton (a : Int × Int) : BfsOrdered [a] ∧ ParentBefore 0 [a] := by
  constructor
  · intro i _ _ q _ _ hi _ hq _ _ _
    have hlt : i < 1 := (List.getElem?_eq_some.1 hq).1
    omega
  · intro i q hi hq
    have hlt : i < 1 := (List.getElem?_eq_some.1 hq).1
    omega

theorem scanCell_order {w h m k : Int} {FG : Int × Int → Prop} {s s2 : ScanState} {x y : Int}
    (hs : ScanInv w h FG m k s) (hxy : InBounds w h (x, y))
    (ho : ∀ c ∈ s.components, BfsOrdered c.pixels)
    (hv : scanCell w h m s x y = some s2) : ∀ c ∈ s2.components, BfsOrdered c.pixels := by
  by_cases ha : Avail w s.binaryImage s.labels (x, y)
  · rw [scanCell_start hxy hs.len_bin hs.len_lab ha] at hv
    obtain ⟨r, hb, hr⟩ := Option.bind_eq_some.1 hv
    have hor : BfsOrdered r.pixels :=
      bfs_order s.componentID (s.binaryImage.length + 1) [] _ (bfs_start_core hs hxy ha) rfl
        (by intro r hr; cases hr) (bfsOrdered_singleton (x, y)).1
        (bfsOrdered_singleton (x, y)).2 r hb
    by_cases hsz : r.pixels.length ≥ (m % 18446744073709551616).toNat
    · rw [if_pos hsz] at hr
      injection hr with e
      rw [← e]
      intro c hc
      rcases List.mem_append.1 hc with hc | hc
      · exact ho c hc
      · rw [List.mem_singleton] at hc
        rw [hc, ofPixels_pixels]
        exact hor
    · rw [if_neg hsz] at hr
      injection hr with e
      rw [← e]
      exact ho
  · rw [scanCell_skip hxy hs.len_bin hs.len_lab ha] at hv
    injection hv with e
    rw [← e]
    exact ho

theorem scanRow_prefix_order {w h m : Int} {FG : Int × Int → Prop}
    (hFG : ∀ q, FG q → InBounds w h q) {y : Int} (hy : 0 ≤ y ∧ y < h) :
    ∀ (n : Nat), (n : Int) ≤ w → ∀ s, ScanInv w h FG m (y * w) s →
      (∀ c ∈ s.components, BfsOrdered c.pixels) →
      ∀ s2, (List.range n).foldlM
          (fun st (x : Nat) => scanCell w h m st (x : Int) y) s = some s2 →
        ∀ c ∈ s2.components, BfsOrdered c.pixels := by
  intro n
  induction n with
  | zero =>
    intro _ s _ ho s2 hv
    have e : s = s2 := by simpa using hv
    rw [← e]
    exact ho
  | succ n ih =>
    intro hn s hs ho s2 hv
    rw [List.range_succ, List.foldlM_append] at hv
    obtain ⟨s1, hf, hc⟩ := Option.bind_eq_some.1 hv
    obtain ⟨t, hft, hst⟩ := scanRow_prefix_inv hFG hy n (by omega) s hs
    rw [hf] at hft
    injection hft with e
    subst e
    have ho1 := ih (by omega) s hs ho s1 hf
    have hin : InBounds w h ((n : Int), y) := ⟨⟨by omega, by omega⟩, hy⟩
    have hc2 : scanCell w h m s1 (n : Int) y = some s2 := by simpa using hc
    exact scanCell_order hst hin ho1 hc2

theorem scanRows_prefix_order {w h m : Int} {FG : Int × Int → Prop}
    (hFG : ∀ q, FG q → InBounds w h q) (hw : 0 < w) :
    ∀ (n : Nat), (n : Int) ≤ h → ∀ s, ScanInv w h FG m 0 s →
      (∀ c ∈ s.components, BfsOrdered c.pixels) →
      ∀ s2, (List.range n).foldlM
          (fun st (y : Nat) => scanRow w h m st (y : Int)) s = some s2 →
        ∀ c ∈ s2.components, BfsOrdered c.pixels := by
  intro n
  induction n with
  | zero =>
    intro _ s _ ho s2 hv
    have e : s = s2 := by simpa using hv
    rw [← e]
    exact ho
  | succ n ih =>
    intro hn s hs ho s2 hv
    rw [List.range_succ, List.foldlM_append] at hv
    obtain ⟨s1, hf, hc⟩ := Option.bind_eq_some.1 hv
    obtain ⟨t, hft, hst⟩ := scanRows_prefix_inv hFG hw n (by omega) s hs
    rw [hf] at hft
    injection hft with e
    subst e
    have ho1 := ih (by omega) s hs ho s1 hf
    have hc2 : scanRow w h m s1 (n : Int) = some s2 := by simpa using hc
    exact scanRow_prefix_order hFG (y := (n : Int)) ⟨by omega, by omega⟩ w.toNat (by omega)
      s1 hst ho1 s2 hc2

theorem extract_order (p : PGMimageProcessor) (t : Nat) (m : Int)
    (p2 : PGMimageProcessor) (n : Int) (he : p.extractComponents t m = some (p2, n)) :
    ∀ c ∈ p2.components, BfsOrdered c.pixels := by
  unfold PGMimageProcessor.extractComponents vecAlloc at he
  by_cases hprod : 0 ≤ p.width * p.height
  · rw [if_pos hprod, Option.some_bind] at he
    obtain ⟨s, hs, e⟩ := Option.map_eq_some'.1 he
    injection e with e1 _
    have e2 : s.components = p2.components := congrArg (fun r => r.components) e1
    rw [← e2]
    by_cases hd : p.width ≤ 0 ∨ p.height ≤ 0
    · rw [scanRows_degenerate hd] at hs
      injection hs with e3
      rw [← e3]
      intro c hc
      cases hc
    · have hw : 0 < p.width := by omega
      have hh : 0 < p.height := by omega
      by_cases hlen : (p.width * p.height).toNat ≤ p.imageData.length
      · have hs2 : (List.range p.height.toNat).foldlM
            (fun st (y : Nat) => scanRow p.width p.height m st (y : Int))
            { binaryImage := binarize p.imageData t,
              labels := List.replicate (p.width * p.height).toNat (-1),
              componentID := 0, components := [] } = some s := hs
        exact scanRows_prefix_order (fun q (hq : Foreground p t q) => hq.1) hw p.height.toNat
          (by omega) _ (init_inv p t m hlen) (by intro c hc; cases hc) s hs2
      · exfalso
        rw [scanRows_short hw hh] at hs
        · cases hs
        · show (binarize p.imageData t).length < (p.width * p.height).toNat
          unfold binarize
          rw [List.length_map]
          omega
  · rw [if_neg hprod] at he
    cases he

theorem pathLen_mem {S : Int × Int → Prop} {a b : Int × Int} {n : Nat}
    (hp : PathLen S a b n) (ha : S a) : S b := by
  cases hp with
  | refl => exact ha
  | tail _ hstep => exact hstep.2

theorem pathLen_of_parent {ps : List (Int × Int)} {sd : Int × Int}
    (hsd : ps.head? = some sd)
    (hpar : ∀ i q, 0 < i → ps[i]? = some q →
      ∃ j r, j < i ∧ ps[j]? = some r ∧ q ∈ neighbours r.1 r.2) :
    ∀ (i : Nat) (q : Int × Int), ps[i]? = some q →
      ∃ n, PathLen (fun r => r ∈ ps) sd q n := by
  intro i
  induction i using Nat.strong_induction_on with
  | _ i ih =>
    intro q hq
    rcases Nat.eq_zero_or_pos i with h0 | hpos
    · subst h0
      have e : ps[0]? = ps.head? := (List.head?_eq_getElem? ps).symm
      rw [e, hsd] at hq
      injection hq with e2
      rw [← e2]
      exact ⟨0, PathLen.refl⟩
    · obtain ⟨j, r, hj, hr, hadj⟩ := hpar i q hpos hq
      obtain ⟨n, hn⟩ := ih j hj r hr
      exact ⟨n + 1, PathLen.tail hn ⟨hadj, List.getElem?_mem hq⟩⟩

theorem shortest_exists {S : Int × Int → Prop} {a b : Int × Int} :
    ∀ (n : Nat), PathLen S a b n → ∃ d, ShortestPath S a b d := by
  intro n
  induction n using Nat.strong_induction_on with
  | _ n ih =>
    intro hp
    by_cases hmin : ∀ k, PathLen S a b k → n ≤ k
    · exact ⟨n, hp, hmin⟩
    · obtain ⟨k, hk⟩ := not_forall.1 hmin
      obtain ⟨hpk, hlt⟩ := Classical.not_imp.1 hk
      exact ih k (by omega) hpk

theorem ordered_path_le {ps : List (Int × Int)} {sd : Int × Int} (hnd : ps.Nodup)
    (hsd : ps.head? = some sd) (hQ : BfsOrdered ps) :
    ∀ (n i i2 : Nat) (q q2 : Int × Int), i ≤ i2 → ps[i]? = some q → ps[i2]? = some q2 →
      PathLen (fun r => r ∈ ps) sd q2 n →
      ∃ m, m ≤ n ∧ PathLen (fun r => r ∈ ps) sd q m := by
  have h0 : ps[0]? = some sd := by
    rw [← hsd]
    exact (List.head?_eq_getElem? ps).symm
  have hfirst : ∀ (i : Nat) (q : Int × Int), i = 0 → ps[i]? = some q → q = sd := by
    intro i q hi hq
    rw [hi, h0] at hq
    injection hq with e
    exact e.symm
  intro n
  induction n with
  | zero =>
    intro i i2 q q2 hii hq hq2 hp
    cases hp
    have hlt : i2 < ps.length := (List.getElem?_eq_some.1 hq2).1
    have hi2 : i2 = 0 := (List.getElem?_inj hlt hnd (hq2.trans h0.symm))
    have hq0 := hfirst i q (by omega) hq
    rw [hq0]
    exact ⟨0, Nat.le_refl 0, PathLen.refl⟩
  | succ n ih =>
    intro i i2 q q2 hii hq hq2 hp
    rcases Nat.eq_zero_or_pos i with hi0 | hpos
    · rw [hfirst i q hi0 hq]
      exact ⟨0, Nat.zero_le _, PathLen.refl⟩
    · cases hp with
      | tail hp2 hstep =>
        have hbm := pathLen_mem hp2 (List.mem_of_mem_head? hsd)
        obtain ⟨j2, hj2⟩ := List.getElem?_of_mem hbm
        obtain ⟨j, r, hjj, hr, hadj⟩ := hQ i i2 j2 q q2 _ hpos hii hq hq2 hj2 hstep.1
        obtain ⟨k, hk, hpk⟩ := ih j j2 r _ hjj hr hj2 hp2
        exact ⟨k + 1, by omega, PathLen.tail hpk ⟨hadj, List.getElem?_mem hq⟩⟩

/-- C34: every region left by `extractComponents` lists its pixels in breadth-first order.
With `sd` the first pixel of the region, every member has a shortest path of 4-adjacent member
pixels from `sd`, and the length of that path is non-decreasing along the pixel list: if `qi`
stands at position `i` and `qj` at position `j >= i`, the shortest path to `qi` is not longer
than the shortest path to `qj`.  This holds on every state on which the call returns, and the
call returns on every well-formed raster. -/
theorem extractComponents_bfs_order (p : PGMimageProcessor) (threshold : Nat)
    (minValidSize : Int) :
    (WellFormed p → ∃ p' n, p.extractComponents threshold minValidSize = some (p', n)) ∧
    ∀ p' n, p.extractComponents threshold minValidSize = some (p', n) →
      ∀ c ∈ p'.components, ∃ sd, c.getPixels.head? = some sd ∧
        (∀ q ∈ c.getPixels, ∃ d, ShortestPath (fun r => r ∈ c.getPixels) sd q d) ∧
        ∀ (i j : Nat) (qi qj : Int × Int) (di dj : Nat), i ≤ j →
          c.getPixels[i]? = some qi → c.getPixels[j]? = some qj →
          ShortestPath (fun r => r ∈ c.getPixels) sd qi di →
          ShortestPath (fun r => r ∈ c.getPixels) sd qj dj → di ≤ dj := by
  refine ⟨extract_total p threshold minValidSize, ?_⟩
  intro p' n he c hc
  have hord := extract_order p threshold minValidSize p' n he c hc
  rcases extract_partial p threshold minValidSize p' n he with hnil | ⟨s, hinv, hs⟩
  · rw [hnil] at hc
    cases hc
  · rw [hs] at hc
    obtain ⟨_, hP, _, sd, hsd, _⟩ := hinv.regions c hc
    refine ⟨sd, hsd, ?_, ?_⟩
    · intro q hq
      obtain ⟨i, hi⟩ := List.getElem?_of_mem hq
      obtain ⟨k, hk⟩ := pathLen_of_parent hsd hP.parent i q hi
      exact shortest_exists k hk
    · intro i j qi qj di dj hij hqi hqj hdi hdj
      obtain ⟨k, hk, hpk⟩ := ordered_path_le hP.nodup hsd hord dj i j qi qj hij hqi hqj hdj.1
      exact Nat.le_trans (hdi.2 k hpk) hk

/-- C34 at the 3 x 3 raster `solidRaster` with threshold 100 and minValidSize 1, whose one
region lists its nine pixels by distance 0, 1, 1, 2, 2, 2, 3, 3, 4 from the corner. -/
theorem extractComponents_bfs_order_witness :
    WellFormed solidRaster ∧
    solidRaster.extractComponents 100 1 = some (solidLabelled, 1) ∧
    ∀ c ∈ solidLabelled.components, ∃ sd, c.getPixels.head? = some sd ∧
      (∀ q ∈ c.getPixels, ∃ d, ShortestPath (fun r => r ∈ c.getPixels) sd q d) ∧
      ∀ (i j : Nat) (qi qj : Int × Int) (di dj : Nat), i ≤ j →
        c.getPixels[i]? = some qi → c.getPixels[j]? = some qj →
        ShortestPath (fun r => r ∈ c.getPixels) sd qi di →
        ShortestPath (fun r => r ∈ c.getPixels) sd qj dj → di ≤ dj :=
  ⟨by decide, by decide,
    (extractComponents_bfs_order solidRaster 100 1).2 solidLabelled 1 (by decide)⟩

end PGM
